import Mathlib

set_option maxRecDepth 100000

/-!
Verification of the geometric codec core of the hpec-dao repository:
the size classifier (`logTxSize`), the square-packing engine
(`MondrianLayout`), and the raster reconstruction engine
(`parseMondrianFromImage`).  Definitions are shallow embeddings of the
JavaScript source; numbers are modelled as exact integers/rationals/reals.
-/


/-! ## Definitions: shallow embedding of the source -/

namespace HpecDao

/-! ### Size classifier

Source: `function logTxSize(value, max)`.

```js
function logTxSize(value, max) {
  if (!value || value === 0) return 1;
  let scale = Math.ceil(Math.log10(value)) - 5;
  return Math.min(max || Infinity, Math.max(1, scale));
}
```

`value` is modelled as a real number (the JS falsy test `!value` is `value = 0`
for finite numbers; negative inputs, where JS produces `NaN`, are outside the
model and theorems assume `0 ≤ value`).  The `max` argument is modelled as
`Option ℝ`, `none` standing for the `Infinity` the caller passes as well as
for absent/falsy caps (`max || Infinity` also turns a cap of `0` into
`Infinity`, hence the `m = 0` test below). -/

noncomputable def logTxSize (value : ℝ) (max : Option ℝ) : ℝ :=
  if value = 0 then 1
  else
    let scale : ℝ := ((⌈Real.logb 10 value⌉ : ℤ) : ℝ) - 5
    match max with
    | none => Max.max 1 scale
    | some m => if m = 0 then Max.max 1 scale else Min.min m (Max.max 1 scale)

end HpecDao

namespace HpecDao

/-! ### Packing engine: `class MondrianLayout`

Source: `generateVisualization`'s inner `class MondrianLayout` (constructor,
`getRow`, `getSlot`, `addRow`, `addSlot`, `removeSlot`, `fillSlot`, `place`,
`setTxMapCell`).  JS numbers are modelled as `ℤ`.  Mutation is modelled by
state passing: each method takes and returns the layout.  A `Row`'s redundant
`map` (keyed by slot `x`; the source keeps it in sync with `slots`, whose `x`
values it keeps unique) is modelled as lookup-by-`x` in `slots`; the unused
`max` field of rows is elided.  The transaction argument of `place` is
modelled by its index.  `fillSlot`'s shadow loop iterates an index over a
list that its own body edits; the recursion carries explicit fuel
`width.toNat + 1`, an upper bound on the row length reached by the loop
(slots of a row have distinct `x` in `[0, width)` in every reachable state,
see `Inv` below). -/

structure Slot where
  x : ℤ
  y : ℤ
  r : ℤ
deriving DecidableEq, Repr

structure Row where
  y : ℤ
  slots : List Slot
deriving DecidableEq, Repr

structure MondrianLayout where
  width : ℤ
  rowOffset : ℤ
  rows : List Row
  txMap : List (List (Option ℕ))
deriving DecidableEq, Repr

/-- `new MondrianLayout(width)`. -/
def MondrianLayout.new (width : ℤ) : MondrianLayout :=
  { width := width, rowOffset := 0, rows := [], txMap := [] }

/-- The square returned by `fillSlot`/`place`: `{ x, y, r }`. -/
structure Square where
  x : ℤ
  y : ℤ
  r : ℤ
deriving DecidableEq, Repr

namespace MondrianLayout

/-- `getRow(position)`: `this.rows[position.y - this.rowOffset]`. -/
def getRow (st : MondrianLayout) (y : ℤ) : Option Row :=
  let i := y - st.rowOffset
  if i < 0 then none else st.rows.get? i.toNat

/-- Replace the row addressed by `y` (no-op when absent), used to model
in-place mutation of a row. -/
def setRow (st : MondrianLayout) (y : ℤ) (row : Row) : MondrianLayout :=
  let i := y - st.rowOffset
  if i < 0 then st else { st with rows := st.rows.set i.toNat row }

/-- `getSlot(position)`: the row's `map[position.x]`. -/
def getSlot (st : MondrianLayout) (x y : ℤ) : Option Slot :=
  match st.getRow y with
  | none => none
  | some row => row.slots.find? (fun t => t.x = x)

/-- `addRow()`. -/
def addRow (st : MondrianLayout) : MondrianLayout × Row :=
  let newRow : Row := { y := (st.rows.length : ℤ) + st.rowOffset, slots := [] }
  ({ st with rows := st.rows ++ [newRow] }, newRow)

/-- The sorted insertion in `addSlot`: insert before the first slot with a
larger `x` (`insertAt`), else push at the end. -/
def insertSlotSorted (s : Slot) : List Slot → List Slot
  | [] => [s]
  | t :: ts => if s.x < t.x then s :: t :: ts else t :: insertSlotSorted s ts

/-- `addSlot(slot)`: rejects `r <= 0`; merges into an existing slot at the
same `x` (keeping the larger `r`); otherwise inserts sorted by `x`.  Returns
the updated layout and the slot the source returns (`none` for the silent
`return`s). -/
def addSlot (st : MondrianLayout) (slot : Slot) : MondrianLayout × Option Slot :=
  if slot.r ≤ 0 then (st, none)
  else
    match st.getRow slot.y with
    | none => (st, none)
    | some row =>
      match row.slots.find? (fun t => t.x = slot.x) with
      | some existing =>
        if existing.r < slot.r then
          (st.setRow slot.y
            { row with slots :=
                row.slots.map (fun t => if t.x = slot.x then { t with r := slot.r } else t) },
           some { existing with r := slot.r })
        else (st, some existing)
      | none =>
        (st.setRow slot.y { row with slots := insertSlotSorted slot row.slots }, some slot)

/-- `removeSlot(slot)`: `splice(indexOf(slot), 1)` — removes the first
occurrence, or (faithful to `splice(-1, 1)` when `indexOf` misses) the last
element. -/
def spliceOutSlot (s : Slot) (l : List Slot) : List Slot :=
  if s ∈ l then l.erase s else l.dropLast

def removeSlot (st : MondrianLayout) (slot : Slot) : MondrianLayout :=
  match st.getRow slot.y with
  | none => st
  | some row => st.setRow slot.y { row with slots := spliceOutSlot slot row.slots }

/-- In-place mutation `slot.r = newr` of the slot keyed `x` in the row
addressed by `rowY`. -/
def updateSlotR (st : MondrianLayout) (rowY x newr : ℤ) : MondrianLayout :=
  match st.getRow rowY with
  | none => st
  | some row =>
    st.setRow rowY
      { row with slots := row.slots.map (fun t => if t.x = x then { t with r := newr } else t) }

end MondrianLayout

end HpecDao

namespace HpecDao

/-- The `square` record built at the top of `fillSlot`:
`{ left, right, bottom, top }`. -/
structure FillRect where
  left : ℤ
  right : ℤ
  bottom : ℤ
  top : ℤ
deriving DecidableEq, Repr

/-- The `remaining` record of `fillSlot`'s shadow loop: `{ x, y, w, h }`. -/
structure SplitRect where
  x : ℤ
  y : ℤ
  w : ℤ
  h : ℤ
deriving DecidableEq, Repr

namespace MondrianLayout

/-- `fillSlot`'s `while (remaining.w > 0 && remaining.h > 0)` splitting loop:
re-insert the leftover of a clipped shadow slot as squares, splitting along
the smaller of the remaining width/height.  Structural recursion on a fuel
that starts at `(w + h).toNat` (`splitRemainingLoop`); each pass shrinks
`w + h` by `min w h ≥ 1`, so the fuel never runs out before the loop
condition fails and the definition agrees with the unbounded source loop. -/
def splitRemainingGo (st : MondrianLayout) (rm : SplitRect) :
    ℕ → MondrianLayout
  | 0 => st
  | fuel + 1 =>
    if 0 < rm.w ∧ 0 < rm.h then
      if rm.w ≤ rm.h then
        splitRemainingGo (st.addSlot ⟨rm.x, rm.y, rm.w⟩).1
          ⟨rm.x, rm.y + rm.w, rm.w, rm.h - rm.w⟩ fuel
      else
        splitRemainingGo (st.addSlot ⟨rm.x, rm.y, rm.h⟩).1
          ⟨rm.x + rm.h, rm.y, rm.w - rm.h, rm.h⟩ fuel
    else st

def splitRemainingLoop (st : MondrianLayout) (rm : SplitRect) : MondrianLayout :=
  splitRemainingGo st rm (rm.w + rm.h).toNat

/-- One iteration of `fillSlot`'s first row loop
(`for (let rowIndex = slot.y; rowIndex < square.top; rowIndex++)`): collect
colliding slots and their maximal rightward excess, insert the slot at the
tile's right edge, shrink the collisions to end at the tile's left edge
(existing-row branch); or append the missing row with its left/right gap
slots. -/
def fillRowStep (st : MondrianLayout) (slot : Slot) (sw : ℤ) (sq : FillRect)
    (rowIndex : ℤ) : MondrianLayout :=
  match st.getRow rowIndex with
  | some row =>
    let collisions := row.slots.filter (fun t => ¬(t.x + t.r < sq.left ∨ sq.right ≤ t.x))
    let maxExcess := collisions.foldl
      (fun m t => Max.max m (Max.max 0 (t.x + t.r - (slot.x + slot.r)))) 0
    let st1 :=
      if sq.right < st.width ∧ (row.slots.find? (fun t => t.x = sq.right)).isNone then
        (st.addSlot ⟨sq.right, rowIndex, slot.r - sw + maxExcess⟩).1
      else st
    collisions.foldl (fun acc c =>
      let newr := slot.x - c.x
      let acc1 := acc.updateSlotR rowIndex c.x newr
      if newr ≤ 0 then acc1.removeSlot ⟨c.x, c.y, newr⟩ else acc1) st1
  | none =>
    let st1 := (st.addRow).1
    let st2 := if 0 < slot.x then (st1.addSlot ⟨0, rowIndex, slot.x⟩).1 else st1
    if sq.right < st.width then
      (st2.addSlot ⟨sq.right, rowIndex, st.width - sq.right⟩).1
    else st2

/-- `fillSlot`'s first row loop
(`for (let rowIndex = slot.y; rowIndex < square.top; rowIndex++)`), by
structural recursion on the iteration count `(sq.top - slot.y).toNat`. -/
def fillRowsGo (slot : Slot) (sw : ℤ) (sq : FillRect) :
    ℕ → ℤ → MondrianLayout → MondrianLayout
  | 0, _, st => st
  | n + 1, rowIndex, st =>
    fillRowsGo slot sw sq n (rowIndex + 1) (fillRowStep st slot sw sq rowIndex)

def fillRowsLoop (slot : Slot) (sw : ℤ) (sq : FillRect)
    (st : MondrianLayout) : MondrianLayout :=
  fillRowsGo slot sw sq (sq.top - slot.y).toNat slot.y st

/-- The body of one index step of `fillSlot`'s shadow loop
(`for (let i = 0; i < row.slots.length; i++)` over rows above the tile):
clip a slot that overlaps the tile's columns and reaches its top row, then
re-insert the leftover via `splitRemainingLoop`. -/
def shadowSlotStep (st : MondrianLayout) (slot : Slot) (sw : ℤ) (rowIndex : ℤ)
    (testSlot : Slot) : MondrianLayout :=
  if testSlot.x < slot.x + sw ∧ slot.x < testSlot.x + testSlot.r ∧
      slot.y ≤ testSlot.y + testSlot.r then
    let oldSlotWidth := testSlot.r
    let newR := slot.y - testSlot.y
    let st1 := st.updateSlotR rowIndex testSlot.x newR
    let st2 := if newR ≤ 0 then st1.removeSlot ⟨testSlot.x, testSlot.y, newR⟩ else st1
    splitRemainingLoop st2 ⟨testSlot.x + newR, testSlot.y, oldSlotWidth - newR, newR⟩
  else st

/-- `fillSlot`'s shadow-loop index scan over one row.  The scanned list is
edited by the body, so the recursion carries fuel; `fillSlot` passes
`width.toNat + 1`, which bounds the length the row can reach (slot `x`s are
kept unique in `[0, width)`). -/
def shadowScanRow (slot : Slot) (sw : ℤ) (rowIndex : ℤ) :
    ℕ → ℕ → MondrianLayout → MondrianLayout
  | 0, _, st => st
  | fuel + 1, i, st =>
    match st.getRow rowIndex with
    | none => st
    | some row =>
      if hi : i < row.slots.length then
        shadowScanRow slot sw rowIndex fuel (i + 1)
          (shadowSlotStep st slot sw rowIndex (row.slots.get ⟨i, hi⟩))
      else st

/-- `fillSlot`'s shadow loop over the rows
`[max(0, slot.y - squareWidth), slot.y)`, by structural recursion on the
iteration count. -/
def shadowRowsGo (slot : Slot) (sw : ℤ) :
    ℕ → ℤ → MondrianLayout → MondrianLayout
  | 0, _, st => st
  | n + 1, rowIndex, st =>
    shadowRowsGo slot sw n (rowIndex + 1)
      (shadowScanRow slot sw rowIndex (st.width.toNat + 1) 0 st)

def shadowRowsLoop (slot : Slot) (sw : ℤ)
    (st : MondrianLayout) : MondrianLayout :=
  shadowRowsGo slot sw (slot.y - Max.max 0 (slot.y - sw)).toNat
    (Max.max 0 (slot.y - sw)) st

/-- `fillSlot(slot, squareWidth)`. -/
def fillSlot (st : MondrianLayout) (slot : Slot) (sw : ℤ) :
    MondrianLayout × Square :=
  let sq : FillRect := ⟨slot.x, slot.x + sw, slot.y, slot.y + sw⟩
  let st1 := st.removeSlot slot
  let st2 := fillRowsLoop slot sw sq st1
  let st3 := shadowRowsLoop slot sw st2
  (st3, ⟨slot.x, slot.y, sw⟩)

end MondrianLayout

end HpecDao

namespace HpecDao

namespace MondrianLayout

/-- `setTxMapCell(coord, tx)`: grow `txMap` with `width`-long empty rows
until it covers `coord.y - rowOffset`, then write the transaction (its
index) at column `coord.x`.  A negative coordinate writes a non-index
property in JS, invisible to array reads; modelled as a no-op.  A column at
or past the row's length extends the row (JS sparse assignment), the holes
reading as `none`. -/
def setTxMapCell (st : MondrianLayout) (x y : ℤ) (tx : ℕ) : MondrianLayout :=
  let offsetY := y - st.rowOffset
  if offsetY < 0 ∨ x < 0 then st
  else
    let m := st.txMap ++ List.replicate (offsetY.toNat + 1 - st.txMap.length)
      (List.replicate st.width.toNat none)
    let rowL := m.getD offsetY.toNat []
    let rowL' := if x.toNat < rowL.length then rowL
      else rowL ++ List.replicate (x.toNat + 1 - rowL.length) none
    { st with txMap := m.set offsetY.toNat (rowL'.set x.toNat (some tx)) }

/-- Inner loop of `place`'s recording step:
`for (let y = 0; y < square.r; y++) setTxMapCell({x: square.x + x, ...})`. -/
def recordTileInner (sq : Square) (tx : ℕ) (xOff : ℤ) :
    ℕ → MondrianLayout → MondrianLayout
  | 0, st => st
  | j + 1, st =>
    (recordTileInner sq tx xOff j st).setTxMapCell (sq.x + xOff) (sq.y + j) tx

/-- The recording loop at the end of `place`:
`for x in [0, square.r): for y in [0, square.r): setTxMapCell(...)`. -/
def recordTileLoop (sq : Square) (tx : ℕ) : ℕ → MondrianLayout → MondrianLayout
  | 0, st => st
  | i + 1, st => recordTileInner sq tx i sq.r.toNat (recordTileLoop sq tx i st)

/-- `place(tx, size)`: first-fit scan of rows top-to-bottom and slots
left-to-right for a slot with `r >= size`; fill it, else append a fresh
full-width row and fill there.  When `width <= 0` the fallback `addSlot`
returns `undefined` and the source would throw on `fillSlot`; modelled as
`none`. -/
def findFirstSlot (st : MondrianLayout) (size : ℤ) : Option Slot :=
  (st.rows.map Row.slots).flatten.find? (fun t => size ≤ t.r)

def place (st : MondrianLayout) (tx : ℕ) (size : ℤ) :
    Option (MondrianLayout × Square) :=
  match st.findFirstSlot size with
  | some testSlot =>
    let (st1, sq) := st.fillSlot testSlot size
    some (recordTileLoop sq tx sq.r.toNat st1, sq)
  | none =>
    let (st1, row) := st.addRow
    match st1.addSlot ⟨0, row.y, st1.width⟩ with
    | (st2, some slot) =>
      let (st3, sq) := st2.fillSlot slot size
      some (recordTileLoop sq tx sq.r.toNat st3, sq)
    | (_, none) => none

end MondrianLayout

/-- The caller loop of `generateVisualization`: build a layout of the given
width and `place` each size in order (`txSizes.forEach(...)`), collecting the
returned squares. -/
def placeAll (width : ℤ) (sizes : List ℤ) : Option (MondrianLayout × List Square) :=
  go (MondrianLayout.new width) 0 [] sizes
where
  go (st : MondrianLayout) (idx : ℕ) (acc : List Square) :
      List ℤ → Option (MondrianLayout × List Square)
  | [] => some (st, acc.reverse)
  | s :: rest =>
    match st.place idx s with
    | none => none
    | some (st', sq) => go st' (idx + 1) (sq :: acc) rest

end HpecDao

namespace HpecDao

/-- Membership of a grid cell in a placed square's rectangle
`[x, x+r) × [y, y+r)`. -/
def Square.Contains (a : Square) (px py : ℤ) : Prop :=
  a.x ≤ px ∧ px < a.x + a.r ∧ a.y ≤ py ∧ py < a.y + a.r

/-- Two placed squares' grid rectangles do not intersect. -/
def Square.Disjoint (a b : Square) : Prop :=
  ∀ px py : ℤ, ¬(a.Contains px py ∧ b.Contains px py)

end HpecDao

namespace HpecDao

/-! ### The packing invariant

`Inv st tiles` is the well-formedness invariant of a layout state together
with the squares placed so far.  Its heart is slot freeness: the square
region `[x, x+r) × [y, y+r)` described by every stored slot is disjoint from
every placed tile.  `place` positions each new tile inside the free square of
the chosen slot (or inside fresh rows below everything), which yields the
no-overlap property C1. -/

/-- Some placed square covers the cell `(px, py)`. -/
def OccupiedBy (tiles : List Square) (px py : ℤ) : Prop :=
  ∃ t ∈ tiles, t.Contains px py

/-- The slot's square region is disjoint from all placed tiles. -/
def SlotFree (tiles : List Square) (s : Slot) : Prop :=
  ∀ px py : ℤ, s.x ≤ px → px < s.x + s.r → s.y ≤ py → py < s.y + s.r →
    ¬OccupiedBy tiles px py

/-- Well-formedness of a slot stored in row `i`. -/
def SlotWF (w : ℤ) (tiles : List Square) (i : ℕ) (s : Slot) : Prop :=
  s.y = i ∧ 1 ≤ s.r ∧ 0 ≤ s.x ∧ s.x + s.r ≤ w ∧ SlotFree tiles s

/-- Well-formedness of row `i`: correct `y`, well-formed slots, strictly
sorted by `x` (hence unique `x`s, the source's `map` key). -/
def RowWF (w : ℤ) (tiles : List Square) (i : ℕ) (row : Row) : Prop :=
  row.y = i ∧ (∀ s ∈ row.slots, SlotWF w tiles i s) ∧
    row.slots.Pairwise (fun a b => a.x < b.x)

/-- The layout invariant. -/
structure Inv (st : MondrianLayout) (tiles : List Square) : Prop where
  offset : st.rowOffset = 0
  rowWF : ∀ i row, st.rows[i]? = some row → RowWF st.width tiles i row
  tileX : ∀ t ∈ tiles, 0 ≤ t.x
  tileY : ∀ t ∈ tiles, 0 ≤ t.y
  tileRows : ∀ t ∈ tiles, 1 ≤ t.r → t.y + t.r ≤ st.rows.length
  tileW : ∀ t ∈ tiles, t.r ≤ st.width → t.x + t.r ≤ st.width
  disj : tiles.Pairwise Square.Disjoint

end HpecDao

namespace HpecDao

/-- The slot's square region is disjoint from one given square. -/
def SlotAvoids (t : Square) (s : Slot) : Prop :=
  ∀ px py : ℤ, s.x ≤ px → px < s.x + s.r → s.y ≤ py → py < s.y + s.r →
    ¬t.Contains px py

end HpecDao

namespace HpecDao

/-- Safety of a slot with respect to the tile `⟨s0.x, s0.y, sw⟩` being placed
at the chosen slot `s0`: its columns lie strictly left or right of the tile,
or its square ends above the tile's top row. -/
def ShadowSafe (s0 : Slot) (sw : ℤ) (s : Slot) : Prop :=
  s.x + s.r ≤ s0.x ∨ s0.x + sw ≤ s.x ∨ s.y + s.r ≤ s0.y

end HpecDao

namespace HpecDao

/-- Column separation from the tile `[s0.x, s0.x + sw)`. -/
def ColSafe (s0 : Slot) (sw : ℤ) (s : Slot) : Prop :=
  s.x + s.r ≤ s0.x ∨ s0.x + sw ≤ s.x

end HpecDao

namespace HpecDao

/-- The set of grid cells a placed square covers. -/
def Square.cells (t : Square) : Finset (ℤ × ℤ) :=
  Finset.Ico t.x (t.x + t.r) ×ˢ Finset.Ico t.y (t.y + t.r)

end HpecDao

namespace HpecDao

/-- The tile-color predicate of the reconstruction scan:
`r > 200 && g > 100 && g < 180 && b < 50`. -/
def matchColor (c : ℕ × ℕ × ℕ) : Bool :=
  decide (200 < c.1 ∧ 100 < c.2.1 ∧ c.2.1 < 180 ∧ c.2.2 < 50)

/-- State of one flood fill: the shared `visited` set, the component's
bounding box, the per-component pixel counter, and the explicit stack. -/
structure FloodState where
  visited : Finset (ℤ × ℤ)
  minX : ℤ
  maxX : ℤ
  minY : ℤ
  maxY : ℤ
  count : ℕ
  stack : List (ℤ × ℤ)
deriving DecidableEq

/-- One iteration of the flood fill's `while (stack.length > 0)` loop.
`none` means the loop has ended (empty stack, or the million-pixel break).
The new coordinates are consed in reverse push order, matching
`stack.pop()` taking the most recently pushed entry. -/
def floodStep (W H : ℕ) (pix : ℕ → ℕ → ℕ × ℕ × ℕ) (s : FloodState) :
    Option FloodState :=
  match s.stack with
  | [] => none
  | (cx, cy) :: rest =>
    if (cx, cy) ∈ s.visited then some { s with stack := rest }
    else if cx < 0 ∨ (W : ℤ) ≤ cx ∨ cy < 0 ∨ (H : ℤ) ≤ cy then
      some { s with stack := rest }
    else if 1000000 < s.count + 1 then none
    else if matchColor (pix cx.toNat cy.toNat) then
      some { visited := insert (cx, cy) s.visited,
             minX := min s.minX cx, maxX := max s.maxX cx,
             minY := min s.minY cy, maxY := max s.maxY cy,
             count := s.count + 1,
             stack := (cx, cy - 1) :: (cx, cy + 1) :: (cx - 1, cy) ::
               (cx + 1, cy) :: rest }
    else some { s with count := s.count + 1, stack := rest }

/-- The flood-fill loop, by iteration count; returns the state at which the
loop ended (or the state after `n` iterations if it is still running). -/
def floodGo (W H : ℕ) (pix : ℕ → ℕ → ℕ × ℕ × ℕ) :
    ℕ → FloodState → FloodState
  | 0, s => s
  | n + 1, s =>
    match floodStep W H pix s with
    | none => s
    | some s' => floodGo W H pix n s'

/-- Termination measure: unvisited in-bounds pixels weigh five, stack entries
weigh one. -/
def floodMeasure (W H : ℕ) (s : FloodState) : ℕ :=
  5 * ((Finset.Ico (0 : ℤ) (W : ℤ) ×ˢ Finset.Ico (0 : ℤ) (H : ℤ)) \ s.visited).card +
    s.stack.length

end HpecDao

namespace HpecDao

/-- An in-bounds tile-colored coordinate. -/
def ColoredInb (W H : ℕ) (pix : ℕ → ℕ → ℕ × ℕ × ℕ) (p : ℤ × ℤ) : Prop :=
  0 ≤ p.1 ∧ p.1 < (W : ℤ) ∧ 0 ≤ p.2 ∧ p.2 < (H : ℤ) ∧
    matchColor (pix p.1.toNat p.2.toNat) = true

/-- One 4-neighbour step between tile-colored in-bounds coordinates. -/
def adjStep (W H : ℕ) (pix : ℕ → ℕ → ℕ × ℕ × ℕ) (p q : ℤ × ℤ) : Prop :=
  ColoredInb W H pix p ∧ ColoredInb W H pix q ∧
    ((q.1 = p.1 + 1 ∧ q.2 = p.2) ∨ (q.1 = p.1 - 1 ∧ q.2 = p.2) ∨
     (q.1 = p.1 ∧ q.2 = p.2 + 1) ∨ (q.1 = p.1 ∧ q.2 = p.2 - 1))

/-- 4-connectivity through tile-colored pixels. -/
def Conn (W H : ℕ) (pix : ℕ → ℕ → ℕ × ℕ × ℕ) (p q : ℤ × ℤ) : Prop :=
  Relation.ReflTransGen (adjStep W H pix) p q

/-- The bounding box and index recorded for one reconstructed component (the
source scales these integers by `0.15` into the emitted float fields). -/
structure ParsedSquare where
  minX : ℤ
  maxX : ℤ
  minY : ℤ
  maxY : ℤ
  txIndex : ℕ
deriving DecidableEq, Repr

/-- The scan order of `parseMondrianFromImage`: `y` outer, `x` inner. -/
def scanCoords (W H : ℕ) : List (ℕ × ℕ) :=
  ((List.range H).map (fun y => (List.range W).map (fun x => (x, y)))).flatten

/-- The reconstruction scan: at each unvisited tile-colored pixel, either stop
at the 10,000-square cap (returning the squares found so far) or flood fill
and record the component's bounding box. -/
def scanGo (W H : ℕ) (pix : ℕ → ℕ → ℕ × ℕ × ℕ) :
    List (ℕ × ℕ) → Finset (ℤ × ℤ) → List ParsedSquare → List ParsedSquare
  | [], _, sqs => sqs
  | (x, y) :: rest, visited, sqs =>
    if matchColor (pix x y) = true ∧ ((x : ℤ), (y : ℤ)) ∉ visited then
      if 10000 ≤ sqs.length then sqs
      else
        let f := floodGo W H pix (5 * (W * H) + 2)
          ⟨visited, (x : ℤ), (x : ℤ), (y : ℤ), (y : ℤ), 0, [((x : ℤ), (y : ℤ))]⟩
        scanGo W H pix rest f.visited
          (sqs ++ [⟨f.minX, f.maxX, f.minY, f.maxY, sqs.length⟩])
    else scanGo W H pix rest visited sqs

/-- `parseMondrianFromImage`'s pixel pass over the whole buffer. -/
def parseSquares (W H : ℕ) (pix : ℕ → ℕ → ℕ × ℕ × ℕ) : List ParsedSquare :=
  scanGo W H pix (scanCoords W H) ∅ []

end HpecDao

namespace HpecDao

/-- A buffer whose even-`x` pixels are tile-colored and isolated. -/
def isolatedPix (x : ℕ) (y : ℕ) : ℕ × ℕ × ℕ :=
  if x % 2 = 0 then (255, 150, 0) else (0, 0, 0)

end HpecDao

/-! ## Theorems -/

namespace HpecDao

/-- **C4**: `logTxSize` (the Size Classifier `classify`) returns `1` on a falsy
(`= 0`) raw weight; on a positive raw weight it agrees with the spec formula
`max(1, min(maxTier, ceil(log10 rawWeight) - 5))` (the `min` disappearing when
no finite cap is supplied); and the result is always `≥ 1`.  The cap, when
present, is a size tier, hence `1 ≤ m`. -/
theorem logTxSize_matches_spec (v : ℝ) (mt : Option ℝ)
    (hv : 0 ≤ v) (hm : ∀ m ∈ mt, 1 ≤ m) :
    (v = 0 → logTxSize v mt = 1) ∧
    (0 < v → ∀ m, mt = some m →
      logTxSize v mt =
        Max.max 1 (Min.min m (((⌈Real.logb 10 v⌉ : ℤ) : ℝ) - 5))) ∧
    (0 < v → mt = none →
      logTxSize v mt = Max.max 1 (((⌈Real.logb 10 v⌉ : ℤ) : ℝ) - 5)) ∧
    1 ≤ logTxSize v mt := by
  refine ⟨?_, ?_, ?_, ?_⟩
  · intro h; simp [logTxSize, h]
  · intro hpos m hmt
    subst hmt
    have h1m : (1 : ℝ) ≤ m := hm m rfl
    have hm0 : m ≠ 0 := by linarith
    simp only [logTxSize, if_neg (ne_of_gt hpos), if_neg hm0]
    rw [max_min_distrib_left, max_eq_right h1m]
  · intro hpos hmt
    subst hmt
    simp [logTxSize, if_neg (ne_of_gt hpos)]
  · rcases eq_or_lt_of_le hv with h0 | hpos
    · simp [logTxSize, ← h0]
    · cases mt with
      | none =>
        simp only [logTxSize, if_neg (ne_of_gt hpos)]
        exact le_max_left _ _
      | some m =>
        have h1m : (1 : ℝ) ≤ m := hm m rfl
        have hm0 : m ≠ 0 := by linarith
        simp only [logTxSize, if_neg (ne_of_gt hpos), if_neg hm0]
        exact le_min h1m (le_max_left _ _)

/-- Witness for `logTxSize_matches_spec` at `v = 0`, `mt = some 3`. -/
theorem logTxSize_matches_spec_witness :
    (0 : ℝ) ≤ 0 ∧
    ((0 : ℝ) = 0 → logTxSize 0 (some 3) = 1) :=
  ⟨le_refl 0,
    (logTxSize_matches_spec 0 (some 3) (le_refl 0)
      (by intro m hm; rw [Option.mem_def, Option.some_inj] at hm; rw [← hm]; norm_num)).1⟩

/-- **C9**: the classifier is monotone in the weight: for `0 ≤ w₁ < w₂`
and the same cap (a size tier when present, hence `≥ 1`),
`logTxSize w₁ mt ≤ logTxSize w₂ mt`. -/
theorem logTxSize_monotone (w₁ w₂ : ℝ) (mt : Option ℝ)
    (h0 : 0 ≤ w₁) (h12 : w₁ < w₂) (hm : ∀ m ∈ mt, 1 ≤ m) :
    logTxSize w₁ mt ≤ logTxSize w₂ mt := by
  have hw2 : 0 < w₂ := lt_of_le_of_lt h0 h12
  rcases eq_or_lt_of_le h0 with hz | hp
  · have hl : logTxSize w₁ mt = 1 := by simp [logTxSize, ← hz]
    rw [hl]
    exact (logTxSize_matches_spec w₂ mt (le_of_lt hw2) hm).2.2.2
  · have hscale : ((⌈Real.logb 10 w₁⌉ : ℤ) : ℝ) - 5 ≤
        ((⌈Real.logb 10 w₂⌉ : ℤ) : ℝ) - 5 := by
      have hlog : Real.logb 10 w₁ ≤ Real.logb 10 w₂ :=
        Real.logb_le_logb_of_le (by norm_num) hp (le_of_lt h12)
      have hceil : ⌈Real.logb 10 w₁⌉ ≤ ⌈Real.logb 10 w₂⌉ := Int.ceil_le_ceil hlog
      have : ((⌈Real.logb 10 w₁⌉ : ℤ) : ℝ) ≤ ((⌈Real.logb 10 w₂⌉ : ℤ) : ℝ) := by
        exact_mod_cast hceil
      linarith
    cases mt with
    | none =>
      simp only [logTxSize, if_neg (ne_of_gt hp), if_neg (ne_of_gt hw2)]
      exact max_le_max (le_refl 1) hscale
    | some m =>
      have h1m : (1 : ℝ) ≤ m := hm m rfl
      have hm0 : m ≠ 0 := by linarith
      simp only [logTxSize, if_neg (ne_of_gt hp), if_neg (ne_of_gt hw2), if_neg hm0]
      exact min_le_min (le_refl m) (max_le_max (le_refl 1) hscale)

/-- Witness for `logTxSize_monotone` at `w₁ = 0`, `w₂ = 1`, `mt = none`. -/
theorem logTxSize_monotone_witness :
    (0 : ℝ) ≤ 0 ∧ (0 : ℝ) < 1 ∧ logTxSize 0 none ≤ logTxSize 1 none :=
  ⟨le_refl 0, zero_lt_one,
    logTxSize_monotone 0 1 none (le_refl 0) zero_lt_one (by intro m hm; simp at hm)⟩

end HpecDao

namespace HpecDao

/-- Interval criterion for `Square.Disjoint`. -/
theorem Square.disjoint_of_separated (a b : Square)
    (h : b.x + b.r ≤ a.x ∨ a.x + a.r ≤ b.x ∨ b.y + b.r ≤ a.y ∨ a.y + a.r ≤ b.y) :
    a.Disjoint b := by
  intro px py ⟨⟨hax, hax', hay, hay'⟩, ⟨hbx, hbx', hby, hby'⟩⟩
  omega

/-- **C2 (code bug)**: the declared row/slot invariant — slots of a row
disjointly cover its free columns — is violated by `fillSlot`.  On a layout
of width 7, placing sizes 3 then 5 leaves row 1 with slots at `x = 5`
(`r = 2`) and `x = 6` (`r = 1`), whose column ranges both contain column 6. -/
theorem place_violates_slot_disjointness :
    ∃ rows ∈ (placeAll 7 [3, 5]).map (fun p => p.1.rows), ∃ row ∈ rows,
      ∃ s₁ ∈ row.slots, ∃ s₂ ∈ row.slots,
        s₁ ≠ s₂ ∧ 0 < s₁.r ∧ 0 < s₂.r ∧
        s₂.x < s₁.x + s₁.r ∧ s₁.x < s₂.x + s₂.r := by
  refine ⟨[⟨0, [⟨3, 0, 3⟩, ⟨6, 0, 1⟩]⟩,
           ⟨1, [⟨3, 1, 2⟩, ⟨5, 1, 2⟩, ⟨6, 1, 1⟩]⟩,
           ⟨2, [⟨3, 2, 1⟩, ⟨4, 2, 1⟩, ⟨5, 2, 1⟩, ⟨6, 2, 1⟩]⟩,
           ⟨3, [⟨5, 3, 2⟩]⟩, ⟨4, [⟨5, 4, 2⟩]⟩, ⟨5, [⟨5, 5, 2⟩]⟩,
           ⟨6, [⟨5, 6, 2⟩]⟩, ⟨7, [⟨5, 7, 2⟩]⟩], ?_,
         ⟨1, [⟨3, 1, 2⟩, ⟨5, 1, 2⟩, ⟨6, 1, 1⟩]⟩, ?_,
         ⟨5, 1, 2⟩, ?_, ⟨6, 1, 1⟩, ?_, ?_⟩ <;> decide

/-- **C3 counterexample**: the concrete scenario (width 10, sizes
`[3,3,3,1,1,1,1,1,1,1]`) does *not* fill the grid with zero remaining free
area: six cells of the occupancy grid (`txMap`) stay unfilled. -/
theorem concrete_scenario_not_fully_covered :
    ¬((placeAll 10 [3, 3, 3, 1, 1, 1, 1, 1, 1, 1]).map
        (fun p => (p.1.txMap.map (fun row => row.countP (fun c => c = none))).sum)
      = some 0) ∧
    (placeAll 10 [3, 3, 3, 1, 1, 1, 1, 1, 1, 1]).map
        (fun p => (p.1.txMap.map (fun row => row.countP (fun c => c = none))).sum)
      = some 6 := by
  constructor <;> decide

/-- **C3 (amended)**: in the concrete scenario the first 3×3 tile lands at
`(0,0)`, the second at `(3,0)`, the third at `(6,0)`; the seven 1×1 tiles
fill the first available single-column gaps in row-major order
(`(9,0), (9,1), (9,2), (0,3), (1,3), (2,3), (3,3)`); no two tiles overlap;
and exactly six cells (columns 4–9 of row 3) remain free. -/
theorem concrete_scenario_layout :
    (placeAll 10 [3, 3, 3, 1, 1, 1, 1, 1, 1, 1]).map (fun p => p.2) =
      some [⟨0, 0, 3⟩, ⟨3, 0, 3⟩, ⟨6, 0, 3⟩, ⟨9, 0, 1⟩, ⟨9, 1, 1⟩, ⟨9, 2, 1⟩,
            ⟨0, 3, 1⟩, ⟨1, 3, 1⟩, ⟨2, 3, 1⟩, ⟨3, 3, 1⟩] ∧
    List.Pairwise Square.Disjoint
      [⟨0, 0, 3⟩, ⟨3, 0, 3⟩, ⟨6, 0, 3⟩, ⟨9, 0, 1⟩, ⟨9, 1, 1⟩, ⟨9, 2, 1⟩,
       ⟨0, 3, 1⟩, ⟨1, 3, 1⟩, ⟨2, 3, 1⟩, ⟨3, 3, 1⟩] ∧
    (placeAll 10 [3, 3, 3, 1, 1, 1, 1, 1, 1, 1]).map
        (fun p => p.1.txMap.map (fun row =>
          (List.range row.length).filter (fun c => row.getD c none = none))) =
      some [[], [], [], [4, 5, 6, 7, 8, 9]] := by
  refine ⟨by decide, ?_, by decide⟩
  have h : List.Pairwise
      (fun a b : Square => b.x + b.r ≤ a.x ∨ a.x + a.r ≤ b.x ∨
        b.y + b.r ≤ a.y ∨ a.y + a.r ≤ b.y)
      [⟨0, 0, 3⟩, ⟨3, 0, 3⟩, ⟨6, 0, 3⟩, ⟨9, 0, 1⟩, ⟨9, 1, 1⟩, ⟨9, 2, 1⟩,
       (⟨0, 3, 1⟩ : Square), ⟨1, 3, 1⟩, ⟨2, 3, 1⟩, ⟨3, 3, 1⟩] := by decide
  exact h.imp (fun hab => Square.disjoint_of_separated _ _ hab)

/-- **C5 counterexample**: `place` with `sizeTier = 0` is *not* silently
ignored: on a width-5 layout holding one tile of side 2, it removes row 0's
free slot `⟨2, 0, 3⟩` (and returns a degenerate square), leaving the slot
structure changed. -/
theorem place_nonpositive_size_mutates :
    ((MondrianLayout.new 5).place 0 2).map
        (fun p => p.1.rows.map (fun r => r.slots)) =
      some [[⟨2, 0, 3⟩], [⟨2, 1, 3⟩]] ∧
    (((MondrianLayout.new 5).place 0 2).bind (fun p => p.1.place 1 0)).map
        (fun p => (p.2, p.1.rows.map (fun r => r.slots))) =
      some (⟨2, 0, 0⟩, [[], [⟨2, 1, 3⟩]]) := by
  constructor <;> decide

end HpecDao

namespace HpecDao

/-- **C5 (amended)**: a `place` call with `sizeTier ≤ 0` does not raise and
marks no occupancy cells, but it is not silently ignored: the first slot in
scan order (every stored slot has `r ≥ 1 ≥ sizeTier`, so the scan stops at
the very first slot) is removed and a degenerate square of side `sizeTier`
at its position is returned; on a slotless layout of positive width a fresh
empty row is appended, its temporary full-width slot being consumed
immediately. -/
theorem place_nonpositive_size (s : ℤ) (hs : s ≤ 0) :
    (∀ (st : MondrianLayout) (tx : ℕ) (t : Slot), st.findFirstSlot s = some t →
      st.place tx s = some (st.removeSlot t, ⟨t.x, t.y, s⟩)) ∧
    (∀ (w : ℤ), 0 < w → ∀ tx : ℕ, (MondrianLayout.new w).place tx s =
      some ({ width := w, rowOffset := 0, rows := [⟨0, []⟩], txMap := [] },
            ⟨0, 0, s⟩)) := by
  have hsnat : s.toNat = 0 := Int.toNat_of_nonpos hs
  have hfill : ∀ (st : MondrianLayout) (t : Slot),
      st.fillSlot t s = (st.removeSlot t, ⟨t.x, t.y, s⟩) := by
    intro st t
    have hc1 : (t.y + s - t.y).toNat = 0 := by omega
    have hc2 : (t.y - Max.max 0 (t.y - s)).toNat = 0 := by
      have h1 := le_max_right (0 : ℤ) (t.y - s)
      omega
    simp only [MondrianLayout.fillSlot, MondrianLayout.fillRowsLoop,
      MondrianLayout.shadowRowsLoop, hc1, hc2, MondrianLayout.fillRowsGo,
      MondrianLayout.shadowRowsGo]
  constructor
  · intro st tx t h
    simp only [MondrianLayout.place, h, hfill, hsnat,
      MondrianLayout.recordTileLoop]
  · intro w hw tx
    have hfind : ({ width := w, rowOffset := 0, rows := [], txMap := [] } :
        MondrianLayout).findFirstSlot s = none := rfl
    have hne : ¬(w ≤ 0) := not_le.mpr hw
    simp only [MondrianLayout.place, MondrianLayout.new, hfind,
      MondrianLayout.addRow, List.length_nil, Nat.cast_zero, zero_add,
      List.nil_append, MondrianLayout.addSlot, if_neg hne,
      MondrianLayout.getRow, MondrianLayout.getSlot, sub_zero, sub_self]
    norm_num [MondrianLayout.setRow, MondrianLayout.insertSlotSorted, hfill,
      MondrianLayout.removeSlot, MondrianLayout.getRow,
      MondrianLayout.spliceOutSlot, MondrianLayout.recordTileLoop, hsnat]

/-- Witness for `place_nonpositive_size` at `s = 0`, applied to the width-5
layout holding one side-2 tile (first slot `⟨2, 0, 3⟩`) and to the fresh
width-5 layout. -/
theorem place_nonpositive_size_witness :
    (0 : ℤ) ≤ 0 ∧
    (∀ (st : MondrianLayout) (tx : ℕ) (t : Slot), st.findFirstSlot 0 = some t →
      st.place tx 0 = some (st.removeSlot t, ⟨t.x, t.y, 0⟩)) ∧
    (MondrianLayout.new 5).place 7 0 =
      some ({ width := 5, rowOffset := 0, rows := [⟨0, []⟩], txMap := [] },
            ⟨0, 0, 0⟩) :=
  ⟨le_refl 0, (place_nonpositive_size 0 (le_refl 0)).1,
    (place_nonpositive_size 0 (le_refl 0)).2 5 (by norm_num) 7⟩

/-- **C6**: the packing engine is deterministic — `placeAll` is a function of
the width and the ordered size sequence alone, so two runs over equal inputs
return equal placed-square sequences (and equal final layouts). -/
theorem place_deterministic (w₁ w₂ : ℤ) (sizes₁ sizes₂ : List ℤ)
    (hw : w₁ = w₂) (hsz : sizes₁ = sizes₂) :
    placeAll w₁ sizes₁ = placeAll w₂ sizes₂ := by
  subst hw; subst hsz; rfl

/-- Witness for `place_deterministic` on the width-10 demo sequence. -/
theorem place_deterministic_witness :
    (10 : ℤ) = 10 ∧ [3, 3, 1] = ([3, 3, 1] : List ℤ) ∧
    placeAll 10 [3, 3, 1] = placeAll 10 [3, 3, 1] :=
  ⟨rfl, rfl, place_deterministic 10 10 [3, 3, 1] [3, 3, 1] rfl rfl⟩

end HpecDao

namespace HpecDao

namespace MondrianLayout

/-- `getRow` under a zero `rowOffset`. -/
theorem getRow_eq (st : MondrianLayout) (h0 : st.rowOffset = 0) (y : ℤ) :
    st.getRow y = if y < 0 then none else st.rows[y.toNat]? := by
  simp [getRow, h0]

theorem getRow_nonneg (st : MondrianLayout) (h0 : st.rowOffset = 0) (y : ℤ)
    (hy : 0 ≤ y) : st.getRow y = st.rows[y.toNat]? := by
  simp [getRow_eq st h0 y, not_lt.mpr hy]

theorem setRow_def (st : MondrianLayout) (h0 : st.rowOffset = 0) (y : ℤ)
    (row : Row) (hy : 0 ≤ y) :
    st.setRow y row = { st with rows := st.rows.set y.toNat row } := by
  simp [setRow, h0, not_lt.mpr hy]

end MondrianLayout

/-! Frame lemmas: the four scalar fields other than `rows` never change
(`width`, `rowOffset`), and most operations leave `txMap` alone. -/

namespace MondrianLayout

@[simp] theorem setRow_width (st : MondrianLayout) (y : ℤ) (r : Row) :
    (st.setRow y r).width = st.width := by
  simp only [setRow]; split <;> rfl

@[simp] theorem setRow_rowOffset (st : MondrianLayout) (y : ℤ) (r : Row) :
    (st.setRow y r).rowOffset = st.rowOffset := by
  simp only [setRow]; split <;> rfl

@[simp] theorem setRow_txMap (st : MondrianLayout) (y : ℤ) (r : Row) :
    (st.setRow y r).txMap = st.txMap := by
  simp only [setRow]; split <;> rfl

@[simp] theorem addRow_width (st : MondrianLayout) :
    (st.addRow).1.width = st.width := rfl

@[simp] theorem addRow_rowOffset (st : MondrianLayout) :
    (st.addRow).1.rowOffset = st.rowOffset := rfl

@[simp] theorem addRow_txMap (st : MondrianLayout) :
    (st.addRow).1.txMap = st.txMap := rfl

@[simp] theorem addRow_rows (st : MondrianLayout) :
    (st.addRow).1.rows = st.rows ++
      [{ y := (st.rows.length : ℤ) + st.rowOffset, slots := [] }] := rfl

theorem addSlot_fst (st : MondrianLayout) (s : Slot) :
    (st.addSlot s).1.width = st.width ∧
    (st.addSlot s).1.rowOffset = st.rowOffset ∧
    (st.addSlot s).1.txMap = st.txMap := by
  unfold addSlot
  repeat' split
  all_goals simp

@[simp] theorem addSlot_width (st : MondrianLayout) (s : Slot) :
    (st.addSlot s).1.width = st.width := (addSlot_fst st s).1

@[simp] theorem addSlot_rowOffset (st : MondrianLayout) (s : Slot) :
    (st.addSlot s).1.rowOffset = st.rowOffset := (addSlot_fst st s).2.1

@[simp] theorem addSlot_txMap (st : MondrianLayout) (s : Slot) :
    (st.addSlot s).1.txMap = st.txMap := (addSlot_fst st s).2.2

theorem removeSlot_fst (st : MondrianLayout) (s : Slot) :
    (st.removeSlot s).width = st.width ∧
    (st.removeSlot s).rowOffset = st.rowOffset ∧
    (st.removeSlot s).txMap = st.txMap := by
  unfold removeSlot
  repeat' split
  all_goals simp

@[simp] theorem removeSlot_width (st : MondrianLayout) (s : Slot) :
    (st.removeSlot s).width = st.width := (removeSlot_fst st s).1

@[simp] theorem removeSlot_rowOffset (st : MondrianLayout) (s : Slot) :
    (st.removeSlot s).rowOffset = st.rowOffset := (removeSlot_fst st s).2.1

@[simp] theorem removeSlot_txMap (st : MondrianLayout) (s : Slot) :
    (st.removeSlot s).txMap = st.txMap := (removeSlot_fst st s).2.2

theorem updateSlotR_fst (st : MondrianLayout) (rowY x newr : ℤ) :
    (st.updateSlotR rowY x newr).width = st.width ∧
    (st.updateSlotR rowY x newr).rowOffset = st.rowOffset ∧
    (st.updateSlotR rowY x newr).txMap = st.txMap := by
  unfold updateSlotR
  repeat' split
  all_goals simp

@[simp] theorem updateSlotR_width (st : MondrianLayout) (rowY x newr : ℤ) :
    (st.updateSlotR rowY x newr).width = st.width := (updateSlotR_fst st rowY x newr).1

@[simp] theorem updateSlotR_rowOffset (st : MondrianLayout) (rowY x newr : ℤ) :
    (st.updateSlotR rowY x newr).rowOffset = st.rowOffset :=
  (updateSlotR_fst st rowY x newr).2.1

@[simp] theorem updateSlotR_txMap (st : MondrianLayout) (rowY x newr : ℤ) :
    (st.updateSlotR rowY x newr).txMap = st.txMap :=
  (updateSlotR_fst st rowY x newr).2.2

end MondrianLayout

end HpecDao

namespace HpecDao

/-! List-level helper lemmas. -/

namespace MondrianLayout

theorem mem_insertSlotSorted {t s : Slot} {l : List Slot} :
    t ∈ insertSlotSorted s l ↔ t = s ∨ t ∈ l := by
  induction l with
  | nil => simp [insertSlotSorted]
  | cons a as ih =>
    unfold insertSlotSorted
    split
    · simp [or_comm, or_assoc, or_left_comm]
    · simp only [List.mem_cons, ih]
      tauto

theorem insertSlotSorted_pairwise {s : Slot} {l : List Slot}
    (hl : l.Pairwise (fun a b => a.x < b.x)) (hs : ∀ t ∈ l, t.x ≠ s.x) :
    (insertSlotSorted s l).Pairwise (fun a b => a.x < b.x) := by
  induction l with
  | nil => simp [insertSlotSorted]
  | cons a as ih =>
    rw [List.pairwise_cons] at hl
    unfold insertSlotSorted
    split
    · rename_i hlt
      refine List.Pairwise.cons ?_ (List.Pairwise.cons hl.1 hl.2)
      intro u hu
      rcases List.mem_cons.mp hu with rfl | hu
      · exact hlt
      · exact lt_trans hlt (hl.1 u hu)
    · rename_i hnlt
      have hax : a.x < s.x :=
        lt_of_le_of_ne (not_lt.mp hnlt) (hs a (List.mem_cons_self a as))
      refine List.Pairwise.cons ?_ (ih hl.2 (fun t ht => hs t (List.mem_cons_of_mem a ht)))
      intro u hu
      rcases mem_insertSlotSorted.mp hu with rfl | hu
      · exact hax
      · exact hl.1 u hu

theorem insertSlotSorted_append {s : Slot} {l₁ l₂ : List Slot}
    (h : ∀ u ∈ l₁, ¬(s.x < u.x)) :
    insertSlotSorted s (l₁ ++ l₂) = l₁ ++ insertSlotSorted s l₂ := by
  induction l₁ with
  | nil => simp
  | cons a as ih =>
    rw [List.cons_append, insertSlotSorted, if_neg (h a (List.mem_cons_self a as)),
      ih (fun u hu => h u (List.mem_cons_of_mem a hu)), List.cons_append]

theorem spliceOutSlot_sublist (s : Slot) (l : List Slot) :
    (spliceOutSlot s l).Sublist l := by
  unfold spliceOutSlot
  split
  · exact List.erase_sublist s l
  · exact List.dropLast_sublist l

/-- `find?` finds the first match: the list splits into a failing prefix,
the hit, and the rest. -/
theorem find?_eq_some_split {p : Slot → Bool} {l : List Slot} {a : Slot}
    (h : l.find? p = some a) :
    ∃ l₁ l₂, l = l₁ ++ a :: l₂ ∧ ∀ b ∈ l₁, ¬(p b = true) := by
  induction l with
  | nil => simp at h
  | cons c cs ih =>
    rcases hp : p c with _ | _
    · rw [List.find?_cons_of_neg cs (by simp [hp])] at h
      obtain ⟨l₁, l₂, rfl, hfail⟩ := ih h
      exact ⟨c :: l₁, l₂, rfl, by
        intro b hb
        rcases List.mem_cons.mp hb with rfl | hb
        · simp [hp]
        · exact hfail b hb⟩
    · rw [List.find?_cons_of_pos cs hp] at h
      obtain rfl := Option.some_inj.mp h
      exact ⟨[], cs, rfl, by simp⟩

/-- A strictly `x`-sorted slot list whose `x`s lie in `[a, b)` has at most
`(b - a).toNat` elements. -/
theorem sorted_length_le {l : List Slot} {a b : ℤ}
    (hs : l.Pairwise (fun u v => u.x < v.x))
    (hmem : ∀ u ∈ l, a ≤ u.x ∧ u.x < b) :
    l.length ≤ (b - a).toNat := by
  induction l generalizing a with
  | nil => simp
  | cons c cs ih =>
    rw [List.pairwise_cons] at hs
    have hc := hmem c (List.mem_cons_self c cs)
    have hcs : ∀ u ∈ cs, c.x + 1 ≤ u.x ∧ u.x < b := fun u hu =>
      ⟨by have := hs.1 u hu; omega, (hmem u (List.mem_cons_of_mem c hu)).2⟩
    have := ih hs.2 hcs
    simp only [List.length_cons]
    omega

end MondrianLayout

/-! `SlotFree` helpers. -/

theorem slotFree_append {tiles : List Square} {nt : Square} {s : Slot} :
    SlotFree (tiles ++ [nt]) s ↔ SlotFree tiles s ∧ SlotAvoids nt s := by
  constructor
  · intro h
    refine ⟨fun px py h1 h2 h3 h4 ⟨t, ht, hc⟩ =>
        h px py h1 h2 h3 h4 ⟨t, List.mem_append_left _ ht, hc⟩,
      fun px py h1 h2 h3 h4 hc =>
        h px py h1 h2 h3 h4 ⟨nt, by simp, hc⟩⟩
  · rintro ⟨hf, ha⟩ px py h1 h2 h3 h4 ⟨t, ht, hc⟩
    rcases List.mem_append.mp ht with ht | ht
    · exact hf px py h1 h2 h3 h4 ⟨t, ht, hc⟩
    · rw [List.mem_singleton] at ht
      subst ht
      exact ha px py h1 h2 h3 h4 hc

/-- A slot whose square sits inside another free square is free. -/
theorem SlotFree.subset {tiles : List Square} {s s' : Slot}
    (h : SlotFree tiles s)
    (hx : s.x ≤ s'.x) (hx' : s'.x + s'.r ≤ s.x + s.r)
    (hy : s.y ≤ s'.y) (hy' : s'.y + s'.r ≤ s.y + s.r) :
    SlotFree tiles s' := fun px py h1 h2 h3 h4 =>
  h px py (by omega) (by omega) (by omega) (by omega)

theorem SlotAvoids.shrink {t : Square} {s s' : Slot}
    (h : SlotAvoids t s)
    (hx : s.x ≤ s'.x) (hx' : s'.x + s'.r ≤ s.x + s.r)
    (hy : s.y ≤ s'.y) (hy' : s'.y + s'.r ≤ s.y + s.r) :
    SlotAvoids t s' := fun px py h1 h2 h3 h4 =>
  h px py (by omega) (by omega) (by omega) (by omega)

/-- Interval criterion for a slot avoiding a square. -/
theorem slotAvoids_of_separated {t : Square} {s : Slot}
    (h : s.x + s.r ≤ t.x ∨ t.x + t.r ≤ s.x ∨ s.y + s.r ≤ t.y ∨ t.y + t.r ≤ s.y) :
    SlotAvoids t s := by
  intro px py h1 h2 h3 h4 ⟨c1, c2, c3, c4⟩
  omega

/-- A slot entirely above the rows a square occupies avoids it. -/
theorem slotAvoids_of_below {t : Square} {s : Slot} (h : t.y + t.r ≤ s.y) :
    SlotAvoids t s := slotAvoids_of_separated (by omega)

theorem slotFree_nil {s : Slot} : SlotFree [] s := by
  rintro px py _ _ _ _ ⟨t, ht, _⟩
  simp at ht

end HpecDao

namespace HpecDao

theorem Inv.getRow_some {st : MondrianLayout} {tiles : List Square}
    (hInv : Inv st tiles) {y : ℤ} {row : Row}
    (h : st.getRow y = some row) :
    0 ≤ y ∧ st.rows[y.toNat]? = some row ∧ RowWF st.width tiles y.toNat row := by
  rw [st.getRow_eq hInv.offset] at h
  split at h
  · exact absurd h (by simp)
  · rename_i hy
    exact ⟨not_lt.mp hy, h, hInv.rowWF _ _ h⟩

/-- Generic row-replacement: substituting a well-formed, sorted slot list for
the slots of an existing row preserves the invariant. -/
theorem Inv.modifyRow {st : MondrianLayout} {tiles : List Square}
    (hInv : Inv st tiles) {y : ℤ} {row : Row}
    (hget : st.getRow y = some row) {newSlots : List Slot}
    (hWF : ∀ s ∈ newSlots, SlotWF st.width tiles y.toNat s)
    (hSort : newSlots.Pairwise (fun a b => a.x < b.x)) :
    Inv (st.setRow y { row with slots := newSlots }) tiles := by
  obtain ⟨hy, hrow, hRWF⟩ := hInv.getRow_some hget
  have hlen : y.toNat < st.rows.length := by
    by_contra hc
    simp [List.getElem?_eq_none (not_lt.mp hc)] at hrow
  rw [st.setRow_def hInv.offset y _ hy]
  refine ⟨hInv.offset, ?_, hInv.tileX, hInv.tileY, ?_, hInv.tileW, hInv.disj⟩
  · intro i row' h'
    rcases eq_or_ne i y.toNat with rfl | hne
    · rw [List.getElem?_set_eq_of_lt _ hlen] at h'
      obtain rfl := Option.some_inj.mp h'
      exact ⟨hRWF.1, hWF, hSort⟩
    · rw [List.getElem?_set_ne (Ne.symm hne)] at h'
      exact hInv.rowWF i row' h'
  · intro t ht hr
    rw [List.length_set]
    exact hInv.tileRows t ht hr

/-- `addSlot` preserves the invariant, provided the requested slot (when it
can be stored, `r ≥ 1`) is in bounds and free. -/
theorem addSlot_inv {st : MondrianLayout} {tiles : List Square} {s : Slot}
    (hInv : Inv st tiles)
    (hok : 0 < s.r → 0 ≤ s.x ∧ s.x + s.r ≤ st.width ∧ SlotFree tiles s) :
    Inv (st.addSlot s).1 tiles := by
  unfold MondrianLayout.addSlot
  split
  · exact hInv
  rename_i hr
  obtain ⟨hsx, hsw, hsf⟩ := hok (not_le.mp hr)
  rcases hget : st.getRow s.y with _ | row
  · simp only [hget]
    exact hInv
  simp only [hget]
  obtain ⟨hy, hrow, hRWF⟩ := hInv.getRow_some hget
  have hyc : ((s.y.toNat : ℤ)) = s.y := Int.toNat_of_nonneg hy
  rcases hfind : row.slots.find? (fun t => t.x = s.x) with _ | ex
  · simp only [hfind]
    refine hInv.modifyRow hget ?_ ?_
    · intro t ht
      rcases MondrianLayout.mem_insertSlotSorted.mp ht with rfl | ht
      · exact ⟨by rw [hyc], by omega, hsx, hsw, hsf⟩
      · exact hRWF.2.1 t ht
    · refine MondrianLayout.insertSlotSorted_pairwise hRWF.2.2 ?_
      intro t ht
      have := List.find?_eq_none.mp hfind t ht
      simpa using this
  · simp only [hfind]
    split
    · rename_i hlt
      refine hInv.modifyRow hget ?_ ?_
      · intro t ht
        obtain ⟨u, hu, ht⟩ := List.mem_map.mp ht
        obtain ⟨hu1, hu2, hu3, hu4, hu5⟩ := hRWF.2.1 u hu
        by_cases hx : u.x = s.x
        · rw [if_pos hx] at ht
          subst ht
          have hexy : u.y = s.y := by rw [hu1, hyc]
          have hueq : ({ u with r := s.r } : Slot) = s := by
            cases u; cases s
            simp only [Slot.mk.injEq] at hx hexy ⊢
            exact ⟨hx, hexy, trivial⟩
          rw [hueq]
          exact ⟨hyc.symm, by omega, hsx, hsw, hsf⟩
        · rw [if_neg hx] at ht
          subst ht
          exact ⟨hu1, hu2, hu3, hu4, hu5⟩
      · refine List.Pairwise.map _ ?_ hRWF.2.2
        intro a b hab
        dsimp only
        split <;> split <;> simpa using hab
    · exact hInv

/-- `removeSlot` preserves the invariant. -/
theorem removeSlot_inv {st : MondrianLayout} {tiles : List Square} {s : Slot}
    (hInv : Inv st tiles) : Inv (st.removeSlot s) tiles := by
  unfold MondrianLayout.removeSlot
  rcases hget : st.getRow s.y with _ | row
  · simp only [hget]
    exact hInv
  simp only [hget]
  obtain ⟨hy, hrow, hRWF⟩ := hInv.getRow_some hget
  have hsub := MondrianLayout.spliceOutSlot_sublist s row.slots
  exact hInv.modifyRow hget
    (fun t ht => hRWF.2.1 t (hsub.mem ht))
    (hRWF.2.2.sublist hsub)

end HpecDao

namespace HpecDao

/-- Appending a fresh empty row preserves the invariant. -/
theorem addRow_inv {st : MondrianLayout} {tiles : List Square}
    (hInv : Inv st tiles) : Inv (st.addRow).1 tiles := by
  refine ⟨hInv.offset, ?_, hInv.tileX, hInv.tileY, ?_, hInv.tileW, hInv.disj⟩
  · intro i row h
    rw [MondrianLayout.addRow_rows, List.getElem?_append] at h
    split at h
    · exact hInv.rowWF i row h
    · rename_i hi
      rcases lt_or_ge (i - st.rows.length) 1 with hi2 | hi2
      · have hieq : i - st.rows.length = 0 := by omega
        rw [hieq, List.getElem?_cons_zero] at h
        obtain rfl := Option.some_inj.mp h
        have hiv : i = st.rows.length := by omega
        exact ⟨by simp [hInv.offset, hiv], by simp, by simp⟩
      · rw [show i - st.rows.length = i - st.rows.length - 1 + 1 from by omega,
          List.getElem?_cons_succ, List.getElem?_nil] at h
        exact absurd h (by simp)
  · intro t ht hr
    rw [MondrianLayout.addRow_rows, List.length_append]
    have := hInv.tileRows t ht hr
    simp only [List.length_cons, List.length_nil]
    omega

/-- In an invariant state every row holds at most `width.toNat` slots. -/
theorem Inv.slots_length {st : MondrianLayout} {tiles : List Square}
    (hInv : Inv st tiles) {i : ℕ} {row : Row} (h : st.rows[i]? = some row) :
    row.slots.length ≤ st.width.toNat := by
  obtain ⟨_, hWF, hSort⟩ := hInv.rowWF i row h
  have := @MondrianLayout.sorted_length_le _ 0 st.width hSort
    (fun u hu => ⟨(hWF u hu).2.2.1, by have := (hWF u hu).2.2.2.1; have := (hWF u hu).2.1; omega⟩)
  omega

/-- In a strictly `x`-sorted list, everything before position `i` has a
smaller `x` than the element at `i`. -/
theorem sorted_take_lt {l : List Slot} (hs : l.Pairwise (fun a b => a.x < b.x))
    {i : ℕ} {t : Slot} (ht : l[i]? = some t) :
    ∀ u ∈ l.take i, u.x < t.x := by
  obtain ⟨hil, htv⟩ := List.getElem?_eq_some.mp ht
  intro u hu
  obtain ⟨j, hj, hju⟩ := List.getElem_of_mem hu
  have hji : j < i := by
    have := hj
    rw [List.length_take] at this
    omega
  have hjl : j < l.length := by omega
  rw [List.getElem_take] at hju
  subst hju htv
  exact List.pairwise_iff_getElem.mp hs j i hjl hil hji

end HpecDao

namespace HpecDao

theorem ShadowSafe.avoids {s0 : Slot} {sw : ℤ} {s : Slot}
    (h : ShadowSafe s0 sw s) : SlotAvoids ⟨s0.x, s0.y, sw⟩ s := by
  rcases h with h | h | h <;> exact slotAvoids_of_separated (by dsimp only; omega)

namespace MondrianLayout

theorem addSlot_rows_length (st : MondrianLayout) (s : Slot) :
    (st.addSlot s).1.rows.length = st.rows.length := by
  unfold addSlot
  repeat' split
  all_goals simp [setRow]
  all_goals split <;> simp

/-- Scalar frames for the split loop. -/
theorem splitRemainingGo_frames (st : MondrianLayout) (rm : SplitRect)
    (fuel : ℕ) :
    (splitRemainingGo st rm fuel).width = st.width ∧
    (splitRemainingGo st rm fuel).rowOffset = st.rowOffset ∧
    (splitRemainingGo st rm fuel).rows.length = st.rows.length := by
  induction fuel generalizing st rm with
  | zero => exact ⟨rfl, rfl, rfl⟩
  | succ fuel ih =>
    unfold splitRemainingGo
    split
    · split
      · refine ⟨?_, ?_, ?_⟩ <;>
          simp [ih, addSlot_rows_length]
      · refine ⟨?_, ?_, ?_⟩ <;>
          simp [ih, addSlot_rows_length]
    · exact ⟨rfl, rfl, rfl⟩

/-- `addSlot` leaves rows other than the one addressed by `s.y` alone. -/
theorem addSlot_rows_untouched (st : MondrianLayout) (s : Slot)
    (h0 : st.rowOffset = 0) (i : ℕ) (hne : (i : ℤ) ≠ s.y) :
    (st.addSlot s).1.rows[i]? = st.rows[i]? := by
  unfold addSlot
  split
  · rfl
  rcases hget : st.getRow s.y with _ | row
  · simp [hget]
  have hy : 0 ≤ s.y := by
    rw [getRow_eq st h0] at hget
    by_contra hc
    rw [if_pos (by omega)] at hget
    simp at hget
  have hiy : i ≠ s.y.toNat := fun hc => hne (by omega)
  simp only [hget]
  rcases hfind : row.slots.find? (fun t => t.x = s.x) with _ | ex <;>
    simp only [hfind]
  · rw [setRow_def st h0 s.y _ hy]
    exact List.getElem?_set_ne (Ne.symm hiy)
  · split
    · rw [setRow_def st h0 s.y _ hy]
      exact List.getElem?_set_ne (Ne.symm hiy)
    · rfl

/-- `addSlot` changes any row only beyond a prefix whose `x`s lie strictly
below the new slot's `x`. -/
theorem addSlot_prefix (st : MondrianLayout) (s : Slot)
    (h0 : st.rowOffset = 0) {j : ℕ} {row : Row} {pre suf : List Slot}
    (hrow : st.rows[j]? = some row) (hsplit : row.slots = pre ++ suf)
    (hpre : ∀ u ∈ pre, u.x < s.x) :
    ∃ suf', (st.addSlot s).1.rows[j]? = some { y := row.y, slots := pre ++ suf' } := by
  have hrweta : row = { y := row.y, slots := pre ++ suf } := by
    cases row; simp only [Row.mk.injEq]; exact ⟨trivial, hsplit⟩
  by_cases hne : (j : ℤ) ≠ s.y
  · exact ⟨suf, by rw [addSlot_rows_untouched st s h0 j hne, hrow, ← hrweta]⟩
  push_neg at hne
  have hy : 0 ≤ s.y := by rw [← hne]; exact Int.natCast_nonneg j
  have hjy : j = s.y.toNat := by omega
  unfold addSlot
  split
  · exact ⟨suf, by rw [hrow, ← hrweta]⟩
  rcases hget : st.getRow s.y with _ | row₂
  · exact ⟨suf, by simp only [hget]; rw [hrow, ← hrweta]⟩
  have hrow₂ : row₂ = row := by
    rw [getRow_nonneg st h0 s.y hy, ← hjy, hrow] at hget
    exact (Option.some_inj.mp hget).symm
  subst hrow₂
  have hlen : j < st.rows.length := by
    by_contra hc
    rw [List.getElem?_eq_none (not_lt.mp hc)] at hrow
    exact absurd hrow (by simp)
  simp only [hget]
  rcases hfind : row₂.slots.find? (fun t => t.x = s.x) with _ | ex <;>
    simp only [hfind]
  · refine ⟨insertSlotSorted s suf, ?_⟩
    rw [setRow_def st h0 s.y _ hy, ← hjy]
    have : insertSlotSorted s row₂.slots = pre ++ insertSlotSorted s suf := by
      rw [hsplit, insertSlotSorted_append (fun u hu => not_lt.mpr (le_of_lt (hpre u hu)))]
    simp only [List.getElem?_set_eq_of_lt _ hlen, this]
  · split
    · refine ⟨suf.map (fun t => if t.x = s.x then { t with r := s.r } else t), ?_⟩
      rw [setRow_def st h0 s.y _ hy, ← hjy]
      have hmap : row₂.slots.map (fun t => if t.x = s.x then { t with r := s.r } else t) =
          pre ++ suf.map (fun t => if t.x = s.x then { t with r := s.r } else t) := by
        rw [hsplit, List.map_append]
        congr 1
        rw [List.map_congr_left (fun u hu => if_neg (ne_of_lt (hpre u hu))),
          List.map_id']
      simp only [List.getElem?_set_eq_of_lt _ hlen, hmap]
    · exact ⟨suf, by rw [hrow, ← hrweta]⟩

end MondrianLayout

end HpecDao

namespace HpecDao

/-- Specification of the shadow-split loop: starting from the leftover
rectangle of a clipped slot `⟨tSx, tSy, oldW⟩` (whose square was free and in
bounds), the loop preserves the invariant, leaves rows outside
`[rm.y, y0)` untouched, and edits any row only past a prefix of `x`s below
`rm.x`. -/
theorem splitRemainingGo_spec {tiles : List Square} (tSx tSy oldW y0 : ℤ)
    (hfree : SlotFree tiles ⟨tSx, tSy, oldW⟩) (hx0 : 0 ≤ tSx)
    (hy0up : y0 ≤ tSy + oldW) :
    ∀ (fuel : ℕ) (st : MondrianLayout) (rm : SplitRect),
      Inv st tiles →
      tSx + oldW ≤ st.width →
      tSx ≤ rm.x → rm.x + rm.w = tSx + oldW →
      tSy ≤ rm.y → rm.y + rm.h = y0 →
      Inv (MondrianLayout.splitRemainingGo st rm fuel) tiles ∧
      (MondrianLayout.splitRemainingGo st rm fuel).rows.length = st.rows.length ∧
      (∀ i : ℕ, ((i : ℤ) < rm.y ∨ y0 ≤ (i : ℤ)) →
        (MondrianLayout.splitRemainingGo st rm fuel).rows[i]? = st.rows[i]?) ∧
      (∀ (j : ℕ) (row : Row) (pre suf : List Slot),
        st.rows[j]? = some row → row.slots = pre ++ suf →
        (∀ u ∈ pre, u.x < rm.x) →
        ∃ suf', (MondrianLayout.splitRemainingGo st rm fuel).rows[j]? =
          some { y := row.y, slots := pre ++ suf' }) := by
  intro fuel
  induction fuel with
  | zero =>
    intro st rm hInv _ _ _ _ _
    refine ⟨hInv, rfl, fun _ _ => rfl, fun j row pre suf hrow hsplit _ => ⟨suf, ?_⟩⟩
    have hrweta : row = { y := row.y, slots := pre ++ suf } := by rw [← hsplit]
    rw [MondrianLayout.splitRemainingGo, hrow, ← hrweta]
  | succ fuel ih =>
    intro st rm hInv hwb hrx hrxw hry hryh
    rw [MondrianLayout.splitRemainingGo]
    split
    · rename_i hwh
      have hy0gt : rm.y < y0 := by omega
      have hinsOK : ∀ rr : ℤ, 0 < rr → rr ≤ rm.w → rm.y + rr ≤ y0 →
          Inv (st.addSlot ⟨rm.x, rm.y, rr⟩).1 tiles := by
        intro rr hrr hrw hryr
        refine addSlot_inv hInv (fun _ => ⟨by dsimp only; omega, ?_, ?_⟩)
        · dsimp only
          omega
        · refine SlotFree.subset hfree ?_ ?_ ?_ ?_ <;> dsimp only <;> omega
      split
      · rename_i hwle
        have hadd := hinsOK rm.w hwh.1 le_rfl (by omega)
        obtain ⟨hI, hL, hU, hP⟩ := ih (st.addSlot ⟨rm.x, rm.y, rm.w⟩).1
          ⟨rm.x, rm.y + rm.w, rm.w, rm.h - rm.w⟩ hadd
          (by simpa using hwb) (by dsimp only; omega) (by dsimp only; omega)
          (by dsimp only; omega) (by dsimp only; omega)
        refine ⟨hI, ?_, ?_, ?_⟩
        · rw [hL, MondrianLayout.addSlot_rows_length]
        · intro i hi
          rw [hU i (by dsimp only at *; omega),
            MondrianLayout.addSlot_rows_untouched st _ hInv.offset i
              (by dsimp only; omega)]
        · intro j row pre suf hrow hsplit hpre
          obtain ⟨suf₁, h₁⟩ := MondrianLayout.addSlot_prefix st
            ⟨rm.x, rm.y, rm.w⟩ hInv.offset hrow hsplit (fun u hu => hpre u hu)
          obtain ⟨suf₂, h₂⟩ := hP j _ pre suf₁ h₁ rfl
            (by intro u hu; show u.x < rm.x; exact hpre u hu)
          exact ⟨suf₂, h₂⟩
      · rename_i hwgt
        have hadd := hinsOK rm.h hwh.2 (by omega) (by omega)
        obtain ⟨hI, hL, hU, hP⟩ := ih (st.addSlot ⟨rm.x, rm.y, rm.h⟩).1
          ⟨rm.x + rm.h, rm.y, rm.w - rm.h, rm.h⟩ hadd
          (by simpa using hwb) (by dsimp only; omega) (by dsimp only; omega)
          (by dsimp only; omega) (by dsimp only; omega)
        refine ⟨hI, ?_, ?_, ?_⟩
        · rw [hL, MondrianLayout.addSlot_rows_length]
        · intro i hi
          rw [hU i (by dsimp only at *; omega),
            MondrianLayout.addSlot_rows_untouched st _ hInv.offset i
              (by dsimp only; omega)]
        · intro j row pre suf hrow hsplit hpre
          obtain ⟨suf₁, h₁⟩ := MondrianLayout.addSlot_prefix st
            ⟨rm.x, rm.y, rm.h⟩ hInv.offset hrow hsplit (fun u hu => hpre u hu)
          obtain ⟨suf₂, h₂⟩ := hP j _ pre suf₁ h₁ rfl
            (by intro u hu; show u.x < rm.x + rm.h; have := hpre u hu; omega)
          exact ⟨suf₂, h₂⟩
    · refine ⟨hInv, rfl, fun _ _ => rfl, fun j row pre suf hrow hsplit _ => ⟨suf, ?_⟩⟩
      have hrweta : row = { y := row.y, slots := pre ++ suf } := by rw [← hsplit]
      rw [hrow, ← hrweta]

end HpecDao

namespace HpecDao

/-- In a strictly `x`-sorted list, everything past position `i` has a larger
`x` than the element at `i`. -/
theorem sorted_drop_gt {l : List Slot} (hs : l.Pairwise (fun a b => a.x < b.x))
    {i : ℕ} {t : Slot} (ht : l[i]? = some t) :
    ∀ u ∈ l.drop (i + 1), t.x < u.x := by
  obtain ⟨hil, htv⟩ := List.getElem?_eq_some.mp ht
  intro u hu
  obtain ⟨j, hj, hju⟩ := List.getElem_of_mem hu
  rw [List.getElem_drop] at hju
  have hjl : i + 1 + j < l.length := by
    have := hj
    rw [List.length_drop] at this
    omega
  subst hju htv
  exact List.pairwise_iff_getElem.mp hs i (i + 1 + j) hil hjl (by omega)

/-- Decomposition of a list around position `i`. -/
theorem list_split_at {l : List Slot} {i : ℕ} {t : Slot}
    (ht : l[i]? = some t) : l = l.take i ++ t :: l.drop (i + 1) := by
  obtain ⟨hil, htv⟩ := List.getElem?_eq_some.mp ht
  conv_lhs => rw [← List.take_append_drop i l]
  rw [List.drop_eq_getElem_cons hil, htv]

/-- Effect of the in-place `testSlot.r = newR` mutation on a sorted row:
only position `i` changes, and the invariant survives a genuine shrink. -/
theorem updateSlotR_at {st : MondrianLayout} {tiles : List Square}
    (hInv : Inv st tiles) {j : ℕ} {row : Row}
    (hrow : st.rows[j]? = some row) {i : ℕ} {tS : Slot}
    (hts : row.slots[i]? = some tS)
    (newR : ℤ) (h1 : 1 ≤ newR) (h2 : newR ≤ tS.r) :
    Inv (st.updateSlotR j tS.x newR) tiles ∧
    (st.updateSlotR j tS.x newR).rows.length = st.rows.length ∧
    (∀ k : ℕ, k ≠ j → (st.updateSlotR j tS.x newR).rows[k]? = st.rows[k]?) ∧
    (st.updateSlotR j tS.x newR).rows[j]? =
      some { y := row.y,
             slots := row.slots.take i ++ { tS with r := newR } :: row.slots.drop (i + 1) } := by
  obtain ⟨hrY, hrWF, hrS⟩ := hInv.rowWF j row hrow
  have hget : st.getRow (j : ℤ) = some row := by
    rw [MondrianLayout.getRow_nonneg st hInv.offset _ (Int.natCast_nonneg j),
      Int.toNat_natCast, hrow]
  have htsm : tS ∈ row.slots := by
    obtain ⟨h, hv⟩ := List.getElem?_eq_some.mp hts
    exact hv ▸ List.getElem_mem h
  obtain ⟨htsy, htsr, htsx, htsw, htsf⟩ := hrWF tS htsm
  have hpre := sorted_take_lt hrS hts
  have hsuf := sorted_drop_gt hrS hts
  have hmap : row.slots.map
      (fun t => if t.x = tS.x then { t with r := newR } else t) =
      row.slots.take i ++ { tS with r := newR } :: row.slots.drop (i + 1) := by
    conv_lhs => rw [list_split_at hts]
    rw [List.map_append, List.map_cons, if_pos rfl]
    congr 1
    · rw [List.map_congr_left (fun u hu => if_neg (ne_of_lt (hpre u hu))), List.map_id']
    · congr 1
      rw [List.map_congr_left (fun u hu => if_neg (ne_of_gt (hsuf u hu))), List.map_id']
  have hlen : j < st.rows.length := by
    by_contra hc
    rw [List.getElem?_eq_none (not_lt.mp hc)] at hrow
    exact absurd hrow (by simp)
  have hInv' : Inv (st.updateSlotR j tS.x newR) tiles := by
    unfold MondrianLayout.updateSlotR
    simp only [hget]
    rw [hmap]
    refine hInv.modifyRow hget ?_ ?_
    · intro s hsm
      rw [Int.toNat_natCast]
      rcases List.mem_append.mp hsm with hsm | hsm
      · exact hrWF s (List.mem_of_mem_take hsm)
      · rcases List.mem_cons.mp hsm with rfl | hsm
        · exact ⟨htsy, h1, htsx, by dsimp only; omega,
            SlotFree.subset htsf (by dsimp only; omega) (by dsimp only; omega)
              (by dsimp only; omega) (by dsimp only; omega)⟩
        · exact hrWF s (List.mem_of_mem_drop hsm)
    · rw [← hmap]
      refine List.Pairwise.map _ ?_ hrS
      intro a b hab
      dsimp only
      split <;> split <;> simpa using hab
  have hrows : (st.updateSlotR j tS.x newR).rows =
      st.rows.set j
        ({ y := row.y,
           slots := row.slots.take i ++
             ({ tS with r := newR } : Slot) :: row.slots.drop (i + 1) } : Row) := by
    unfold MondrianLayout.updateSlotR
    simp only [hget]
    rw [hmap, MondrianLayout.setRow_def st hInv.offset _ _ (Int.natCast_nonneg j),
      Int.toNat_natCast]
  refine ⟨hInv', ?_, ?_, ?_⟩
  · rw [hrows, List.length_set]
  · intro k hk
    rw [hrows, List.getElem?_set_ne (Ne.symm hk)]
  · rw [hrows, List.getElem?_set_eq_of_lt _ hlen]

end HpecDao

namespace HpecDao

/-- Specification of one shadow-scan body step: the invariant survives, rows
below `j` and from `s0.y` on are untouched, and row `j` keeps its first `i`
slots, with the slot at position `i` replaced by a shadow-safe slot (clipped
when it reached the tile, unchanged — and already safe — otherwise). -/
theorem shadowSlotStep_spec {st : MondrianLayout} {tiles : List Square}
    (hInv : Inv st tiles) (s0 : Slot) (sw : ℤ)
    {j : ℕ} (hj : (j : ℤ) < s0.y) {row : Row} (hrow : st.rows[j]? = some row)
    {i : ℕ} {tS : Slot} (hts : row.slots[i]? = some tS) :
    Inv (st.shadowSlotStep s0 sw j tS) tiles ∧
    (st.shadowSlotStep s0 sw j tS).width = st.width ∧
    (st.shadowSlotStep s0 sw j tS).rowOffset = st.rowOffset ∧
    (st.shadowSlotStep s0 sw j tS).rows.length = st.rows.length ∧
    (∀ k : ℕ, ((k : ℤ) < j ∨ s0.y ≤ (k : ℤ)) →
      (st.shadowSlotStep s0 sw j tS).rows[k]? = st.rows[k]?) ∧
    (∃ s' suf', ShadowSafe s0 sw s' ∧
      (st.shadowSlotStep s0 sw j tS).rows[j]? =
        some { y := row.y, slots := row.slots.take i ++ s' :: suf' }) := by
  obtain ⟨hrY, hrWF, hrS⟩ := hInv.rowWF j row hrow
  have htsm : tS ∈ row.slots := by
    obtain ⟨h, hv⟩ := List.getElem?_eq_some.mp hts
    exact hv ▸ List.getElem_mem h
  obtain ⟨htsy, htsr, htsx, htsw, htsf⟩ := hrWF tS htsm
  unfold MondrianLayout.shadowSlotStep
  split
  · rename_i hcond
    obtain ⟨hc1, hc2, hc3⟩ := hcond
    dsimp only
    have h1 : (1 : ℤ) ≤ s0.y - tS.y := by omega
    have h2 : s0.y - tS.y ≤ tS.r := by omega
    obtain ⟨hI1, hL1, hU1, hJ1⟩ := updateSlotR_at hInv hrow hts (s0.y - tS.y) h1 h2
    rw [if_neg (by omega)]
    have hfree' : SlotFree tiles ⟨tS.x, tS.y, tS.r⟩ := htsf
    have hsplit := splitRemainingGo_spec tS.x tS.y tS.r s0.y hfree' htsx hc3
      ((tS.r - (s0.y - tS.y)) + (s0.y - tS.y)).toNat
      (st.updateSlotR (↑j) tS.x (s0.y - tS.y))
      ⟨tS.x + (s0.y - tS.y), tS.y, tS.r - (s0.y - tS.y), s0.y - tS.y⟩
      hI1 (by rw [MondrianLayout.updateSlotR_width]; exact htsw)
      (by dsimp only; omega) (by dsimp only; omega)
      (by dsimp only; omega) (by dsimp only; omega)
    obtain ⟨hI3, hL3, hU3, hP3⟩ := hsplit
    obtain ⟨fw, fo, _⟩ := MondrianLayout.splitRemainingGo_frames
      (st.updateSlotR (↑j) tS.x (s0.y - tS.y))
      ⟨tS.x + (s0.y - tS.y), tS.y, tS.r - (s0.y - tS.y), s0.y - tS.y⟩ _
    refine ⟨hI3, ?_, ?_, ?_, ?_, ?_⟩
    · rw [MondrianLayout.splitRemainingLoop, fw, MondrianLayout.updateSlotR_width]
    · rw [MondrianLayout.splitRemainingLoop, fo, MondrianLayout.updateSlotR_rowOffset]
    · rw [MondrianLayout.splitRemainingLoop, hL3, hL1]
    · intro k hk
      rw [MondrianLayout.splitRemainingLoop, hU3 k (by dsimp only; omega),
        hU1 k (by omega)]
    · have hpreb : ∀ u ∈ row.slots.take i ++ [{ tS with r := s0.y - tS.y }],
          u.x < tS.x + (s0.y - tS.y) := by
        intro u hu
        rcases List.mem_append.mp hu with hu | hu
        · have := sorted_take_lt hrS hts u hu
          omega
        · rw [List.mem_singleton] at hu
          subst hu
          dsimp only
          omega
      obtain ⟨suf', hsuf'⟩ := hP3 j _ (row.slots.take i ++ [{ tS with r := s0.y - tS.y }])
        (row.slots.drop (i + 1)) hJ1 (by simp) hpreb
      refine ⟨{ tS with r := s0.y - tS.y }, suf', ?_, ?_⟩
      · refine Or.inr (Or.inr ?_)
        dsimp only
        omega
      · rw [MondrianLayout.splitRemainingLoop, hsuf']
        simp
  · rename_i hcond
    have hsafe : ShadowSafe s0 sw tS := by
      unfold ShadowSafe
      omega
    have hrweta :
        row = ({ y := row.y,
                 slots := row.slots.take i ++ tS :: row.slots.drop (i + 1) } : Row) := by
      rw [← list_split_at hts]
    exact ⟨hInv, rfl, rfl, rfl, fun _ _ => rfl,
      ⟨tS, row.slots.drop (i + 1), hsafe, by rw [hrow, ← hrweta]⟩⟩

end HpecDao

namespace HpecDao

/-- Specification of the shadow-loop index scan over row `j` (`j` above the
tile's top row): given fuel at least `width.toNat + 1 - i` — which bounds the
row length in every invariant state — the scan preserves the invariant,
leaves rows below `j` and from `s0.y` on untouched, and leaves every slot of
row `j` shadow-safe. -/
theorem shadowScanRow_spec {tiles : List Square} (s0 : Slot) (sw : ℤ)
    {j : ℕ} (hj : (j : ℤ) < s0.y) :
    ∀ (fuel i : ℕ) (st : MondrianLayout), Inv st tiles →
      st.width.toNat + 1 ≤ i + fuel →
      (∀ row, st.rows[j]? = some row → ∀ q, q < i → ∀ s, row.slots[q]? = some s →
        ShadowSafe s0 sw s) →
      Inv (MondrianLayout.shadowScanRow s0 sw (j : ℤ) fuel i st) tiles ∧
      (MondrianLayout.shadowScanRow s0 sw (j : ℤ) fuel i st).width = st.width ∧
      (MondrianLayout.shadowScanRow s0 sw (j : ℤ) fuel i st).rowOffset = st.rowOffset ∧
      (MondrianLayout.shadowScanRow s0 sw (j : ℤ) fuel i st).rows.length = st.rows.length ∧
      (∀ k : ℕ, ((k : ℤ) < j ∨ s0.y ≤ (k : ℤ)) →
        (MondrianLayout.shadowScanRow s0 sw (j : ℤ) fuel i st).rows[k]? = st.rows[k]?) ∧
      (∀ row, (MondrianLayout.shadowScanRow s0 sw (j : ℤ) fuel i st).rows[j]? = some row →
        ∀ s ∈ row.slots, ShadowSafe s0 sw s) := by
  intro fuel
  induction fuel with
  | zero =>
    intro i st hInv hfuel hP
    rw [MondrianLayout.shadowScanRow]
    refine ⟨hInv, by trivial, by trivial, by trivial, fun _ _ => by trivial, ?_⟩
    intro row hrow s hs
    obtain ⟨q, hq, hqv⟩ := List.getElem_of_mem hs
    have hlen := hInv.slots_length hrow
    exact hP row hrow q (by omega) s (hqv ▸ List.getElem?_eq_getElem hq)
  | succ fuel ih =>
    intro i st hInv hfuel hP
    rw [MondrianLayout.shadowScanRow]
    rcases hget : st.getRow (j : ℤ) with _ | row
    · simp only [hget]
      refine ⟨hInv, by trivial, by trivial, by trivial, fun _ _ => by trivial, ?_⟩
      intro row' hrow'
      rw [MondrianLayout.getRow_nonneg st hInv.offset _ (Int.natCast_nonneg j),
        Int.toNat_natCast, hrow'] at hget
      exact absurd hget (by simp)
    simp only [hget]
    have hrowj : st.rows[j]? = some row := by
      rw [MondrianLayout.getRow_nonneg st hInv.offset _ (Int.natCast_nonneg j),
        Int.toNat_natCast] at hget
      exact hget
    split
    · rename_i hi
      have hts : row.slots[i]? = some (row.slots.get ⟨i, hi⟩) :=
        List.getElem?_eq_getElem hi
      obtain ⟨hI', hW', hO', hL', hU', s', suf', hsafe', hrow'⟩ :=
        shadowSlotStep_spec hInv s0 sw hj hrowj hts
      have hP' : ∀ row₂, (st.shadowSlotStep s0 sw (j : ℤ)
            (row.slots.get ⟨i, hi⟩)).rows[j]? = some row₂ →
          ∀ q, q < i + 1 → ∀ s, row₂.slots[q]? = some s → ShadowSafe s0 sw s := by
        intro row₂ hrow₂ q hq s hsq
        rw [hrow'] at hrow₂
        obtain rfl := Option.some_inj.mp hrow₂
        rcases lt_or_ge q i with hqi | hqi
        · have hql : q < (row.slots.take i).length := by
            rw [List.length_take]
            have := hInv.slots_length hrowj
            have hil : i < row.slots.length := hi
            omega
          rw [List.getElem?_append, if_pos hql, List.getElem?_take, if_pos hqi] at hsq
          exact hP row hrowj q (by omega) s hsq
        · have hqeq : q = i := by omega
          rw [hqeq] at hsq
          have hql : (row.slots.take i).length = i := by
            rw [List.length_take]
            have hil : i < row.slots.length := hi
            omega
          rw [List.getElem?_append_right hql.le, hql, Nat.sub_self,
            List.getElem?_cons_zero] at hsq
          obtain rfl := Option.some_inj.mp hsq
          exact hsafe'
      obtain ⟨hI2, hW2, hO2, hL2, hU2, hSafe2⟩ := ih (i + 1) _ hI'
        (by rw [hW']; omega) hP'
      exact ⟨hI2, hW2.trans hW', hO2.trans hO', hL2.trans hL',
        fun k hk => (hU2 k hk).trans (hU' k hk), hSafe2⟩
    · rename_i hi
      refine ⟨hInv, by trivial, by trivial, by trivial, fun _ _ => by trivial, ?_⟩
      intro row' hrow'
      obtain rfl := Option.some_inj.mp (hrow' ▸ hrowj ▸ rfl : some row = some row')
      intro s hs
      obtain ⟨q, hq, hqv⟩ := List.getElem_of_mem hs
      exact hP row hrowj q (by omega) s (hqv ▸ List.getElem?_eq_getElem hq)

end HpecDao

namespace HpecDao

/-- Specification of the shadow loop over the rows `[rowIndex, rowIndex + n)`
(all above the tile's top row `s0.y`): invariant preserved, rows outside the
range untouched, and every slot of every row in the range shadow-safe. -/
theorem shadowRowsGo_spec {tiles : List Square} (s0 : Slot) (sw : ℤ) :
    ∀ (n : ℕ) (rowIndex : ℤ) (st : MondrianLayout), Inv st tiles →
      0 ≤ rowIndex → rowIndex + n ≤ s0.y →
      Inv (MondrianLayout.shadowRowsGo s0 sw n rowIndex st) tiles ∧
      (MondrianLayout.shadowRowsGo s0 sw n rowIndex st).width = st.width ∧
      (MondrianLayout.shadowRowsGo s0 sw n rowIndex st).rowOffset = st.rowOffset ∧
      (MondrianLayout.shadowRowsGo s0 sw n rowIndex st).rows.length = st.rows.length ∧
      (∀ k : ℕ, ((k : ℤ) < rowIndex ∨ s0.y ≤ (k : ℤ)) →
        (MondrianLayout.shadowRowsGo s0 sw n rowIndex st).rows[k]? = st.rows[k]?) ∧
      (∀ k : ℕ, rowIndex ≤ (k : ℤ) → (k : ℤ) < rowIndex + n →
        ∀ row, (MondrianLayout.shadowRowsGo s0 sw n rowIndex st).rows[k]? = some row →
          ∀ s ∈ row.slots, ShadowSafe s0 sw s) := by
  intro n
  induction n with
  | zero =>
    intro rowIndex st hInv h0 hn
    rw [MondrianLayout.shadowRowsGo]
    exact ⟨hInv, rfl, rfl, rfl, fun _ _ => rfl, fun k hk1 hk2 _ _ => by omega⟩
  | succ n ih =>
    intro rowIndex st hInv h0 hn
    rw [MondrianLayout.shadowRowsGo]
    have hj : ((rowIndex.toNat : ℤ)) = rowIndex := Int.toNat_of_nonneg h0
    have hjlt : ((rowIndex.toNat : ℤ)) < s0.y := by omega
    obtain ⟨hI1, hW1, hO1, hL1, hU1, hS1⟩ :=
      shadowScanRow_spec s0 sw hjlt (st.width.toNat + 1) 0 st hInv
        (by omega) (fun _ _ q hq => absurd hq (by omega))
    rw [← hj]
    obtain ⟨hI2, hW2, hO2, hL2, hU2, hS2⟩ := ih ((rowIndex.toNat : ℤ) + 1) _ hI1
      (by omega) (by rw [hj]; omega)
    refine ⟨hI2, hW2.trans hW1, hO2.trans hO1, hL2.trans hL1, ?_, ?_⟩
    · intro k hk
      rw [hU2 k (by omega), hU1 k (by omega)]
    · intro k hk1 hk2 row hrow hs
      rcases eq_or_lt_of_le hk1 with hke | hkl
      · rw [hU2 k (by omega)] at hrow
        rw [show k = rowIndex.toNat by omega] at hrow
        exact hS1 row hrow hs
      · exact hS2 k (by omega) (by omega) row hrow hs

end HpecDao

namespace HpecDao

/-- `Inv` only looks at `width`, `rowOffset` and `rows`. -/
theorem Inv.transport {st st' : MondrianLayout} {tiles : List Square}
    (hInv : Inv st tiles) (hw : st'.width = st.width)
    (ho : st'.rowOffset = st.rowOffset) (hr : st'.rows = st.rows) :
    Inv st' tiles := by
  refine ⟨by rw [ho, hInv.offset], ?_, hInv.tileX, hInv.tileY, ?_, ?_, hInv.disj⟩
  · intro i row h
    rw [hr] at h
    rw [hw]
    exact hInv.rowWF i row h
  · intro t ht h1
    rw [hr]
    exact hInv.tileRows t ht h1
  · intro t ht
    rw [hw]
    exact hInv.tileW t ht

/-- The conditional update hits exactly the designated position in a row
with distinct (sorted) `x`s. -/
theorem map_update_at {l : List Slot}
    (hs : l.Pairwise (fun a b => a.x < b.x)) {i : ℕ} {c : Slot}
    (hc : l[i]? = some c) (newr : ℤ) :
    l.map (fun t => if t.x = c.x then { t with r := newr } else t) =
      l.take i ++ { c with r := newr } :: l.drop (i + 1) := by
  have hpre := sorted_take_lt hs hc
  have hsuf := sorted_drop_gt hs hc
  conv_lhs => rw [list_split_at hc]
  rw [List.map_append, List.map_cons, if_pos rfl]
  congr 1
  · rw [List.map_congr_left (fun u hu => if_neg (ne_of_lt (hpre u hu))), List.map_id']
  · congr 1
    rw [List.map_congr_left (fun u hu => if_neg (ne_of_gt (hsuf u hu))), List.map_id']

namespace MondrianLayout

/-- Row-level computation of `updateSlotR`. -/
theorem updateSlotR_rows {st : MondrianLayout} (h0 : st.rowOffset = 0)
    {k : ℕ} {row : Row} (hrow : st.rows[k]? = some row) (x newr : ℤ) :
    (st.updateSlotR (k : ℤ) x newr).rows = st.rows.set k
      ({ y := row.y,
         slots := row.slots.map
           (fun t => if t.x = x then { t with r := newr } else t) } : Row) := by
  have hget : st.getRow (k : ℤ) = some row := by
    rw [getRow_nonneg st h0 _ (Int.natCast_nonneg k), Int.toNat_natCast, hrow]
  unfold updateSlotR
  simp only [hget]
  rw [setRow_def st h0 _ _ (Int.natCast_nonneg k), Int.toNat_natCast]

/-- Row-level computation of `removeSlot` for a slot addressing row `k`. -/
theorem removeSlot_rows {st : MondrianLayout} (h0 : st.rowOffset = 0)
    {k : ℕ} {row : Row} (hrow : st.rows[k]? = some row) (s : Slot)
    (hsy : s.y = (k : ℤ)) :
    (st.removeSlot s).rows = st.rows.set k
      ({ y := row.y, slots := spliceOutSlot s row.slots } : Row) := by
  have hget : st.getRow s.y = some row := by
    rw [hsy, getRow_nonneg st h0 _ (Int.natCast_nonneg k), Int.toNat_natCast, hrow]
  unfold removeSlot
  simp only [hget]
  rw [setRow_def st h0 _ _ (by rw [hsy]; exact Int.natCast_nonneg k), hsy,
    Int.toNat_natCast]

end MondrianLayout

/-- Erasing the updated slot from the decomposed row removes exactly the
designated position, provided the prefix cannot contain it. -/
theorem erase_update_at {l : List Slot} {i : ℕ} {v : Slot}
    (hpre : ∀ u ∈ l.take i, u.x < v.x) :
    (l.take i ++ v :: l.drop (i + 1)).erase v = l.take i ++ l.drop (i + 1) := by
  rw [List.erase_append_right _ (fun hv => absurd rfl (ne_of_lt (hpre v hv)).symm ..),
    List.erase_cons_head]

end HpecDao

namespace HpecDao

/-- One step of `fillSlot`'s collision shrinking
(`collisions[i].r = slot.x - collisions[i].x` followed by removal when the
width drops to zero): the invariant survives, only row `k` changes, and row
`k` keeps its other slots while the slot at `c.x` is clipped or removed. -/
theorem shrinkStep_spec {st : MondrianLayout} {tiles : List Square}
    (hInv : Inv st tiles) {k : ℕ} {row : Row}
    (hrow : st.rows[k]? = some row) {c : Slot} (hcm : c ∈ row.slots)
    {x0 : ℤ} (hclip : x0 - c.x ≤ c.r) (hx0w : x0 ≤ st.width) :
    Inv (if x0 - c.x ≤ 0 then
          (st.updateSlotR (k : ℤ) c.x (x0 - c.x)).removeSlot ⟨c.x, c.y, x0 - c.x⟩
        else st.updateSlotR (k : ℤ) c.x (x0 - c.x)) tiles ∧
    (if x0 - c.x ≤ 0 then
          (st.updateSlotR (k : ℤ) c.x (x0 - c.x)).removeSlot ⟨c.x, c.y, x0 - c.x⟩
        else st.updateSlotR (k : ℤ) c.x (x0 - c.x)).width = st.width ∧
    (if x0 - c.x ≤ 0 then
          (st.updateSlotR (k : ℤ) c.x (x0 - c.x)).removeSlot ⟨c.x, c.y, x0 - c.x⟩
        else st.updateSlotR (k : ℤ) c.x (x0 - c.x)).rowOffset = st.rowOffset ∧
    (if x0 - c.x ≤ 0 then
          (st.updateSlotR (k : ℤ) c.x (x0 - c.x)).removeSlot ⟨c.x, c.y, x0 - c.x⟩
        else st.updateSlotR (k : ℤ) c.x (x0 - c.x)).rows.length = st.rows.length ∧
    (∀ q : ℕ, q ≠ k →
      (if x0 - c.x ≤ 0 then
          (st.updateSlotR (k : ℤ) c.x (x0 - c.x)).removeSlot ⟨c.x, c.y, x0 - c.x⟩
        else st.updateSlotR (k : ℤ) c.x (x0 - c.x)).rows[q]? = st.rows[q]?) ∧
    ∃ row', (if x0 - c.x ≤ 0 then
          (st.updateSlotR (k : ℤ) c.x (x0 - c.x)).removeSlot ⟨c.x, c.y, x0 - c.x⟩
        else st.updateSlotR (k : ℤ) c.x (x0 - c.x)).rows[k]? = some row' ∧
      row'.y = row.y ∧
      (∀ s ∈ row'.slots, (s ∈ row.slots ∧ s.x ≠ c.x) ∨ s = { c with r := x0 - c.x }) ∧
      (∀ s ∈ row.slots, s.x ≠ c.x → s ∈ row'.slots) := by
  obtain ⟨hrY, hrWF, hrS⟩ := hInv.rowWF k row hrow
  obtain ⟨hcy, hcr, hcx, hcw, hcf⟩ := hrWF c hcm
  obtain ⟨i, hi, hiv⟩ := List.getElem_of_mem hcm
  have hci : row.slots[i]? = some c := hiv ▸ List.getElem?_eq_getElem hi
  have hpre := sorted_take_lt hrS hci
  have hsuf := sorted_drop_gt hrS hci
  have hlen : k < st.rows.length := by
    by_contra hc2
    rw [List.getElem?_eq_none (not_lt.mp hc2)] at hrow
    exact absurd hrow (by simp)
  have hmap := map_update_at hrS hci (x0 - c.x)
  have hrows1 := MondrianLayout.updateSlotR_rows hInv.offset hrow c.x (x0 - c.x)
  rw [hmap] at hrows1
  have hmemsplit : ∀ s ∈ row.slots, s.x ≠ c.x →
      s ∈ row.slots.take i ++ row.slots.drop (i + 1) := by
    intro s hsm hsx
    conv at hsm => rw [list_split_at hci]
    rcases List.mem_append.mp hsm with h | h
    · exact List.mem_append_left _ h
    · rcases List.mem_cons.mp h with rfl | h
      · exact absurd rfl hsx
      · exact List.mem_append_right _ h
  split
  · rename_i hneg
    -- clipped slot removed: final slots are the row without position `i`
    have hget1 : (st.updateSlotR (k : ℤ) c.x (x0 - c.x)).rows[k]? =
        some ({ y := row.y,
                slots := row.slots.take i ++
                  ({ c with r := x0 - c.x } : Slot) :: row.slots.drop (i + 1) } : Row) := by
      rw [hrows1, List.getElem?_set_eq_of_lt _ hlen]
    have hsplice : MondrianLayout.spliceOutSlot ⟨c.x, c.y, x0 - c.x⟩
        (row.slots.take i ++ ({ c with r := x0 - c.x } : Slot) :: row.slots.drop (i + 1)) =
        row.slots.take i ++ row.slots.drop (i + 1) := by
      unfold MondrianLayout.spliceOutSlot
      rw [if_pos (by simp)]
      exact erase_update_at hpre
    have hrows2 := MondrianLayout.removeSlot_rows
      (by simp [hInv.offset] : (st.updateSlotR (k : ℤ) c.x (x0 - c.x)).rowOffset = 0)
      hget1 ⟨c.x, c.y, x0 - c.x⟩ (by dsimp only; exact hcy)
    rw [hsplice, hrows1, List.set_set] at hrows2
    have hInvF : Inv (st.setRow (k : ℤ)
        ({ y := row.y, slots := row.slots.take i ++ row.slots.drop (i + 1) } : Row)) tiles := by
      have hget : st.getRow (k : ℤ) = some row := by
        rw [MondrianLayout.getRow_nonneg st hInv.offset _ (Int.natCast_nonneg k),
          Int.toNat_natCast, hrow]
      have heta : ({ y := row.y, slots := row.slots.take i ++ row.slots.drop (i + 1) } : Row) =
          { row with slots := row.slots.take i ++ row.slots.drop (i + 1) } := rfl
      rw [heta]
      refine hInv.modifyRow hget ?_ ?_
      · intro s hs
        rcases List.mem_append.mp hs with h | h
        · exact hrWF s (List.mem_of_mem_take h)
        · exact hrWF s (List.mem_of_mem_drop h)
      · refine hrS.sublist ?_
        conv_rhs => rw [list_split_at hci]
        exact List.Sublist.append_left (List.sublist_cons_self _ _) _
    have hfr : (st.setRow (k : ℤ)
        ({ y := row.y, slots := row.slots.take i ++ row.slots.drop (i + 1) } : Row)).rows =
        st.rows.set k ({ y := row.y, slots := row.slots.take i ++ row.slots.drop (i + 1) } : Row) := by
      rw [MondrianLayout.setRow_def st hInv.offset _ _ (Int.natCast_nonneg k),
        Int.toNat_natCast]
    refine ⟨Inv.transport hInvF (by simp) (by simp) (by rw [hrows2, hfr]), by simp,
      by simp, by rw [hrows2, List.length_set], ?_, ?_⟩
    · intro q hq
      rw [hrows2, List.getElem?_set_ne (Ne.symm hq)]
    · refine ⟨({ y := row.y, slots := row.slots.take i ++ row.slots.drop (i + 1) } : Row),
        by rw [hrows2, List.getElem?_set_eq_of_lt _ hlen], rfl, ?_, ?_⟩
      · intro s hs
        left
        rcases List.mem_append.mp hs with h | h
        · exact ⟨List.mem_of_mem_take h, ne_of_lt (hpre s h)⟩
        · exact ⟨List.mem_of_mem_drop h, ne_of_gt (hsuf s h)⟩
      · exact hmemsplit
  · rename_i hpos
    have hInvF : Inv (st.updateSlotR (k : ℤ) c.x (x0 - c.x)) tiles := by
      have hget : st.getRow (k : ℤ) = some row := by
        rw [MondrianLayout.getRow_nonneg st hInv.offset _ (Int.natCast_nonneg k),
          Int.toNat_natCast, hrow]
      have hr' : (st.updateSlotR (k : ℤ) c.x (x0 - c.x)) = st.setRow (k : ℤ)
          ({ row with slots := row.slots.take i ++
              ({ c with r := x0 - c.x } : Slot) :: row.slots.drop (i + 1) } : Row) := by
        unfold MondrianLayout.updateSlotR
        simp only [hget]
        rw [hmap]
      rw [hr']
      refine hInv.modifyRow hget ?_ ?_
      · intro s hs
        rcases List.mem_append.mp hs with h | h
        · exact hrWF s (List.mem_of_mem_take h)
        · rcases List.mem_cons.mp h with rfl | h
          · exact ⟨hcy, by dsimp only; omega, hcx, by dsimp only; omega,
              SlotFree.subset hcf (by dsimp only; omega) (by dsimp only; omega)
                (by dsimp only; omega) (by dsimp only; omega)⟩
          · exact hrWF s (List.mem_of_mem_drop h)
      · rw [← hmap]
        refine List.Pairwise.map _ ?_ hrS
        intro a b hab
        dsimp only
        split <;> split <;> simpa using hab
    refine ⟨hInvF, by simp, by simp, by rw [hrows1, List.length_set], ?_, ?_⟩
    · intro q hq
      rw [hrows1, List.getElem?_set_ne (Ne.symm hq)]
    · refine ⟨({ y := row.y, slots := row.slots.take i ++
          ({ c with r := x0 - c.x } : Slot) :: row.slots.drop (i + 1) } : Row),
        by rw [hrows1, List.getElem?_set_eq_of_lt _ hlen], rfl, ?_, ?_⟩
      · intro s hs
        rcases List.mem_append.mp hs with h | h
        · exact Or.inl ⟨List.mem_of_mem_take h, ne_of_lt (hpre s h)⟩
        · rcases List.mem_cons.mp h with rfl | h
          · exact Or.inr rfl
          · exact Or.inl ⟨List.mem_of_mem_drop h, ne_of_gt (hsuf s h)⟩
      · intro s hsm hsx
        have := hmemsplit s hsm hsx
        rcases List.mem_append.mp this with h | h
        · exact List.mem_append_left _ h
        · exact List.mem_append_right _ (List.mem_cons_of_mem _ h)

end HpecDao

namespace HpecDao

/-- The collision-shrinking loop of `fillSlot`'s row pass: every collision is
clipped to end at the tile's left edge `x0` (or removed); other rows and the
non-colliding slots survive unchanged. -/
theorem shrinkFold_spec {tiles : List Square} {k : ℕ} {x0 : ℤ} :
    ∀ (cs : List Slot) (st : MondrianLayout) (row : Row), Inv st tiles →
      st.rows[k]? = some row → x0 ≤ st.width →
      (∀ c ∈ cs, c ∈ row.slots) → (∀ c ∈ cs, x0 - c.x ≤ c.r) →
      cs.Pairwise (fun a b => a.x ≠ b.x) →
      Inv (cs.foldl (fun acc c =>
        if x0 - c.x ≤ 0 then
          (acc.updateSlotR (k : ℤ) c.x (x0 - c.x)).removeSlot ⟨c.x, c.y, x0 - c.x⟩
        else acc.updateSlotR (k : ℤ) c.x (x0 - c.x)) st) tiles ∧
      (cs.foldl (fun acc c =>
        if x0 - c.x ≤ 0 then
          (acc.updateSlotR (k : ℤ) c.x (x0 - c.x)).removeSlot ⟨c.x, c.y, x0 - c.x⟩
        else acc.updateSlotR (k : ℤ) c.x (x0 - c.x)) st).width = st.width ∧
      (cs.foldl (fun acc c =>
        if x0 - c.x ≤ 0 then
          (acc.updateSlotR (k : ℤ) c.x (x0 - c.x)).removeSlot ⟨c.x, c.y, x0 - c.x⟩
        else acc.updateSlotR (k : ℤ) c.x (x0 - c.x)) st).rowOffset = st.rowOffset ∧
      (cs.foldl (fun acc c =>
        if x0 - c.x ≤ 0 then
          (acc.updateSlotR (k : ℤ) c.x (x0 - c.x)).removeSlot ⟨c.x, c.y, x0 - c.x⟩
        else acc.updateSlotR (k : ℤ) c.x (x0 - c.x)) st).rows.length = st.rows.length ∧
      (∀ q : ℕ, q ≠ k → (cs.foldl (fun acc c =>
        if x0 - c.x ≤ 0 then
          (acc.updateSlotR (k : ℤ) c.x (x0 - c.x)).removeSlot ⟨c.x, c.y, x0 - c.x⟩
        else acc.updateSlotR (k : ℤ) c.x (x0 - c.x)) st).rows[q]? = st.rows[q]?) ∧
      ∃ row', (cs.foldl (fun acc c =>
        if x0 - c.x ≤ 0 then
          (acc.updateSlotR (k : ℤ) c.x (x0 - c.x)).removeSlot ⟨c.x, c.y, x0 - c.x⟩
        else acc.updateSlotR (k : ℤ) c.x (x0 - c.x)) st).rows[k]? = some row' ∧
        row'.y = row.y ∧
        ∀ s ∈ row'.slots, (s ∈ row.slots ∧ ∀ c ∈ cs, s.x ≠ c.x) ∨
          ∃ c ∈ cs, s = { c with r := x0 - c.x } := by
  intro cs
  induction cs with
  | nil =>
    intro st row hInv hrow hxw _ _ _
    exact ⟨hInv, rfl, rfl, rfl, fun _ _ => rfl,
      ⟨row, hrow, rfl, fun s hs => Or.inl ⟨hs, by simp⟩⟩⟩
  | cons c rest ih =>
    intro st row hInv hrow hxw hmem hclip hpw
    rw [List.foldl_cons]
    obtain ⟨hI1, hW1, hO1, hL1, hU1, row₁, hrow₁, hy₁, hmem₁, hfwd₁⟩ :=
      shrinkStep_spec hInv hrow (hmem c (List.mem_cons_self c rest))
        (hclip c (List.mem_cons_self c rest)) hxw
    rw [List.pairwise_cons] at hpw
    obtain ⟨hI2, hW2, hO2, hL2, hU2, row₂, hrow₂, hy₂, hmem₂⟩ :=
      ih _ row₁ hI1 hrow₁ (by rw [hW1]; exact hxw)
        (fun c' hc' => hfwd₁ c' (hmem c' (List.mem_cons_of_mem c hc'))
          (hpw.1 c' hc').symm)
        (fun c' hc' => hclip c' (List.mem_cons_of_mem c hc')) hpw.2
    refine ⟨hI2, hW2.trans hW1, hO2.trans hO1, hL2.trans hL1,
      fun q hq => (hU2 q hq).trans (hU1 q hq), row₂, hrow₂, hy₂.trans hy₁, ?_⟩
    intro s hs
    rcases hmem₂ s hs with ⟨hs₁, hnot⟩ | ⟨c', hc', hs'⟩
    · rcases hmem₁ s hs₁ with ⟨hs₀, hne⟩ | hcl
      · refine Or.inl ⟨hs₀, ?_⟩
        intro c' hc'
        rcases List.mem_cons.mp hc' with rfl | hc'
        · exact hne
        · exact hnot c' hc'
      · exact Or.inr ⟨c, List.mem_cons_self c rest, hcl⟩
    · exact Or.inr ⟨c', List.mem_cons_of_mem c hc', hs'⟩

end HpecDao

namespace HpecDao

/-- The `maxExcess` fold: at least its seed, and attained at the seed or at
some list element. -/
theorem foldMax_spec (exc : Slot → ℤ) :
    ∀ (l : List Slot) (init : ℤ),
      init ≤ l.foldl (fun m t => Max.max m (Max.max 0 (exc t))) init ∧
      (l.foldl (fun m t => Max.max m (Max.max 0 (exc t))) init = init ∨
        ∃ c ∈ l, l.foldl (fun m t => Max.max m (Max.max 0 (exc t))) init =
          Max.max 0 (exc c)) := by
  intro l
  induction l with
  | nil => exact fun init => ⟨le_refl _, Or.inl rfl⟩
  | cons a as ih =>
    intro init
    rw [List.foldl_cons]
    obtain ⟨ih1, ih2⟩ := ih (Max.max init (Max.max 0 (exc a)))
    constructor
    · exact le_trans (le_max_left _ _) ih1
    · rcases ih2 with h | ⟨c, hc, h⟩
      · rcases max_choice init (Max.max 0 (exc a)) with hm | hm
        · exact Or.inl (h.trans hm)
        · exact Or.inr ⟨a, List.mem_cons_self a as, h.trans hm⟩
      · exact Or.inr ⟨c, List.mem_cons_of_mem a hc, h⟩

/-- What `addSlot` can put into a row: existing slots, the new slot, or an
existing slot with the new width (the merge path, sharing the new `x`). -/
theorem addSlot_mem {st : MondrianLayout} (h0 : st.rowOffset = 0)
    {j : ℕ} {row : Row} (hrow : st.rows[j]? = some row) (v : Slot) :
    ∀ row', (st.addSlot v).1.rows[j]? = some row' → row'.y = row.y ∧
      ∀ s ∈ row'.slots, s ∈ row.slots ∨ s = v ∨
        ∃ ex ∈ row.slots, s = { ex with r := v.r } ∧ ex.x = v.x := by
  intro row' hrow'
  by_cases hne : (j : ℤ) ≠ v.y
  · rw [MondrianLayout.addSlot_rows_untouched st v h0 j hne, hrow] at hrow'
    obtain rfl := Option.some_inj.mp hrow'
    exact ⟨rfl, fun s hs => Or.inl hs⟩
  push_neg at hne
  have hy : 0 ≤ v.y := by rw [← hne]; exact Int.natCast_nonneg j
  have hjy : j = v.y.toNat := by omega
  have hget : st.getRow v.y = some row := by
    rw [MondrianLayout.getRow_nonneg st h0 _ hy, ← hjy, hrow]
  have hlen : j < st.rows.length := by
    by_contra hc
    rw [List.getElem?_eq_none (not_lt.mp hc)] at hrow
    exact absurd hrow (by simp)
  unfold MondrianLayout.addSlot at hrow'
  split at hrow'
  · rw [hrow] at hrow'
    obtain rfl := Option.some_inj.mp hrow'
    exact ⟨rfl, fun s hs => Or.inl hs⟩
  rw [hget] at hrow'
  simp only at hrow'
  rcases hfind : row.slots.find? (fun t => t.x = v.x) with _ | ex
  · rw [hfind] at hrow'
    simp only at hrow'
    rw [MondrianLayout.setRow_def st h0 _ _ hy, ← hjy] at hrow'
    rw [List.getElem?_set_eq_of_lt _ hlen] at hrow'
    obtain rfl := Option.some_inj.mp hrow'
    refine ⟨rfl, fun s hs => ?_⟩
    rcases MondrianLayout.mem_insertSlotSorted.mp hs with rfl | hs
    · exact Or.inr (Or.inl rfl)
    · exact Or.inl hs
  · rw [hfind] at hrow'
    simp only at hrow'
    split at hrow'
    · rw [MondrianLayout.setRow_def st h0 _ _ hy, ← hjy] at hrow'
      rw [List.getElem?_set_eq_of_lt _ hlen] at hrow'
      obtain rfl := Option.some_inj.mp hrow'
      refine ⟨rfl, fun s hs => ?_⟩
      obtain ⟨u, hu, hus⟩ := List.mem_map.mp hs
      by_cases hux : u.x = v.x
      · rw [if_pos hux] at hus
        exact Or.inr (Or.inr ⟨u, hu, hus.symm, hux⟩)
      · rw [if_neg hux] at hus
        exact Or.inl (hus ▸ hu)
    · rw [hrow] at hrow'
      obtain rfl := Option.some_inj.mp hrow'
      exact ⟨rfl, fun s hs => Or.inl hs⟩

/-- A slot whose square lies entirely below every placed tile is free. -/
theorem slotFree_of_rows_above {tiles : List Square} {s : Slot} {b : ℤ}
    (htiles : ∀ t ∈ tiles, 1 ≤ t.r → t.y + t.r ≤ b) (hs : b ≤ s.y) :
    SlotFree tiles s := by
  rintro px py _ _ h3 _ ⟨t, ht, hc⟩
  obtain ⟨hc1, hc2, hc3, hc4⟩ := hc
  have hr : 1 ≤ t.r := by omega
  have := htiles t ht hr
  omega

end HpecDao

namespace HpecDao

/-- When no slot of the row shares the new slot's `x`, `addSlot` keeps all
existing slots. -/
theorem addSlot_mem_preserved {st : MondrianLayout} (h0 : st.rowOffset = 0)
    {j : ℕ} {row : Row} (hrow : st.rows[j]? = some row) (v : Slot) :
    ∀ row', (st.addSlot v).1.rows[j]? = some row' →
      ∀ s ∈ row.slots, s.x ≠ v.x → s ∈ row'.slots := by
  intro row' hrow' s hs hsx
  by_cases hne : (j : ℤ) ≠ v.y
  · rw [MondrianLayout.addSlot_rows_untouched st v h0 j hne, hrow] at hrow'
    obtain rfl := Option.some_inj.mp hrow'
    exact hs
  push_neg at hne
  have hy : 0 ≤ v.y := by rw [← hne]; exact Int.natCast_nonneg j
  have hjy : j = v.y.toNat := by omega
  have hget : st.getRow v.y = some row := by
    rw [MondrianLayout.getRow_nonneg st h0 _ hy, ← hjy, hrow]
  have hlen : j < st.rows.length := by
    by_contra hc
    rw [List.getElem?_eq_none (not_lt.mp hc)] at hrow
    exact absurd hrow (by simp)
  unfold MondrianLayout.addSlot at hrow'
  split at hrow'
  · rw [hrow] at hrow'
    obtain rfl := Option.some_inj.mp hrow'
    exact hs
  rw [hget] at hrow'
  simp only at hrow'
  rcases hfind : row.slots.find? (fun t => t.x = v.x) with _ | ex
  · rw [hfind] at hrow'
    simp only at hrow'
    rw [MondrianLayout.setRow_def st h0 _ _ hy, ← hjy,
      List.getElem?_set_eq_of_lt _ hlen] at hrow'
    obtain rfl := Option.some_inj.mp hrow'
    exact MondrianLayout.mem_insertSlotSorted.mpr (Or.inr hs)
  · rw [hfind] at hrow'
    simp only at hrow'
    split at hrow'
    · rw [MondrianLayout.setRow_def st h0 _ _ hy, ← hjy,
        List.getElem?_set_eq_of_lt _ hlen] at hrow'
      obtain rfl := Option.some_inj.mp hrow'
      refine List.mem_map.mpr ⟨s, hs, ?_⟩
      rw [if_neg hsx]
    · rw [hrow] at hrow'
      obtain rfl := Option.some_inj.mp hrow'
      exact hs

end HpecDao

namespace HpecDao

/-- Adding a column-safe slot to a row whose slots are all column-safe keeps
the invariant and the safety, touching only that row. -/
theorem addSlot_safe_step {st : MondrianLayout} {tiles : List Square}
    (hInv : Inv st tiles) (s0 : Slot) (sw : ℤ) {k : ℕ} {rowB : Row}
    (hrowB : st.rows[k]? = some rowB)
    (hall : ∀ s ∈ rowB.slots, ColSafe s0 sw s) (v : Slot) (hvy : v.y = (k : ℤ))
    (hvsafe : ColSafe s0 sw v)
    (hok : 0 < v.r → 0 ≤ v.x ∧ v.x + v.r ≤ st.width ∧ SlotFree tiles v) :
    Inv (st.addSlot v).1 tiles ∧
    (st.addSlot v).1.rows.length = st.rows.length ∧
    (∀ q : ℕ, q ≠ k → (st.addSlot v).1.rows[q]? = st.rows[q]?) ∧
    (∀ row', (st.addSlot v).1.rows[k]? = some row' →
      ∀ s ∈ row'.slots, ColSafe s0 sw s) := by
  refine ⟨addSlot_inv hInv hok, MondrianLayout.addSlot_rows_length st v, ?_, ?_⟩
  · intro q hq
    exact MondrianLayout.addSlot_rows_untouched st v hInv.offset q (by omega)
  · intro row' hrow' s hs
    rcases (addSlot_mem hInv.offset hrowB v row' hrow').2 s hs with h | h | ⟨ex, _, hex, hexx⟩
    · exact hall s h
    · exact h ▸ hvsafe
    · rcases hvsafe with hv | hv
      · exact Or.inl (by rw [hex, hexx]; exact hv)
      · exact Or.inr (by rw [hex, hexx]; exact hv)


/-- Specification of the row pass of `fillSlot` when the row already exists:
the guarded gap slot is added (in bounds and tile-free by the `maxExcess`
analysis), then every colliding slot is clipped to end at the tile's left
edge; the row's surviving slots all clear the tile's columns. -/
theorem fillRowStep_some_spec {st : MondrianLayout} {tiles : List Square}
    (hInv : Inv st tiles) (s0 : Slot) (sw : ℤ)
    (hs0x : 0 ≤ s0.x) (hs0r : 1 ≤ s0.r) (hs0w : s0.x + s0.r ≤ st.width)
    (hs0f : SlotFree tiles s0) (hsw : 1 ≤ sw)
    {k : ℕ} (hky : s0.y ≤ (k : ℤ)) (hktop : (k : ℤ) < s0.y + sw)
    {row : Row} (hrowk : st.rows[k]? = some row)
    (cs : List Slot)
    (hcsmem : ∀ c ∈ cs, c ∈ row.slots ∧ s0.x ≤ c.x + c.r ∧ c.x < s0.x + sw)
    (hcspw : cs.Pairwise (fun a b => a.x ≠ b.x))
    (hcsfull : ∀ s ∈ row.slots, s0.x ≤ s.x + s.r → s.x < s0.x + sw → s ∈ cs)
    (E : ℤ)
    (hEdef : E = cs.foldl (fun m t => Max.max m (Max.max 0 (t.x + t.r - (s0.x + s0.r)))) 0)
    (cond : Prop) [inst : Decidable cond] (T : MondrianLayout)
    (hT : T = cs.foldl (fun acc c =>
        if s0.x - c.x ≤ 0 then
          (acc.updateSlotR (k : ℤ) c.x (s0.x - c.x)).removeSlot ⟨c.x, c.y, s0.x - c.x⟩
        else acc.updateSlotR (k : ℤ) c.x (s0.x - c.x))
      (if cond then (st.addSlot ⟨s0.x + sw, (k : ℤ), s0.r - sw + E⟩).1 else st)) :
    Inv T tiles ∧ T.width = st.width ∧ T.rowOffset = st.rowOffset ∧
    st.rows.length ≤ T.rows.length ∧
    T.rows.length ≤ Max.max st.rows.length (k + 1) ∧
    k + 1 ≤ T.rows.length ∧
    (∀ q : ℕ, q ≠ k → T.rows[q]? = st.rows[q]?) ∧
    (∀ row', T.rows[k]? = some row' → ∀ s ∈ row'.slots, ColSafe s0 sw s) := by
  subst hT
  have hEge : 0 ≤ cs.foldl
      (fun m t => Max.max m (Max.max 0 (t.x + t.r - (s0.x + s0.r)))) 0 :=
    (foldMax_spec (fun t => t.x + t.r - (s0.x + s0.r)) cs 0).1
  have hEcases : cs.foldl
      (fun m t => Max.max m (Max.max 0 (t.x + t.r - (s0.x + s0.r)))) 0 = 0 ∨
      ∃ c ∈ cs, cs.foldl
        (fun m t => Max.max m (Max.max 0 (t.x + t.r - (s0.x + s0.r)))) 0 =
        Max.max 0 (c.x + c.r - (s0.x + s0.r)) :=
    (foldMax_spec (fun t => t.x + t.r - (s0.x + s0.r)) cs 0).2
  rw [← hEdef] at hEge hEcases
  have hklt : k < st.rows.length := by
    by_contra hc
    rw [List.getElem?_eq_none (not_lt.mp hc)] at hrowk
    exact absurd hrowk (by simp)
  obtain ⟨hry, hslotwf, hsorted⟩ := hInv.rowWF k row hrowk
  have hok : 0 < ((⟨s0.x + sw, (k : ℤ), s0.r - sw + E⟩ : Slot)).r →
      0 ≤ ((⟨s0.x + sw, (k : ℤ), s0.r - sw + E⟩ : Slot)).x ∧
      ((⟨s0.x + sw, (k : ℤ), s0.r - sw + E⟩ : Slot)).x +
        ((⟨s0.x + sw, (k : ℤ), s0.r - sw + E⟩ : Slot)).r ≤ st.width ∧
      SlotFree tiles (⟨s0.x + sw, (k : ℤ), s0.r - sw + E⟩ : Slot) := by
    intro hr
    have hr' : 0 < s0.r - sw + E := hr
    refine ⟨by show (0 : ℤ) ≤ s0.x + sw; omega, ?_, ?_⟩
    · show s0.x + sw + (s0.r - sw + E) ≤ st.width
      rcases hEcases with hE | ⟨c, hc, hE⟩
      · omega
      · have h1 := (hslotwf c (hcsmem c hc).1).2.2.2.1
        rcases le_or_lt (c.x + c.r - (s0.x + s0.r)) 0 with h | h
        · rw [max_eq_left h] at hE
          omega
        · rw [max_eq_right h.le] at hE
          omega
    · rcases eq_or_lt_of_le hEge with hE0 | hEpos
      · refine hs0f.subset (show s0.x ≤ s0.x + sw by omega) ?_ hky ?_
        · show s0.x + sw + (s0.r - sw + E) ≤ s0.x + s0.r
          omega
        · show (k : ℤ) + (s0.r - sw + E) ≤ s0.y + s0.r
          omega
      · rcases hEcases with hE | ⟨c, hc, hE⟩
        · exact absurd hE (by omega)
        · obtain ⟨hcrow, hcl, hcr⟩ := hcsmem c hc
          obtain ⟨hcy, hcr1, hcx0, hcw, hcf⟩ := hslotwf c hcrow
          have hEeq : E = c.x + c.r - (s0.x + s0.r) := by
            rcases le_or_lt (c.x + c.r - (s0.x + s0.r)) 0 with h | h
            · rw [max_eq_left h] at hE
              exact absurd hE (by omega)
            · rw [max_eq_right h.le] at hE
              exact hE
          refine hcf.subset (show c.x ≤ s0.x + sw by omega) ?_ ?_ ?_
          · show s0.x + sw + (s0.r - sw + E) ≤ c.x + c.r
            omega
          · show c.y ≤ (k : ℤ)
            omega
          · show (k : ℤ) + (s0.r - sw + E) ≤ c.y + c.r
            omega
  have hst1 : Inv (if cond then (st.addSlot ⟨s0.x + sw, (k : ℤ), s0.r - sw + E⟩).1 else st) tiles ∧
      (if cond then (st.addSlot ⟨s0.x + sw, (k : ℤ), s0.r - sw + E⟩).1 else st).width = st.width ∧
      (if cond then (st.addSlot ⟨s0.x + sw, (k : ℤ), s0.r - sw + E⟩).1 else st).rowOffset = st.rowOffset ∧
      (if cond then (st.addSlot ⟨s0.x + sw, (k : ℤ), s0.r - sw + E⟩).1 else st).rows.length = st.rows.length ∧
      (∀ q : ℕ, q ≠ k →
        (if cond then (st.addSlot ⟨s0.x + sw, (k : ℤ), s0.r - sw + E⟩).1 else st).rows[q]? = st.rows[q]?) ∧
      ∃ row₁, (if cond then (st.addSlot ⟨s0.x + sw, (k : ℤ), s0.r - sw + E⟩).1 else st).rows[k]? = some row₁ ∧
        (∀ c ∈ cs, c ∈ row₁.slots) ∧
        (∀ s ∈ row₁.slots, s ∈ row.slots ∨ s.x = s0.x + sw) := by
    split
    · refine ⟨addSlot_inv hInv hok, by simp, by simp,
        MondrianLayout.addSlot_rows_length st _, ?_, ?_⟩
      · intro q hq
        exact MondrianLayout.addSlot_rows_untouched st _ hInv.offset q
          (show (q : ℤ) ≠ ((k : ℕ) : ℤ) by omega)
      · have hlen : k < (st.addSlot ⟨s0.x + sw, (k : ℤ), s0.r - sw + E⟩).1.rows.length := by
          rw [MondrianLayout.addSlot_rows_length]
          exact hklt
        rcases hx : (st.addSlot ⟨s0.x + sw, (k : ℤ), s0.r - sw + E⟩).1.rows[k]? with _ | row₁
        · rw [List.getElem?_eq_some.mpr ⟨hlen, rfl⟩] at hx
          exact absurd hx (by simp)
        · refine ⟨row₁, rfl, ?_, ?_⟩
          · intro c hc
            refine addSlot_mem_preserved hInv.offset hrowk _ row₁ hx c (hcsmem c hc).1 ?_
            show c.x ≠ s0.x + sw
            have := (hcsmem c hc).2.2
            omega
          · intro s hs
            rcases (addSlot_mem hInv.offset hrowk _ row₁ hx).2 s hs with h | h | ⟨ex, hex, hse, hexx⟩
            · exact Or.inl h
            · right
              rw [h]
            · right
              rw [hse]
              exact hexx
    · exact ⟨hInv, rfl, rfl, rfl, fun q hq => rfl, row, hrowk,
        fun c hc => (hcsmem c hc).1, fun s hs => Or.inl hs⟩
  obtain ⟨hI1, hW1, hO1, hL1, hU1, row₁, hrow₁, hcs₁, hchar₁⟩ := hst1
  obtain ⟨hI2, hW2, hO2, hL2, hU2, row₂, hrow₂, hy₂, hmem₂⟩ :=
    @shrinkFold_spec tiles k s0.x cs
      (if cond then (st.addSlot ⟨s0.x + sw, (k : ℤ), s0.r - sw + E⟩).1 else st)
      row₁ hI1 hrow₁ (by rw [hW1]; omega) hcs₁
      (fun c hc => by have h1 := (hcsmem c hc).2.1; have h2 := (hcsmem c hc).2.2; omega)
      hcspw
  refine ⟨hI2, hW2.trans hW1, hO2.trans hO1, ?_, ?_, ?_, 
    fun q hq => (hU2 q hq).trans (hU1 q hq), ?_⟩
  · have h1 := hL2
    have h2 := hL1
    omega
  · have h1 := hL2
    have h2 := hL1
    omega
  · have h1 := hL2
    have h2 := hL1
    omega
  · intro row' hrow' s hs
    rw [hrow₂] at hrow'
    obtain rfl := Option.some_inj.mp hrow'
    rcases hmem₂ s hs with ⟨hs₁, hnot⟩ | ⟨c, hc, rfl⟩
    · rcases hchar₁ s hs₁ with hsrow | hsx
      · by_cases hcol : s0.x ≤ s.x + s.r ∧ s.x < s0.x + sw
        · exact absurd rfl (hnot s (hcsfull s hsrow hcol.1 hcol.2))
        · rcases not_and_or.mp hcol with h | h
          · exact Or.inl (by omega)
          · exact Or.inr (by omega)
      · exact Or.inr (by omega)
    · exact Or.inl (show c.x + (s0.x - c.x) ≤ s0.x by omega)

/-- Specification of one pass of `fillSlot`'s first row loop, for a row index
`k` inside the tile's vertical extent.  `s0` is the (already removed) chosen
slot, assumed free and in bounds; the tile either fits in it (`sw ≤ s0.r`) or
runs past the layout's right edge.  The pass preserves the invariant, touches
only row `k` (creating it when it is the first missing row), leaves the layout
at least `k + 1` rows long, and leaves every slot of row `k` clear of the
tile's columns. -/
theorem fillRowStep_spec {st : MondrianLayout} {tiles : List Square}
    (hInv : Inv st tiles) (s0 : Slot) (sw : ℤ)
    (hs0x : 0 ≤ s0.x) (hs0r : 1 ≤ s0.r) (hs0w : s0.x + s0.r ≤ st.width)
    (hs0f : SlotFree tiles s0) (hs0y : 0 ≤ s0.y) (hsw : 1 ≤ sw)
    (hfit : sw ≤ s0.r ∨ st.width ≤ s0.x + sw)
    {k : ℕ} (hky : s0.y ≤ (k : ℤ)) (hktop : (k : ℤ) < s0.y + sw)
    (hklen : k ≤ st.rows.length) :
    Inv (MondrianLayout.fillRowStep st s0 sw ⟨s0.x, s0.x + sw, s0.y, s0.y + sw⟩ (k : ℤ)) tiles ∧
    (MondrianLayout.fillRowStep st s0 sw ⟨s0.x, s0.x + sw, s0.y, s0.y + sw⟩ (k : ℤ)).width = st.width ∧
    (MondrianLayout.fillRowStep st s0 sw ⟨s0.x, s0.x + sw, s0.y, s0.y + sw⟩ (k : ℤ)).rowOffset = st.rowOffset ∧
    st.rows.length ≤ (MondrianLayout.fillRowStep st s0 sw ⟨s0.x, s0.x + sw, s0.y, s0.y + sw⟩ (k : ℤ)).rows.length ∧
    (MondrianLayout.fillRowStep st s0 sw ⟨s0.x, s0.x + sw, s0.y, s0.y + sw⟩ (k : ℤ)).rows.length ≤
      Max.max st.rows.length (k + 1) ∧
    k + 1 ≤ (MondrianLayout.fillRowStep st s0 sw ⟨s0.x, s0.x + sw, s0.y, s0.y + sw⟩ (k : ℤ)).rows.length ∧
    (∀ q : ℕ, q ≠ k →
      (MondrianLayout.fillRowStep st s0 sw ⟨s0.x, s0.x + sw, s0.y, s0.y + sw⟩ (k : ℤ)).rows[q]? = st.rows[q]?) ∧
    (∀ row', (MondrianLayout.fillRowStep st s0 sw ⟨s0.x, s0.x + sw, s0.y, s0.y + sw⟩ (k : ℤ)).rows[k]? = some row' →
      ∀ s ∈ row'.slots, ColSafe s0 sw s) := by
  rcases hget : st.getRow (k : ℤ) with _ | row
  case none =>
    unfold MondrianLayout.fillRowStep
    simp only [hget]
    have hkeq : k = st.rows.length := by
      rw [MondrianLayout.getRow_nonneg st hInv.offset _ (Int.natCast_nonneg k),
        Int.toNat_natCast] at hget
      have : st.rows.length ≤ k := by
        by_contra hc
        rw [List.getElem?_eq_some.mpr ⟨not_le.mp hc, rfl⟩] at hget
        exact absurd hget (by simp)
      omega
    have habove : ∀ t ∈ tiles, 1 ≤ t.r → t.y + t.r ≤ (k : ℤ) := by
      intro t ht hr
      have := hInv.tileRows t ht hr
      omega
    have hI1 : Inv (st.addRow).1 tiles := addRow_inv hInv
    have hrow1 : (st.addRow).1.rows[k]? =
        some ({ y := (st.rows.length : ℤ) + st.rowOffset, slots := [] } : Row) := by
      rw [MondrianLayout.addRow_rows, List.getElem?_append_right (by omega), hkeq,
        Nat.sub_self, List.getElem?_cons_zero]
    have hL1 : (st.addRow).1.rows.length = k + 1 := by
      rw [MondrianLayout.addRow_rows, List.length_append, hkeq]
      rfl
    have hall1 : ∀ s ∈ ({ y := (st.rows.length : ℤ) + st.rowOffset, slots := [] } : Row).slots,
        ColSafe s0 sw s := by
      intro s hs
      exact absurd hs (by simp)
    have hstep1 := addSlot_safe_step hI1 s0 sw hrow1 hall1 ⟨0, (k : ℤ), s0.x⟩ rfl
      (Or.inl (by show (0 : ℤ) + s0.x ≤ s0.x; omega))
      (fun hr => ⟨le_refl 0,
        by rw [MondrianLayout.addRow_width]; show (0 : ℤ) + s0.x ≤ st.width; omega,
        slotFree_of_rows_above habove (le_refl _)⟩)
    obtain ⟨hI2t, hL2t, hU2t, hS2t⟩ := hstep1
    -- name the state after the conditional left slot
    have huntouched2 : ∀ q : ℕ, q ≠ k →
        (if 0 < s0.x then ((st.addRow).1.addSlot ⟨0, (k : ℤ), s0.x⟩).1 else (st.addRow).1).rows[q]?
          = st.rows[q]? := by
      intro q hq
      have haddq : (st.addRow).1.rows[q]? = st.rows[q]? := by
        rcases lt_or_gt_of_ne hq with h | h
        · rw [MondrianLayout.addRow_rows, List.getElem?_append, if_pos (by omega)]
        · have hlen : st.rows.length + 1 ≤ q := by omega
          rw [MondrianLayout.addRow_rows,
            List.getElem?_eq_none (by simpa using hlen),
            List.getElem?_eq_none (by omega)]
      split
      · rw [hU2t q hq, haddq]
      · exact haddq
    have hI2 : Inv (if 0 < s0.x then ((st.addRow).1.addSlot ⟨0, (k : ℤ), s0.x⟩).1
        else (st.addRow).1) tiles := by
      split
      · exact hI2t
      · exact hI1
    have hL2 : (if 0 < s0.x then ((st.addRow).1.addSlot ⟨0, (k : ℤ), s0.x⟩).1
        else (st.addRow).1).rows.length = k + 1 := by
      split
      · rw [hL2t, hL1]
      · exact hL1
    have hS2 : ∀ row', (if 0 < s0.x then ((st.addRow).1.addSlot ⟨0, (k : ℤ), s0.x⟩).1
        else (st.addRow).1).rows[k]? = some row' → ∀ s ∈ row'.slots, ColSafe s0 sw s := by
      split
      · exact hS2t
      · intro row' hrow' s hs
        rw [hrow1] at hrow'
        obtain rfl := Option.some_inj.mp hrow'
        exact hall1 s hs
    have hrow2 : ∃ row₂, (if 0 < s0.x then ((st.addRow).1.addSlot ⟨0, (k : ℤ), s0.x⟩).1
        else (st.addRow).1).rows[k]? = some row₂ := by
      have : k < (if 0 < s0.x then ((st.addRow).1.addSlot ⟨0, (k : ℤ), s0.x⟩).1
          else (st.addRow).1).rows.length := by omega
      rcases hx : (if 0 < s0.x then ((st.addRow).1.addSlot ⟨0, (k : ℤ), s0.x⟩).1
          else (st.addRow).1).rows[k]? with _ | row₂
      · rw [List.getElem?_eq_some.mpr ⟨this, rfl⟩] at hx
        exact absurd hx (by simp)
      · exact ⟨row₂, rfl⟩
    obtain ⟨row₂, hrow₂⟩ := hrow2
    have hwidth2 : (if 0 < s0.x then ((st.addRow).1.addSlot ⟨0, (k : ℤ), s0.x⟩).1
        else (st.addRow).1).width = st.width := by
      split <;> simp
    split
    · rename_i hguard
      obtain ⟨hI3, hL3, hU3, hS3⟩ := addSlot_safe_step hI2 s0 sw hrow₂ (hS2 row₂ hrow₂)
        ⟨s0.x + sw, (k : ℤ), st.width - (s0.x + sw)⟩ rfl (Or.inr (le_refl _))
        (fun hr => ⟨by show (0 : ℤ) ≤ s0.x + sw; omega,
          by rw [hwidth2]; show s0.x + sw + (st.width - (s0.x + sw)) ≤ st.width; omega,
          slotFree_of_rows_above habove (le_refl _)⟩)
      refine ⟨hI3, ?_, ?_, ?_, ?_, ?_, ?_, hS3⟩
      · rw [MondrianLayout.addSlot_width]
        split <;> simp
      · rw [MondrianLayout.addSlot_rowOffset]
        split <;> simp
      · have h1 := hL3
        have h2 := hL2
        omega
      · have h1 := hL3
        have h2 := hL2
        omega
      · have h1 := hL3
        have h2 := hL2
        omega
      · intro q hq
        rw [hU3 q hq, huntouched2 q hq]
    · refine ⟨hI2, ?_, ?_, ?_, ?_, ?_, huntouched2, hS2⟩
      · split <;> simp
      · split <;> simp
      · omega
      · omega
      · omega
  case some =>
    have hrw : MondrianLayout.fillRowStep st s0 sw ⟨s0.x, s0.x + sw, s0.y, s0.y + sw⟩ (k : ℤ) =
        (row.slots.filter (fun t => ¬(t.x + t.r < s0.x ∨ s0.x + sw ≤ t.x))).foldl
          (fun acc c =>
            if s0.x - c.x ≤ 0 then
              (acc.updateSlotR (k : ℤ) c.x (s0.x - c.x)).removeSlot ⟨c.x, c.y, s0.x - c.x⟩
            else acc.updateSlotR (k : ℤ) c.x (s0.x - c.x))
          (if s0.x + sw < st.width ∧
              ((row.slots.find? (fun t => t.x = s0.x + sw)).isNone = true) then
            (st.addSlot ⟨s0.x + sw, (k : ℤ),
              s0.r - sw + (row.slots.filter
                  (fun t => ¬(t.x + t.r < s0.x ∨ s0.x + sw ≤ t.x))).foldl
                (fun m t => Max.max m (Max.max 0 (t.x + t.r - (s0.x + s0.r)))) 0⟩).1
          else st) := by
      unfold MondrianLayout.fillRowStep
      rw [hget]
    rw [hrw]
    obtain ⟨-, hrowk0, -⟩ := hInv.getRow_some hget
    rw [Int.toNat_natCast] at hrowk0
    obtain ⟨-, hslotwf, hsorted⟩ := hInv.rowWF k row hrowk0
    have hcsmem : ∀ c ∈ row.slots.filter
        (fun t => ¬(t.x + t.r < s0.x ∨ s0.x + sw ≤ t.x)),
        c ∈ row.slots ∧ s0.x ≤ c.x + c.r ∧ c.x < s0.x + sw := by
      intro c hc
      rw [List.mem_filter] at hc
      have h2 := of_decide_eq_true hc.2
      push_neg at h2
      exact ⟨hc.1, h2.1, h2.2⟩
    have hcspw : (row.slots.filter
        (fun t => ¬(t.x + t.r < s0.x ∨ s0.x + sw ≤ t.x))).Pairwise
        (fun a b => a.x ≠ b.x) :=
      (hsorted.filter _).imp (fun h => ne_of_lt h)
    have hcsfull : ∀ s ∈ row.slots, s0.x ≤ s.x + s.r → s.x < s0.x + sw →
        s ∈ row.slots.filter (fun t => ¬(t.x + t.r < s0.x ∨ s0.x + sw ≤ t.x)) := by
      intro s hs h1 h2
      rw [List.mem_filter]
      exact ⟨hs, decide_eq_true (by omega)⟩
    exact fillRowStep_some_spec hInv s0 sw hs0x hs0r hs0w hs0f hsw hky hktop hrowk0
      (row.slots.filter (fun t => ¬(t.x + t.r < s0.x ∨ s0.x + sw ≤ t.x)))
      hcsmem hcspw hcsfull
      _ rfl
      (s0.x + sw < st.width ∧ ((row.slots.find? (fun t => t.x = s0.x + sw)).isNone = true))
      _ rfl

end HpecDao

namespace HpecDao

/-- Specification of `fillSlot`'s first row loop: starting at row `j` with
`n` iterations remaining, all inside the tile's vertical extent, the loop
preserves the invariant, touches only rows `[j, j + n)`, grows the layout to
at least `j + n` rows, and leaves every slot of the visited rows clear of the
tile's columns. -/
theorem fillRowsGo_spec {tiles : List Square} (s0 : Slot) (sw : ℤ)
    (hs0x : 0 ≤ s0.x) (hs0r : 1 ≤ s0.r) (hs0f : SlotFree tiles s0)
    (hs0y : 0 ≤ s0.y) (hsw : 1 ≤ sw) :
    ∀ (n : ℕ) (j : ℤ) (st : MondrianLayout), Inv st tiles →
      s0.x + s0.r ≤ st.width → (sw ≤ s0.r ∨ st.width ≤ s0.x + sw) →
      s0.y ≤ j → j + n ≤ s0.y + sw → j ≤ (st.rows.length : ℤ) →
      Inv (MondrianLayout.fillRowsGo s0 sw ⟨s0.x, s0.x + sw, s0.y, s0.y + sw⟩ n j st) tiles ∧
      (MondrianLayout.fillRowsGo s0 sw ⟨s0.x, s0.x + sw, s0.y, s0.y + sw⟩ n j st).width = st.width ∧
      (MondrianLayout.fillRowsGo s0 sw ⟨s0.x, s0.x + sw, s0.y, s0.y + sw⟩ n j st).rowOffset = st.rowOffset ∧
      st.rows.length ≤ (MondrianLayout.fillRowsGo s0 sw ⟨s0.x, s0.x + sw, s0.y, s0.y + sw⟩ n j st).rows.length ∧
      j + n ≤ ((MondrianLayout.fillRowsGo s0 sw ⟨s0.x, s0.x + sw, s0.y, s0.y + sw⟩ n j st).rows.length : ℤ) ∧
      (∀ q : ℕ, ((q : ℤ) < j ∨ j + n ≤ (q : ℤ)) →
        (MondrianLayout.fillRowsGo s0 sw ⟨s0.x, s0.x + sw, s0.y, s0.y + sw⟩ n j st).rows[q]? = st.rows[q]?) ∧
      (∀ q : ℕ, j ≤ (q : ℤ) → (q : ℤ) < j + n →
        ∀ row', (MondrianLayout.fillRowsGo s0 sw ⟨s0.x, s0.x + sw, s0.y, s0.y + sw⟩ n j st).rows[q]? = some row' →
          ∀ s ∈ row'.slots, ColSafe s0 sw s) := by
  intro n
  induction n with
  | zero =>
    intro j st hInv hw hfit hjy hjn hjlen
    rw [MondrianLayout.fillRowsGo]
    exact ⟨hInv, rfl, rfl, le_refl _, by omega, fun _ _ => rfl,
      fun q hq1 hq2 _ _ => by omega⟩
  | succ n ih =>
    intro j st hInv hw hfit hjy hjn hjlen
    rw [MondrianLayout.fillRowsGo]
    have hj0 : 0 ≤ j := by omega
    have hj : ((j.toNat : ℕ) : ℤ) = j := Int.toNat_of_nonneg hj0
    rw [← hj]
    obtain ⟨hI1, hW1, hO1, hL1, hM1, hK1, hU1, hS1⟩ :=
      @fillRowStep_spec st tiles hInv s0 sw hs0x hs0r hw hs0f hs0y hsw hfit
        j.toNat (by omega) (by omega) (by omega)
    obtain ⟨hI2, hW2, hO2, hL2, hN2, hU2, hS2⟩ := ih ((j.toNat : ℤ) + 1) _ hI1
      (by rw [hW1]; exact hw) (by rw [hW1]; exact hfit) (by omega)
      (by omega) (by omega)
    refine ⟨hI2, hW2.trans hW1, hO2.trans hO1, le_trans hL1 hL2, by omega, ?_, ?_⟩
    · intro q hq
      rw [hU2 q (by omega), hU1 q (by omega)]
    · intro q hq1 hq2 row' hrow' s hs
      by_cases hqj : q = j.toNat
      · rw [hU2 q (by omega), hqj] at hrow'
        exact hS1 row' hrow' s hs
      · exact hS2 q (by omega) (by omega) row' hrow' s hs
  
end HpecDao

namespace HpecDao

/-- `removeSlot` keeps the layout's shape: width, offset, row count, and all
rows other than the slot's own. -/
theorem removeSlot_frames (st : MondrianLayout) (s : Slot) (h0 : st.rowOffset = 0) :
    (st.removeSlot s).rows.length = st.rows.length ∧
    ∀ q : ℕ, (q : ℤ) ≠ s.y → (st.removeSlot s).rows[q]? = st.rows[q]? := by
  unfold MondrianLayout.removeSlot
  rcases hget : st.getRow s.y with _ | row
  · simp only [hget]
    exact ⟨trivial, fun _ _ => trivial⟩
  simp only [hget]
  have hy : 0 ≤ s.y := by
    by_contra hc
    rw [MondrianLayout.getRow_eq st h0, if_pos (by omega)] at hget
    exact absurd hget (by simp)
  rw [MondrianLayout.setRow_def st h0 _ _ hy]
  refine ⟨by simp, ?_⟩
  intro q hq
  exact List.getElem?_set_ne (by omega)

/-- `setTxMapCell` only writes the occupancy grid. -/
theorem setTxMapCell_frames (st : MondrianLayout) (x y : ℤ) (tx : ℕ) :
    (st.setTxMapCell x y tx).width = st.width ∧
    (st.setTxMapCell x y tx).rowOffset = st.rowOffset ∧
    (st.setTxMapCell x y tx).rows = st.rows := by
  simp only [MondrianLayout.setTxMapCell]
  split <;> exact ⟨rfl, rfl, rfl⟩

/-- The tile-recording inner loop only writes the occupancy grid. -/
theorem recordTileInner_frames (sq : Square) (tx : ℕ) (xOff : ℤ) :
    ∀ (n : ℕ) (st : MondrianLayout),
      (MondrianLayout.recordTileInner sq tx xOff n st).width = st.width ∧
      (MondrianLayout.recordTileInner sq tx xOff n st).rowOffset = st.rowOffset ∧
      (MondrianLayout.recordTileInner sq tx xOff n st).rows = st.rows := by
  intro n
  induction n with
  | zero => exact fun st => ⟨rfl, rfl, rfl⟩
  | succ n ih =>
    intro st
    rw [MondrianLayout.recordTileInner]
    obtain ⟨h1, h2, h3⟩ := setTxMapCell_frames (MondrianLayout.recordTileInner sq tx xOff n st)
      (sq.x + xOff) (sq.y + n) tx
    obtain ⟨g1, g2, g3⟩ := ih st
    exact ⟨h1.trans g1, h2.trans g2, h3.trans g3⟩

/-- The tile-recording loop only writes the occupancy grid. -/
theorem recordTileLoop_frames (sq : Square) (tx : ℕ) :
    ∀ (n : ℕ) (st : MondrianLayout),
      (MondrianLayout.recordTileLoop sq tx n st).width = st.width ∧
      (MondrianLayout.recordTileLoop sq tx n st).rowOffset = st.rowOffset ∧
      (MondrianLayout.recordTileLoop sq tx n st).rows = st.rows := by
  intro n
  induction n with
  | zero => exact fun st => ⟨rfl, rfl, rfl⟩
  | succ n ih =>
    intro st
    rw [MondrianLayout.recordTileLoop]
    obtain ⟨h1, h2, h3⟩ := recordTileInner_frames sq tx n sq.r.toNat
      (MondrianLayout.recordTileLoop sq tx n st)
    obtain ⟨g1, g2, g3⟩ := ih st
    exact ⟨h1.trans g1, h2.trans g2, h3.trans g3⟩

/-- `addSlot` on an empty row: the slot is inserted as the row's only slot
and returned. -/
theorem addSlot_on_empty_row {B : MondrianLayout} (h0 : B.rowOffset = 0) {k : ℕ}
    (hrow : B.rows[k]? = some { y := (k : ℤ), slots := [] }) {v : Slot}
    (hvy : v.y = (k : ℤ)) (hvr : 0 < v.r) :
    B.addSlot v = (B.setRow v.y { y := (k : ℤ), slots := [v] }, some v) := by
  have hget : B.getRow v.y = some ({ y := (k : ℤ), slots := [] } : Row) := by
    rw [hvy, MondrianLayout.getRow_nonneg B h0 _ (Int.natCast_nonneg k),
      Int.toNat_natCast, hrow]
  unfold MondrianLayout.addSlot
  rw [if_neg (by omega), hget]
  simp only [List.find?_nil]
  rfl

end HpecDao

namespace HpecDao

/-- Splitting a successful `find?` over a flattened list of lists: the hit
lies in some chunk, and every element of every earlier chunk fails the
predicate. -/
theorem find_flatten_split {α : Type} (p : α → Bool) :
    ∀ (L : List (List α)) (x : α), L.flatten.find? p = some x →
      ∃ i : ℕ, ∃ l, L[i]? = some l ∧ x ∈ l ∧ p x = true ∧
        ∀ q : ℕ, q < i → ∀ lq, L[q]? = some lq → ∀ s ∈ lq, ¬(p s = true) := by
  intro L
  induction L with
  | nil =>
    intro x h
    exact absurd h (by simp)
  | cons l L ih =>
    intro x h
    rw [List.flatten_cons, List.find?_append] at h
    rcases hfind : l.find? p with _ | y
    · rw [hfind, Option.none_or] at h
      obtain ⟨i, l', hl', hx, hp, hpre⟩ := ih x h
      refine ⟨i + 1, l', by simpa using hl', hx, hp, ?_⟩
      intro q hq lq hlq s hs
      rcases q with _ | q
      · rw [List.getElem?_cons_zero] at hlq
        obtain rfl := Option.some_inj.mp hlq
        exact List.find?_eq_none.mp hfind s hs
      · rw [List.getElem?_cons_succ] at hlq
        exact hpre q (by omega) lq hlq s hs
    · rw [hfind] at h
      obtain rfl := Option.some_inj.mp h
      exact ⟨0, l, List.getElem?_cons_zero, List.mem_of_find?_eq_some hfind,
        List.find?_some hfind, fun q hq _ _ _ _ => absurd hq (by omega)⟩

/-- What a successful first-fit scan yields: a well-formed free slot wide
enough for the square, with every slot in the rows above it too narrow. -/
theorem findFirstSlot_found {st : MondrianLayout} {tiles : List Square}
    (hInv : Inv st tiles) {size : ℤ} {s0 : Slot}
    (h : st.findFirstSlot size = some s0) :
    size ≤ s0.r ∧ 0 ≤ s0.x ∧ 1 ≤ s0.r ∧ s0.x + s0.r ≤ st.width ∧
    SlotFree tiles s0 ∧ 0 ≤ s0.y ∧ s0.y < (st.rows.length : ℤ) ∧
    (∀ q : ℕ, (q : ℤ) < s0.y → ∀ rowq, st.rows[q]? = some rowq →
      ∀ s ∈ rowq.slots, s.r < size) := by
  unfold MondrianLayout.findFirstSlot at h
  obtain ⟨i, l, hl, hx, hp, hpre⟩ := find_flatten_split _ _ _ h
  rw [List.getElem?_map] at hl
  rcases hrow : st.rows[i]? with _ | row
  · rw [hrow] at hl
    exact absurd hl (by simp)
  rw [hrow] at hl
  obtain rfl : row.slots = l := Option.some_inj.mp hl
  obtain ⟨hry, hslotwf, hsorted⟩ := hInv.rowWF i row hrow
  obtain ⟨hy0, hr1, hx0, hxw, hfree⟩ := hslotwf s0 hx
  have hilen : i < st.rows.length := by
    by_contra hc
    rw [List.getElem?_eq_none (not_lt.mp hc)] at hrow
    exact absurd hrow (by simp)
  refine ⟨of_decide_eq_true hp, hx0, hr1, hxw, hfree, by omega, by omega, ?_⟩
  intro q hq rowq hrowq s hs
  have hqi : q < i := by omega
  have := hpre q hqi rowq.slots (by rw [List.getElem?_map, hrowq]; rfl) s hs
  have hnot : ¬(size ≤ s.r) := fun hc => this (decide_eq_true hc)
  omega

end HpecDao

namespace HpecDao

/-- Master specification of `fillSlot`: removing the chosen slot, clearing the
tile's rows, and clipping the shadow rows preserves the invariant extended
with the newly placed square, provided the rows above the chosen slot hold
only slots too narrow for the square (first-fit) and the new square is
disjoint from all placed tiles. -/
theorem fillSlot_spec {st : MondrianLayout} {tiles : List Square} (hInv : Inv st tiles)
    (s0 : Slot) (sw : ℤ)
    (hs0x : 0 ≤ s0.x) (hs0r : 1 ≤ s0.r) (hs0w : s0.x + s0.r ≤ st.width)
    (hs0f : SlotFree tiles s0) (hs0y : 0 ≤ s0.y)
    (hs0len : s0.y ≤ (st.rows.length : ℤ))
    (hsw : 1 ≤ sw) (hfit : sw ≤ s0.r ∨ st.width ≤ s0.x + sw)
    (htw : sw ≤ st.width → s0.x + sw ≤ st.width)
    (htile : ∀ t ∈ tiles, Square.Disjoint t ⟨s0.x, s0.y, sw⟩)
    (habove : ∀ q : ℕ, (q : ℤ) < s0.y → ∀ rowq, st.rows[q]? = some rowq →
      ∀ s ∈ rowq.slots, s.r < sw) :
    Inv (MondrianLayout.fillSlot st s0 sw).1 (tiles ++ [⟨s0.x, s0.y, sw⟩]) ∧
    (MondrianLayout.fillSlot st s0 sw).1.width = st.width ∧
    (MondrianLayout.fillSlot st s0 sw).1.rowOffset = st.rowOffset ∧
    st.rows.length ≤ (MondrianLayout.fillSlot st s0 sw).1.rows.length ∧
    (MondrianLayout.fillSlot st s0 sw).2 = ⟨s0.x, s0.y, sw⟩ := by
  have hfs1 : (MondrianLayout.fillSlot st s0 sw).1 =
      MondrianLayout.shadowRowsLoop s0 sw
        (MondrianLayout.fillRowsLoop s0 sw ⟨s0.x, s0.x + sw, s0.y, s0.y + sw⟩
          (st.removeSlot s0)) := rfl
  have hfs2 : (MondrianLayout.fillSlot st s0 sw).2 = ⟨s0.x, s0.y, sw⟩ := rfl
  rw [hfs1, hfs2]
  rw [MondrianLayout.fillRowsLoop, MondrianLayout.shadowRowsLoop]
  have hproj : ((⟨s0.x, s0.x + sw, s0.y, s0.y + sw⟩ : FillRect).top - s0.y).toNat =
      (s0.y + sw - s0.y).toNat := rfl
  rw [hproj]
  obtain ⟨hL1, hU1⟩ := removeSlot_frames st s0 hInv.offset
  have hI1 : Inv (st.removeSlot s0) tiles := removeSlot_inv hInv
  have hn1 : (((s0.y + sw - s0.y).toNat : ℕ) : ℤ) = sw := by omega
  obtain ⟨hI2, hW2, hO2, hL2, hN2, hU2, hS2⟩ :=
    fillRowsGo_spec s0 sw hs0x hs0r hs0f hs0y hsw
      (s0.y + sw - s0.y).toNat s0.y
      (st.removeSlot s0) hI1
      (by rw [MondrianLayout.removeSlot_width]; exact hs0w)
      (by rw [MondrianLayout.removeSlot_width]; exact hfit)
      (le_refl _) (by omega) (by rw [hL1]; exact hs0len)
  have hM0 : (0 : ℤ) ≤ Max.max 0 (s0.y - sw) := le_max_left _ _
  have hM1 : s0.y - sw ≤ Max.max 0 (s0.y - sw) := le_max_right _ _
  have hM2 : Max.max 0 (s0.y - sw) ≤ s0.y := max_le (by omega) (by omega)
  have hn2 : (((s0.y - Max.max 0 (s0.y - sw)).toNat : ℕ) : ℤ) =
      s0.y - Max.max 0 (s0.y - sw) := by omega
  obtain ⟨hI3, hW3, hO3, hL3, hU3, hS3⟩ :=
    shadowRowsGo_spec s0 sw (s0.y - Max.max 0 (s0.y - sw)).toNat
      (Max.max 0 (s0.y - sw)) _ hI2 hM0 (by omega)
  have hWall := hW3.trans (hW2.trans (MondrianLayout.removeSlot_width st s0))
  refine ⟨⟨?_, ?_, ?_, ?_, ?_, ?_, ?_⟩, hWall, 
    hO3.trans (hO2.trans (MondrianLayout.removeSlot_rowOffset st s0)), ?_, rfl⟩
  · rw [hO3, hO2, MondrianLayout.removeSlot_rowOffset]
    exact hInv.offset
  · -- row well-formedness against the extended tile list
    intro i row hrow
    obtain ⟨hry, hswf, hsorted⟩ := hI3.rowWF i row hrow
    refine ⟨hry, ?_, hsorted⟩
    intro s hs
    obtain ⟨hsy, hsr, hsx, hsxw, hsfree⟩ := hswf s hs
    refine ⟨hsy, hsr, hsx, hsxw, slotFree_append.mpr ⟨hsfree, ?_⟩⟩
    rcases le_or_lt s0.y (i : ℤ) with hge | hlt
    · rcases lt_or_le (i : ℤ) (s0.y + sw) with hlt2 | hge2
      · -- a tile row: cleared of the tile's columns by the first loop
        have hcs := hS2 i hge (by omega) row
          (by rw [← hU3 i (Or.inr hge)]; exact hrow) s hs
        rcases hcs with h | h
        · exact slotAvoids_of_separated (Or.inl h)
        · exact slotAvoids_of_separated (Or.inr (Or.inl h))
      · -- below the tile's rows
        exact slotAvoids_of_separated (Or.inr (Or.inr (Or.inr
          (show s0.y + sw ≤ s.y by omega))))
    · rcases lt_or_le (i : ℤ) (Max.max 0 (s0.y - sw)) with hc1 | hc1
      · -- an untouched original row strictly below the shadow range
        have hrow0 : st.rows[i]? = some row := by
          rw [← hU1 i (by omega), ← hU2 i (Or.inl (by omega)), ← hU3 i (Or.inl hc1)]
          exact hrow
        have hr := habove i (by omega) row hrow0 s hs
        have hisw : (i : ℤ) < s0.y - sw := by
          rcases max_choice 0 (s0.y - sw) with hm | hm
          · rw [hm] at hc1
            omega
          · rw [hm] at hc1
            exact hc1
        exact slotAvoids_of_separated (Or.inr (Or.inr (Or.inl
          (show s.y + s.r ≤ s0.y by omega))))
      · -- a shadow row: clipped to end above the tile
        exact ShadowSafe.avoids (hS3 i hc1 (by omega) row hrow s hs)
  · -- tile x bounds
    intro t ht
    rcases List.mem_append.mp ht with h | h
    · exact hI3.tileX t h
    · rw [List.mem_singleton] at h
      subst h
      exact hs0x
  · -- tile y bounds
    intro t ht
    rcases List.mem_append.mp ht with h | h
    · exact hI3.tileY t h
    · rw [List.mem_singleton] at h
      subst h
      exact hs0y
  · -- tiles fit in the rows
    intro t ht htr
    rcases List.mem_append.mp ht with h | h
    · exact hI3.tileRows t h htr
    · rw [List.mem_singleton] at h
      subst h
      have h1 := hL3
      have h2 := hN2
      exact (show s0.y + sw ≤ _ from by omega)
  · -- tiles fit in the width
    intro t ht htr
    rcases List.mem_append.mp ht with h | h
    · exact hI3.tileW t h htr
    · rw [List.mem_singleton] at h
      subst h
      have htr2 : sw ≤ st.width := by
        rw [← hWall]
        exact htr
      have hres : s0.x + sw ≤ st.width := htw htr2
      rw [hWall]
      exact hres
  · -- pairwise disjointness with the new square
    refine List.pairwise_append.mpr ⟨hInv.disj, by simp, ?_⟩
    intro a ha b hb
    rw [List.mem_singleton] at hb
    subst hb
    exact htile a ha
  · -- the layout only grows
    have h1 := hL1
    have h2 := hL2
    have h3 := hL3
    omega

end HpecDao

namespace HpecDao

/-- One placement preserves the invariant, extended with the returned square;
the square's side is the requested size and the width never changes. -/
theorem place_inv {st : MondrianLayout} {tiles : List Square} {tx : ℕ} {size : ℤ}
    (hInv : Inv st tiles) (hsz : 1 ≤ size) {st' : MondrianLayout} {sq : Square}
    (h : st.place tx size = some (st', sq)) :
    Inv st' (tiles ++ [sq]) ∧ st'.width = st.width ∧ sq.r = size := by
  unfold MondrianLayout.place at h
  split at h
  · -- first-fit found a slot
    rename_i s0 heq
    have h2 : some (MondrianLayout.recordTileLoop (st.fillSlot s0 size).2 tx
        ((st.fillSlot s0 size).2).r.toNat (st.fillSlot s0 size).1, (st.fillSlot s0 size).2) = some (st', sq) := h
    have hpair := Option.some_inj.mp h2
    have hst' : MondrianLayout.recordTileLoop (st.fillSlot s0 size).2 tx
        ((st.fillSlot s0 size).2).r.toNat (st.fillSlot s0 size).1 = st' := congrArg Prod.fst hpair
    have hsq : (st.fillSlot s0 size).2 = sq := congrArg Prod.snd hpair
    subst hst'
    subst hsq
    obtain ⟨hsr, hx0, hr1, hxw, hfree, hy0, hylen, habove⟩ := findFirstSlot_found hInv heq
    have htile : ∀ t ∈ tiles, Square.Disjoint t ⟨s0.x, s0.y, size⟩ := by
      intro t ht px py hc
      obtain ⟨hcT, hcN⟩ := hc
      have h1 : s0.x ≤ px := hcN.1
      have h2 : px < s0.x + size := hcN.2.1
      have h3 : s0.y ≤ py := hcN.2.2.1
      have h4 : py < s0.y + size := hcN.2.2.2
      exact hfree px py h1 (by omega) h3 (by omega) ⟨t, ht, hcT⟩
    obtain ⟨hIf, hWf, hOf, hLf, hSqf⟩ := fillSlot_spec hInv s0 size hx0 hr1 hxw hfree hy0
      (le_of_lt hylen) hsz (Or.inl hsr) (fun _ => by omega) htile habove
    obtain ⟨f1, f2, f3⟩ := recordTileLoop_frames (st.fillSlot s0 size).2 tx
      ((st.fillSlot s0 size).2).r.toNat (st.fillSlot s0 size).1
    refine ⟨?_, f1.trans hWf, ?_⟩
    · rw [hSqf]
      exact Inv.transport hIf f1 f2 f3
    · rw [hSqf]
  · -- no slot fits: fresh full-width row
    rename_i heq
    by_cases hw : st.width ≤ 0
    · have haddnone : (st.addRow).1.addSlot ⟨0, (st.addRow).2.y, (st.addRow).1.width⟩ = ((st.addRow).1, none) := by
        unfold MondrianLayout.addSlot
        rw [if_pos (show ((⟨0, (st.addRow).2.y, (st.addRow).1.width⟩ : Slot)).r ≤ 0 from hw)]
      have h2 : (match (st.addRow).1.addSlot (⟨0, (st.addRow).2.y, (st.addRow).1.width⟩ : Slot) with
          | (st2, some slot) => some (MondrianLayout.recordTileLoop
              (st2.fillSlot slot size).2 tx (st2.fillSlot slot size).2.r.toNat
              (st2.fillSlot slot size).1, (st2.fillSlot slot size).2)
          | (_, none) => none) = some (st', sq) := h
      rw [haddnone] at h2
      have h3 : (none : Option (MondrianLayout × Square)) = some (st', sq) := h2
      exact absurd h3 (by simp)
    push_neg at hw
    have hB0 : (st.addRow).1.rowOffset = 0 := by
      rw [MondrianLayout.addRow_rowOffset]
      exact hInv.offset
    have hBrow : (st.addRow).1.rows[st.rows.length]? =
        some { y := (st.rows.length : ℤ), slots := [] } := by
      rw [MondrianLayout.addRow_rows, List.getElem?_append_right (le_refl _),
        Nat.sub_self, List.getElem?_cons_zero, hInv.offset, add_zero]
    have hvy : ((⟨0, (st.addRow).2.y, (st.addRow).1.width⟩ : Slot)).y = ((st.rows.length : ℕ) : ℤ) := by
      show (st.rows.length : ℤ) + st.rowOffset = ((st.rows.length : ℕ) : ℤ)
      rw [hInv.offset, add_zero]
    have hadd := addSlot_on_empty_row hB0 hBrow hvy (show (0 : ℤ) < st.width from hw)
    have h2 : (match (st.addRow).1.addSlot (⟨0, (st.addRow).2.y, (st.addRow).1.width⟩ : Slot) with
        | (st2, some slot) => some (MondrianLayout.recordTileLoop
            (st2.fillSlot slot size).2 tx (st2.fillSlot slot size).2.r.toNat
            (st2.fillSlot slot size).1, (st2.fillSlot slot size).2)
        | (_, none) => none) = some (st', sq) := h
    rw [hadd] at h2
    have h3 : some (MondrianLayout.recordTileLoop (((st.addRow).1.setRow (⟨0, (st.addRow).2.y, (st.addRow).1.width⟩ : Slot).y { y := ((st.rows.length : ℕ) : ℤ), slots := [⟨0, (st.addRow).2.y, (st.addRow).1.width⟩] }).fillSlot ⟨0, (st.addRow).2.y, (st.addRow).1.width⟩ size).2 tx
        ((((st.addRow).1.setRow (⟨0, (st.addRow).2.y, (st.addRow).1.width⟩ : Slot).y { y := ((st.rows.length : ℕ) : ℤ), slots := [⟨0, (st.addRow).2.y, (st.addRow).1.width⟩] }).fillSlot ⟨0, (st.addRow).2.y, (st.addRow).1.width⟩ size).2).r.toNat (((st.addRow).1.setRow (⟨0, (st.addRow).2.y, (st.addRow).1.width⟩ : Slot).y { y := ((st.rows.length : ℕ) : ℤ), slots := [⟨0, (st.addRow).2.y, (st.addRow).1.width⟩] }).fillSlot ⟨0, (st.addRow).2.y, (st.addRow).1.width⟩ size).1, (((st.addRow).1.setRow (⟨0, (st.addRow).2.y, (st.addRow).1.width⟩ : Slot).y { y := ((st.rows.length : ℕ) : ℤ), slots := [⟨0, (st.addRow).2.y, (st.addRow).1.width⟩] }).fillSlot ⟨0, (st.addRow).2.y, (st.addRow).1.width⟩ size).2) = some (st', sq) := h2
    have hpair := Option.some_inj.mp h3
    have hst' : MondrianLayout.recordTileLoop (((st.addRow).1.setRow (⟨0, (st.addRow).2.y, (st.addRow).1.width⟩ : Slot).y { y := ((st.rows.length : ℕ) : ℤ), slots := [⟨0, (st.addRow).2.y, (st.addRow).1.width⟩] }).fillSlot ⟨0, (st.addRow).2.y, (st.addRow).1.width⟩ size).2 tx
        ((((st.addRow).1.setRow (⟨0, (st.addRow).2.y, (st.addRow).1.width⟩ : Slot).y { y := ((st.rows.length : ℕ) : ℤ), slots := [⟨0, (st.addRow).2.y, (st.addRow).1.width⟩] }).fillSlot ⟨0, (st.addRow).2.y, (st.addRow).1.width⟩ size).2).r.toNat (((st.addRow).1.setRow (⟨0, (st.addRow).2.y, (st.addRow).1.width⟩ : Slot).y { y := ((st.rows.length : ℕ) : ℤ), slots := [⟨0, (st.addRow).2.y, (st.addRow).1.width⟩] }).fillSlot ⟨0, (st.addRow).2.y, (st.addRow).1.width⟩ size).1 = st' := congrArg Prod.fst hpair
    have hsq : (((st.addRow).1.setRow (⟨0, (st.addRow).2.y, (st.addRow).1.width⟩ : Slot).y { y := ((st.rows.length : ℕ) : ℤ), slots := [⟨0, (st.addRow).2.y, (st.addRow).1.width⟩] }).fillSlot ⟨0, (st.addRow).2.y, (st.addRow).1.width⟩ size).2 = sq := congrArg Prod.snd hpair
    subst hst'
    subst hsq
    have haddfst : ((st.addRow).1.addSlot (⟨0, (st.addRow).2.y, (st.addRow).1.width⟩ : Slot)).1 = ((st.addRow).1.setRow (⟨0, (st.addRow).2.y, (st.addRow).1.width⟩ : Slot).y { y := ((st.rows.length : ℕ) : ℤ), slots := [⟨0, (st.addRow).2.y, (st.addRow).1.width⟩] }) :=
      congrArg Prod.fst hadd
    have hok : 0 < ((⟨0, (st.addRow).2.y, (st.addRow).1.width⟩ : Slot)).r →
        0 ≤ ((⟨0, (st.addRow).2.y, (st.addRow).1.width⟩ : Slot)).x ∧
        ((⟨0, (st.addRow).2.y, (st.addRow).1.width⟩ : Slot)).x + ((⟨0, (st.addRow).2.y, (st.addRow).1.width⟩ : Slot)).r ≤ (st.addRow).1.width ∧
        SlotFree tiles (⟨0, (st.addRow).2.y, (st.addRow).1.width⟩ : Slot) := by
      intro hr
      refine ⟨le_refl 0, ?_, ?_⟩
      · show (0 : ℤ) + st.width ≤ st.width
        omega
      · exact slotFree_of_rows_above
          (fun t ht htr => hInv.tileRows t ht htr) (le_of_eq hvy.symm)
    have hIST2 : Inv ((st.addRow).1.setRow (⟨0, (st.addRow).2.y, (st.addRow).1.width⟩ : Slot).y { y := ((st.rows.length : ℕ) : ℤ), slots := [⟨0, (st.addRow).2.y, (st.addRow).1.width⟩] }) tiles := by
      rw [← haddfst]
      exact addSlot_inv (addRow_inv hInv) hok
    have hSTw : ((st.addRow).1.setRow (⟨0, (st.addRow).2.y, (st.addRow).1.width⟩ : Slot).y { y := ((st.rows.length : ℕ) : ℤ), slots := [⟨0, (st.addRow).2.y, (st.addRow).1.width⟩] }).width = st.width := by
      rw [MondrianLayout.setRow_width, MondrianLayout.addRow_width]
    have hST2rows : ((st.addRow).1.setRow (⟨0, (st.addRow).2.y, (st.addRow).1.width⟩ : Slot).y { y := ((st.rows.length : ℕ) : ℤ), slots := [⟨0, (st.addRow).2.y, (st.addRow).1.width⟩] }).rows = ((st.addRow).1.rows.set st.rows.length
        ({ y := ((st.rows.length : ℕ) : ℤ), slots := [⟨0, (st.addRow).2.y, (st.addRow).1.width⟩] } : Row)) := by
      rw [MondrianLayout.setRow_def _ hB0 _ _ (by rw [hvy]; exact Int.natCast_nonneg _),
        hvy, Int.toNat_natCast]
    have hST2len : ((st.addRow).1.setRow (⟨0, (st.addRow).2.y, (st.addRow).1.width⟩ : Slot).y { y := ((st.rows.length : ℕ) : ℤ), slots := [⟨0, (st.addRow).2.y, (st.addRow).1.width⟩] }).rows.length = st.rows.length + 1 := by
      rw [hST2rows]
      simp
    have hST2q : ∀ q : ℕ, q < st.rows.length → ((st.addRow).1.setRow (⟨0, (st.addRow).2.y, (st.addRow).1.width⟩ : Slot).y { y := ((st.rows.length : ℕ) : ℤ), slots := [⟨0, (st.addRow).2.y, (st.addRow).1.width⟩] }).rows[q]? = st.rows[q]? := by
      intro q hq
      rw [hST2rows, List.getElem?_set_ne (by omega), MondrianLayout.addRow_rows,
        List.getElem?_append, if_pos hq]
    have hallr : ∀ q : ℕ, ∀ rowq, st.rows[q]? = some rowq →
        ∀ s ∈ rowq.slots, s.r < size := by
      intro q rowq hrowq s hs
      have hnone := heq
      unfold MondrianLayout.findFirstSlot at hnone
      have hall := List.find?_eq_none.mp hnone
      have hqmem : rowq ∈ st.rows := by
        obtain ⟨hlt, hEq⟩ := List.getElem?_eq_some.mp hrowq
        rw [← hEq]
        exact List.getElem_mem hlt
      have hmem : s ∈ (List.map Row.slots st.rows).flatten := by
        rw [List.mem_flatten]
        exact ⟨rowq.slots, List.mem_map.mpr ⟨rowq, hqmem, rfl⟩, hs⟩
      have hns := hall s hmem
      have hnsize : ¬(size ≤ s.r) := fun hc => hns (decide_eq_true hc)
      omega
    have htile : ∀ t ∈ tiles, Square.Disjoint t
        ⟨((⟨0, (st.addRow).2.y, (st.addRow).1.width⟩ : Slot)).x, ((⟨0, (st.addRow).2.y, (st.addRow).1.width⟩ : Slot)).y, size⟩ := by
      intro t ht px py hc
      obtain ⟨hcT, hcN⟩ := hc
      obtain ⟨c1, c2, c3, c4⟩ := hcT
      have h3 : ((⟨0, (st.addRow).2.y, (st.addRow).1.width⟩ : Slot)).y ≤ py := hcN.2.2.1
      rw [hvy] at h3
      have hr : (1 : ℤ) ≤ t.r := by omega
      have := hInv.tileRows t ht hr
      omega
    have habove2 : ∀ q : ℕ, (q : ℤ) < ((⟨0, (st.addRow).2.y, (st.addRow).1.width⟩ : Slot)).y → ∀ rowq,
        ((st.addRow).1.setRow (⟨0, (st.addRow).2.y, (st.addRow).1.width⟩ : Slot).y { y := ((st.rows.length : ℕ) : ℤ), slots := [⟨0, (st.addRow).2.y, (st.addRow).1.width⟩] }).rows[q]? = some rowq → ∀ s ∈ rowq.slots, s.r < size := by
      intro q hq rowq hrowq s hs
      rw [hvy] at hq
      rw [hST2q q (by omega)] at hrowq
      exact hallr q rowq hrowq s hs
    obtain ⟨hIf, hWf, hOf, hLf, hSqf⟩ := fillSlot_spec hIST2 (⟨0, (st.addRow).2.y, (st.addRow).1.width⟩ : Slot) size
      (le_refl 0) (show (1 : ℤ) ≤ st.width by omega)
      (by rw [hSTw]; show (0 : ℤ) + st.width ≤ st.width; omega)
      (slotFree_of_rows_above (fun t ht htr => hInv.tileRows t ht htr) (le_of_eq hvy.symm))
      (by rw [hvy]; exact Int.natCast_nonneg _)
      (by rw [hST2len, hvy]; omega)
      hsz
      (by
        rcases le_or_lt size st.width with hle | hlt
        · exact Or.inl (show size ≤ st.width from hle)
        · refine Or.inr ?_
          rw [hSTw]
          show st.width ≤ 0 + size
          omega)
      (fun hle => by
        rw [hSTw] at hle ⊢
        show (0 : ℤ) + size ≤ st.width
        omega)
      htile habove2
    obtain ⟨f1, f2, f3⟩ := recordTileLoop_frames (((st.addRow).1.setRow (⟨0, (st.addRow).2.y, (st.addRow).1.width⟩ : Slot).y { y := ((st.rows.length : ℕ) : ℤ), slots := [⟨0, (st.addRow).2.y, (st.addRow).1.width⟩] }).fillSlot ⟨0, (st.addRow).2.y, (st.addRow).1.width⟩ size).2 tx ((((st.addRow).1.setRow (⟨0, (st.addRow).2.y, (st.addRow).1.width⟩ : Slot).y { y := ((st.rows.length : ℕ) : ℤ), slots := [⟨0, (st.addRow).2.y, (st.addRow).1.width⟩] }).fillSlot ⟨0, (st.addRow).2.y, (st.addRow).1.width⟩ size).2).r.toNat (((st.addRow).1.setRow (⟨0, (st.addRow).2.y, (st.addRow).1.width⟩ : Slot).y { y := ((st.rows.length : ℕ) : ℤ), slots := [⟨0, (st.addRow).2.y, (st.addRow).1.width⟩] }).fillSlot ⟨0, (st.addRow).2.y, (st.addRow).1.width⟩ size).1
    refine ⟨?_, f1.trans (hWf.trans hSTw), ?_⟩
    · rw [hSqf]
      exact Inv.transport hIf f1 f2 f3
    · rw [hSqf]

end HpecDao

namespace HpecDao

/-- The freshly constructed layout satisfies the invariant with no tiles. -/
theorem Inv_new (w : ℤ) : Inv (MondrianLayout.new w) [] := by
  refine ⟨rfl, ?_, by simp, by simp, by simp, by simp, List.Pairwise.nil⟩
  intro i row h
  exact absurd h (by simp [MondrianLayout.new])

/-- The placement loop of `generateVisualization` preserves the invariant over
the accumulated squares and returns one square of the requested side per
size. -/
theorem placeAll_go_spec :
    ∀ (sizes : List ℤ) (st : MondrianLayout) (idx : ℕ) (acc : List Square),
      Inv st acc.reverse → (∀ s ∈ sizes, 1 ≤ s) →
      ∀ st' res, placeAll.go st idx acc sizes = some (st', res) →
        Inv st' res ∧ st'.width = st.width ∧
        res.map Square.r = (acc.reverse.map Square.r) ++ sizes := by
  intro sizes
  induction sizes with
  | nil =>
    intro st idx acc hInv hsz st' res h
    rw [placeAll.go] at h
    have hpair := Option.some_inj.mp h
    have h1 : st = st' := congrArg Prod.fst hpair
    have h2 : acc.reverse = res := congrArg Prod.snd hpair
    subst h1
    subst h2
    exact ⟨hInv, rfl, by simp⟩
  | cons s rest ih =>
    intro st idx acc hInv hsz st' res h
    rw [placeAll.go] at h
    rcases hp : st.place idx s with _ | p
    · rw [hp] at h
      exact absurd (show (none : Option (MondrianLayout × List Square)) = some (st', res) from h)
        (by simp)
    · obtain ⟨st2, sq⟩ := p
      rw [hp] at h
      have h' : placeAll.go st2 (idx + 1) (sq :: acc) rest = some (st', res) := h
      obtain ⟨hI2, hW2, hR2⟩ := place_inv hInv (hsz s (List.mem_cons_self s rest)) hp
      have hI2' : Inv st2 (sq :: acc).reverse := by
        rw [List.reverse_cons]
        exact hI2
      obtain ⟨hI3, hW3, hR3⟩ := ih st2 (idx + 1) (sq :: acc) hI2'
        (fun x hx => hsz x (List.mem_cons_of_mem s hx)) st' res h'
      refine ⟨hI3, hW3.trans hW2, ?_⟩
      rw [hR3]
      simp [hR2]

/-- The caller loop: a successful run yields an invariant-satisfying layout
whose squares have exactly the requested sides. -/
theorem placeAll_spec {width : ℤ} {sizes : List ℤ}
    (hsz : ∀ s ∈ sizes, 1 ≤ s) {st : MondrianLayout} {tiles : List Square}
    (h : placeAll width sizes = some (st, tiles)) :
    Inv st tiles ∧ st.width = width ∧ tiles.map Square.r = sizes := by
  have h' : placeAll.go (MondrianLayout.new width) 0 [] sizes = some (st, tiles) := h
  obtain ⟨hI, hW, hR⟩ := placeAll_go_spec sizes (MondrianLayout.new width) 0 []
    (Inv_new width) hsz st tiles h'
  exact ⟨hI, hW, by simpa using hR⟩

end HpecDao

namespace HpecDao

/-- **C1**: for every layout of positive width and every ordered sequence of
`place` calls with positive integer sizes, the grid rectangles
`[x, x+r) × [y, y+r)` of any two distinct placed squares do not intersect. -/
theorem place_tiles_no_overlap (width : ℤ) (sizes : List ℤ)
    (hw : 0 < width) (hsz : ∀ s ∈ sizes, 1 ≤ s)
    (st : MondrianLayout) (tiles : List Square)
    (h : placeAll width sizes = some (st, tiles)) :
    tiles.Pairwise Square.Disjoint :=
  (placeAll_spec hsz h).1.disj

/-- Witness: the no-overlap theorem applied to the concrete run
`placeAll 3 [1, 2]`. -/
theorem place_tiles_no_overlap_witness :
    (0 : ℤ) < 3 ∧ (∀ s ∈ [(1 : ℤ), 2], 1 ≤ s) ∧
    ([{ x := 0, y := 0, r := 1 }, { x := 1, y := 0, r := 2 }] : List Square).Pairwise
      Square.Disjoint :=
  ⟨by decide, by decide,
    place_tiles_no_overlap 3 [1, 2] (by decide) (by decide)
      { width := 3, rowOffset := 0,
        rows := [{ y := 0, slots := [] },
                 { y := 1, slots := [{ x := 0, y := 1, r := 1 }] }],
        txMap := [[some 0, some 1, some 1], [none, some 1, some 1]] }
      [{ x := 0, y := 0, r := 1 }, { x := 1, y := 0, r := 2 }]
      (by decide)⟩

end HpecDao

namespace HpecDao

theorem cells_card (t : Square) :
    (Square.cells t).card = t.r.toNat * t.r.toNat := by
  rw [Square.cells, Finset.card_product, Int.card_Ico, Int.card_Ico,
    add_sub_cancel_left, show t.y + t.r - t.y = t.r from by ring]

theorem cells_disjoint {a b : Square} (h : Square.Disjoint a b) :
    Disjoint (Square.cells a) (Square.cells b) := by
  rw [Finset.disjoint_left]
  intro p hpa hpb
  rw [Square.cells, Finset.mem_product, Finset.mem_Ico, Finset.mem_Ico] at hpa hpb
  exact h p.1 p.2 ⟨⟨hpa.1.1, hpa.1.2, hpa.2.1, hpa.2.2⟩,
    ⟨hpb.1.1, hpb.1.2, hpb.2.1, hpb.2.2⟩⟩

theorem cells_subset {t : Square} {w L : ℤ} (hx : 0 ≤ t.x) (hxw : t.x + t.r ≤ w)
    (hy : 0 ≤ t.y) (hyL : t.y + t.r ≤ L) :
    Square.cells t ⊆ Finset.Ico 0 w ×ˢ Finset.Ico 0 L := by
  intro p hp
  rw [Square.cells, Finset.mem_product, Finset.mem_Ico, Finset.mem_Ico] at hp
  rw [Finset.mem_product, Finset.mem_Ico, Finset.mem_Ico]
  omega

theorem sum_card_le_of_pairwise_disjoint :
    ∀ (l : List Square) (B : Finset (ℤ × ℤ)),
      l.Pairwise Square.Disjoint → (∀ t ∈ l, Square.cells t ⊆ B) →
      (l.map (fun t => (Square.cells t).card)).sum ≤ B.card := by
  intro l
  induction l with
  | nil =>
    intro B _ _
    simp
  | cons t l ih =>
    intro B hpw hsub
    rw [List.pairwise_cons] at hpw
    have hdisj : ∀ t' ∈ l, Square.cells t' ⊆ B \ Square.cells t := by
      intro t' ht' p hp
      rw [Finset.mem_sdiff]
      exact ⟨hsub t' (List.mem_cons_of_mem t ht') hp,
        fun hc => (Finset.disjoint_left.mp (cells_disjoint (hpw.1 t' ht'))) hc hp⟩
    have hA := ih (B \ Square.cells t) hpw.2 hdisj
    have hsubt := hsub t (List.mem_cons_self t l)
    rw [List.map_cons, List.sum_cons]
    have hcard : (B \ Square.cells t).card = B.card - (Square.cells t).card :=
      Finset.card_sdiff hsubt
    have hle := Finset.card_le_card hsubt
    omega

theorem sum_squares_cast : ∀ (l : List Square), (∀ t ∈ l, 0 ≤ t.r) →
    (l.map (fun t => t.r * t.r)).sum =
      ((l.map (fun t => (Square.cells t).card)).sum : ℤ) := by
  intro l
  induction l with
  | nil =>
    intro _
    simp
  | cons t l ih =>
    intro hall
    rw [List.map_cons, List.sum_cons, List.map_cons, List.sum_cons,
      ih (fun x hx => hall x (List.mem_cons_of_mem t hx)), cells_card]
    have h0 : (0 : ℤ) ≤ t.r := hall t (List.mem_cons_self t l)
    push_cast
    rw [Int.toNat_of_nonneg h0]

/-- **C7 (counterexample)**: a size exceeding the width yields a tile whose
area exceeds `width * rows`: on width 2, placing size 3 gives area 9 over a
2-wide, 3-row grid (capacity 6). -/
theorem place_area_exceeds_bound :
    (placeAll 2 [3]).map
      (fun p => ((p.2.map (fun t => t.r * t.r)).sum, p.1.width * (p.1.rows.length : ℤ)))
      = some (9, 6) ∧ ¬((9 : ℤ) ≤ 6) := by
  constructor
  · decide
  · decide

/-- **C7 (amended)**: when every requested size fits the (positive) width, the
total tile area never exceeds `width * rows`. -/
theorem place_area_bound_of_fits (width : ℤ) (sizes : List ℤ)
    (hw : 0 < width) (hsz : ∀ s ∈ sizes, 1 ≤ s) (hfits : ∀ s ∈ sizes, s ≤ width)
    (st : MondrianLayout) (tiles : List Square)
    (h : placeAll width sizes = some (st, tiles)) :
    (tiles.map (fun t => t.r * t.r)).sum ≤ width * (st.rows.length : ℤ) := by
  obtain ⟨hInv, hW, hR⟩ := placeAll_spec hsz h
  have hmemr : ∀ t ∈ tiles, t.r ∈ sizes := by
    intro t ht
    rw [← hR]
    exact List.mem_map_of_mem _ ht
  have hbounds : ∀ t ∈ tiles, 0 ≤ t.x ∧ t.x + t.r ≤ width ∧ 0 ≤ t.y ∧
      t.y + t.r ≤ (st.rows.length : ℤ) ∧ 1 ≤ t.r := by
    intro t ht
    have hr1 : 1 ≤ t.r := hsz _ (hmemr t ht)
    have hrw : t.r ≤ width := hfits _ (hmemr t ht)
    refine ⟨hInv.tileX t ht, ?_, hInv.tileY t ht, hInv.tileRows t ht hr1, hr1⟩
    rw [← hW]
    exact hInv.tileW t ht (by rw [hW]; exact hrw)
  have hsum := sum_card_le_of_pairwise_disjoint tiles
    (Finset.Ico 0 width ×ˢ Finset.Ico 0 (st.rows.length : ℤ)) hInv.disj
    (fun t ht => cells_subset (hbounds t ht).1 (hbounds t ht).2.1
      (hbounds t ht).2.2.1 (hbounds t ht).2.2.2.1)
  rw [Finset.card_product, Int.card_Ico, Int.card_Ico, sub_zero, sub_zero] at hsum
  rw [sum_squares_cast tiles (fun t ht => by have := (hbounds t ht).2.2.2.2; omega)]
  have hz : ((tiles.map (fun t => (Square.cells t).card)).sum : ℤ) ≤
      ((width.toNat * ((st.rows.length : ℤ)).toNat : ℕ) : ℤ) := by
    exact_mod_cast hsum
  have hw' : ((width.toNat : ℕ) : ℤ) = width := by omega
  have hL' : ((((st.rows.length : ℤ)).toNat : ℕ) : ℤ) = (st.rows.length : ℤ) := by omega
  rw [Nat.cast_mul, hw', hL'] at hz
  exact hz

/-- Witness: the amended area bound applied to the concrete run
`placeAll 3 [1, 2]` (area 5 within capacity 6). -/
theorem place_area_bound_of_fits_witness :
    ((0 : ℤ) < 3 ∧ (∀ s ∈ [(1 : ℤ), 2], 1 ≤ s) ∧ (∀ s ∈ [(1 : ℤ), 2], s ≤ 3)) ∧
    (([{ x := 0, y := 0, r := 1 }, { x := 1, y := 0, r := 2 }] : List Square).map
      (fun t => t.r * t.r)).sum ≤ 3 *
        (([({ y := 0, slots := [] } : Row),
           { y := 1, slots := [{ x := 0, y := 1, r := 1 }] }].length : ℕ) : ℤ) :=
  ⟨⟨by decide, by decide, by decide⟩,
    place_area_bound_of_fits 3 [1, 2] (by decide) (by decide) (by decide)
      { width := 3, rowOffset := 0,
        rows := [{ y := 0, slots := [] },
                 { y := 1, slots := [{ x := 0, y := 1, r := 1 }] }],
        txMap := [[some 0, some 1, some 1], [none, some 1, some 1]] }
      [{ x := 0, y := 0, r := 1 }, { x := 1, y := 0, r := 2 }]
      (by decide)⟩

end HpecDao

namespace HpecDao

theorem floodStep_measure {W H : ℕ} {pix : ℕ → ℕ → ℕ × ℕ × ℕ}
    {s s' : FloodState} (h : floodStep W H pix s = some s') :
    floodMeasure W H s' < floodMeasure W H s := by
  unfold floodStep at h
  rcases hst : s.stack with _ | ⟨⟨cx, cy⟩, rest⟩
  · rw [hst] at h
    exact absurd h (by simp)
  rw [hst] at h
  simp only at h
  split at h
  · obtain rfl := Option.some_inj.mp h
    rw [floodMeasure, floodMeasure, hst]
    simp
  split at h
  · obtain rfl := Option.some_inj.mp h
    rw [floodMeasure, floodMeasure, hst]
    simp
  split at h
  · exact absurd h (by simp)
  split at h
  · obtain rfl := Option.some_inj.mp h
    rename_i hnvis hinb hcnt hcol
    push_neg at hinb
    have hmem : (cx, cy) ∈ (Finset.Ico (0 : ℤ) (W : ℤ) ×ˢ Finset.Ico (0 : ℤ) (H : ℤ)) \ s.visited := by
      rw [Finset.mem_sdiff, Finset.mem_product, Finset.mem_Ico, Finset.mem_Ico]
      exact ⟨⟨⟨by omega, by omega⟩, ⟨by omega, by omega⟩⟩, hnvis⟩
    rw [floodMeasure, floodMeasure, hst]
    simp only [List.length_cons]
    have hcard : ((Finset.Ico (0 : ℤ) (W : ℤ) ×ˢ Finset.Ico (0 : ℤ) (H : ℤ)) \
        insert (cx, cy) s.visited).card =
        ((Finset.Ico (0 : ℤ) (W : ℤ) ×ˢ Finset.Ico (0 : ℤ) (H : ℤ)) \ s.visited).card - 1 := by
      rw [Finset.sdiff_insert]
      rw [Finset.card_erase_of_mem hmem]
    have hpos : 1 ≤ ((Finset.Ico (0 : ℤ) (W : ℤ) ×ˢ Finset.Ico (0 : ℤ) (H : ℤ)) \
        s.visited).card := Finset.card_pos.mpr ⟨_, hmem⟩
    simp only [hcard]
    omega
  · obtain rfl := Option.some_inj.mp h
    rw [floodMeasure, floodMeasure, hst]
    simp

/-- **C10**: every flood fill performed by the reconstruction scan terminates:
from any state, after finitely many iterations the explicit-stack loop is
done. -/
theorem flood_fill_terminates (W H : ℕ) (pix : ℕ → ℕ → ℕ × ℕ × ℕ)
    (s : FloodState) :
    ∃ n : ℕ, floodStep W H pix (floodGo W H pix n s) = none := by
  suffices h : ∀ (k : ℕ) (s : FloodState), floodMeasure W H s ≤ k →
      ∃ n : ℕ, floodStep W H pix (floodGo W H pix n s) = none by
    exact h (floodMeasure W H s) s (le_refl _)
  intro k
  induction k with
  | zero =>
    intro s hm
    rcases hstep : floodStep W H pix s with _ | s'
    · exact ⟨0, hstep⟩
    · have := floodStep_measure hstep
      omega
  | succ k ih =>
    intro s hm
    rcases hstep : floodStep W H pix s with _ | s'
    · exact ⟨0, hstep⟩
    · have hlt := floodStep_measure hstep
      obtain ⟨n, hn⟩ := ih s' (by omega)
      refine ⟨n + 1, ?_⟩
      rw [floodGo, hstep]
      exact hn

end HpecDao

namespace HpecDao

theorem adjStep_symm {W H : ℕ} {pix : ℕ → ℕ → ℕ × ℕ × ℕ} :
    Symmetric (adjStep W H pix) := by
  rintro p q ⟨hp, hq, hadj⟩
  exact ⟨hq, hp, by omega⟩

theorem conn_symm {W H : ℕ} {pix : ℕ → ℕ → ℕ × ℕ × ℕ} {p q : ℤ × ℤ}
    (h : Conn W H pix p q) : Conn W H pix q p :=
  Relation.ReflTransGen.symmetric adjStep_symm h

/-- Everything the flood fill marks is 4-connected to a point the stack
invariant covers; the visited set only grows. -/
theorem floodGo_marks {W H : ℕ} {pix : ℕ → ℕ → ℕ × ℕ × ℕ} (seed : ℤ × ℤ) :
    ∀ (n : ℕ) (s : FloodState),
      (∀ q ∈ s.stack, ColoredInb W H pix q → Conn W H pix seed q) →
      s.visited ⊆ (floodGo W H pix n s).visited ∧
      ∀ v ∈ (floodGo W H pix n s).visited,
        v ∈ s.visited ∨ Conn W H pix seed v := by
  intro n
  induction n with
  | zero =>
    intro s hstk
    exact ⟨Finset.Subset.refl _, fun v hv => Or.inl hv⟩
  | succ n ih =>
    intro s hstk
    rw [floodGo]
    rcases hstep : floodStep W H pix s with _ | s'
    · exact ⟨Finset.Subset.refl _, fun v hv => Or.inl hv⟩
    have hmain : s.visited ⊆ s'.visited ∧
        (∀ v ∈ s'.visited, v ∈ s.visited ∨ Conn W H pix seed v) ∧
        (∀ q ∈ s'.stack, ColoredInb W H pix q → Conn W H pix seed q) := by
      unfold floodStep at hstep
      rcases hst : s.stack with _ | ⟨⟨cx, cy⟩, rest⟩
      · rw [hst] at hstep
        exact absurd hstep (by simp)
      rw [hst] at hstep
      simp only at hstep
      have hrest : ∀ q ∈ rest, ColoredInb W H pix q → Conn W H pix seed q :=
        fun q hq => hstk q (by rw [hst]; exact List.mem_cons_of_mem _ hq)
      split at hstep
      · obtain rfl := Option.some_inj.mp hstep
        exact ⟨Finset.Subset.refl _, fun v hv => Or.inl hv, hrest⟩
      split at hstep
      · obtain rfl := Option.some_inj.mp hstep
        exact ⟨Finset.Subset.refl _, fun v hv => Or.inl hv, hrest⟩
      split at hstep
      · exact absurd hstep (by simp)
      split at hstep
      · obtain rfl := Option.some_inj.mp hstep
        rename_i hnvis hinb hcnt hcol
        push_neg at hinb
        have hcxy : ColoredInb W H pix (cx, cy) :=
          ⟨hinb.1, hinb.2.1, hinb.2.2.1, hinb.2.2.2, hcol⟩
        have hconn : Conn W H pix seed (cx, cy) :=
          hstk (cx, cy) (by rw [hst]; exact List.mem_cons_self _ _) hcxy
        refine ⟨Finset.subset_insert _ _, ?_, ?_⟩
        · intro v hv
          rcases Finset.mem_insert.mp hv with rfl | hv
          · exact Or.inr hconn
          · exact Or.inl hv
        · intro q hq hqc
          rcases hq with _ | ⟨_, hq⟩
          · exact Relation.ReflTransGen.tail hconn
              ⟨hcxy, hqc, Or.inr (Or.inr (Or.inr ⟨rfl, rfl⟩))⟩
          rcases hq with _ | ⟨_, hq⟩
          · exact Relation.ReflTransGen.tail hconn
              ⟨hcxy, hqc, Or.inr (Or.inr (Or.inl ⟨rfl, rfl⟩))⟩
          rcases hq with _ | ⟨_, hq⟩
          · exact Relation.ReflTransGen.tail hconn
              ⟨hcxy, hqc, Or.inr (Or.inl ⟨rfl, rfl⟩)⟩
          rcases hq with _ | ⟨_, hq⟩
          · exact Relation.ReflTransGen.tail hconn
              ⟨hcxy, hqc, Or.inl ⟨rfl, rfl⟩⟩
          · exact hrest q hq hqc
      · obtain rfl := Option.some_inj.mp hstep
        exact ⟨Finset.Subset.refl _, fun v hv => Or.inl hv, hrest⟩
    obtain ⟨hsub, hchar, hstk'⟩ := hmain
    obtain ⟨ihsub, ihchar⟩ := ih s' hstk'
    refine ⟨hsub.trans ihsub, ?_⟩
    intro v hv
    rcases ihchar v hv with hv' | hc
    · rcases hchar v hv' with hv'' | hc
      · exact Or.inl hv''
      · exact Or.inr hc
    · exact Or.inr hc

/-- The seed itself is marked on the first iteration. -/
theorem floodGo_seed_marked {W H : ℕ} {pix : ℕ → ℕ → ℕ × ℕ × ℕ} {x y : ℕ}
    (hx : x < W) (hy : y < H) (hcol : matchColor (pix x y) = true)
    (visited0 : Finset (ℤ × ℤ)) (hnv : ((x : ℤ), (y : ℤ)) ∉ visited0) (n : ℕ) :
    ((x : ℤ), (y : ℤ)) ∈ (floodGo W H pix (n + 1)
      ⟨visited0, (x : ℤ), (x : ℤ), (y : ℤ), (y : ℤ), 0, [((x : ℤ), (y : ℤ))]⟩).visited := by
  have hstep : floodStep W H pix
      ⟨visited0, (x : ℤ), (x : ℤ), (y : ℤ), (y : ℤ), 0, [((x : ℤ), (y : ℤ))]⟩ =
      some { visited := insert ((x : ℤ), (y : ℤ)) visited0,
             minX := min (x : ℤ) (x : ℤ), maxX := max (x : ℤ) (x : ℤ),
             minY := min (y : ℤ) (y : ℤ), maxY := max (y : ℤ) (y : ℤ),
             count := 0 + 1,
             stack := (((x : ℤ), (y : ℤ) - 1)) :: (((x : ℤ), (y : ℤ) + 1)) ::
               (((x : ℤ) - 1, (y : ℤ))) :: (((x : ℤ) + 1, (y : ℤ))) :: [] } := by
    unfold floodStep
    simp only
    rw [if_neg hnv, if_neg (by push_neg; omega), if_neg (by omega),
      if_pos (by rw [Int.toNat_natCast, Int.toNat_natCast]; exact hcol)]
  rw [floodGo, hstep]
  have hcxy : ColoredInb W H pix ((x : ℤ), (y : ℤ)) := by
    refine ⟨by omega, by omega, by omega, by omega, ?_⟩
    rw [Int.toNat_natCast, Int.toNat_natCast]
    exact hcol
  have hstack : ∀ q ∈ ([((x : ℤ), (y : ℤ) - 1), ((x : ℤ), (y : ℤ) + 1),
      ((x : ℤ) - 1, (y : ℤ)), ((x : ℤ) + 1, (y : ℤ))] : List (ℤ × ℤ)),
      ColoredInb W H pix q → Conn W H pix ((x : ℤ), (y : ℤ)) q := by
    intro q hq hqc
    rcases hq with _ | ⟨_, hq⟩
    · exact Relation.ReflTransGen.tail Relation.ReflTransGen.refl
        ⟨hcxy, hqc, Or.inr (Or.inr (Or.inr ⟨rfl, rfl⟩))⟩
    rcases hq with _ | ⟨_, hq⟩
    · exact Relation.ReflTransGen.tail Relation.ReflTransGen.refl
        ⟨hcxy, hqc, Or.inr (Or.inr (Or.inl ⟨rfl, rfl⟩))⟩
    rcases hq with _ | ⟨_, hq⟩
    · exact Relation.ReflTransGen.tail Relation.ReflTransGen.refl
        ⟨hcxy, hqc, Or.inr (Or.inl ⟨rfl, rfl⟩)⟩
    rcases hq with _ | ⟨_, hq⟩
    · exact Relation.ReflTransGen.tail Relation.ReflTransGen.refl
        ⟨hcxy, hqc, Or.inl ⟨rfl, rfl⟩⟩
    · cases hq
  have hmono := (@floodGo_marks W H pix ((x : ℤ), (y : ℤ)) n
    { visited := insert ((x : ℤ), (y : ℤ)) visited0,
      minX := min (x : ℤ) (x : ℤ), maxX := max (x : ℤ) (x : ℤ),
      minY := min (y : ℤ) (y : ℤ), maxY := max (y : ℤ) (y : ℤ),
      count := 0 + 1,
      stack := [((x : ℤ), (y : ℤ) - 1), ((x : ℤ), (y : ℤ) + 1),
        ((x : ℤ) - 1, (y : ℤ)), ((x : ℤ) + 1, (y : ℤ))] } hstack).1
  exact hmono (Finset.mem_insert_self _ _)

end HpecDao

namespace HpecDao

/-- The scan invariant: one fresh seed per recorded square, every visited
pixel connected to a seed, and (absent the cap) every scanned tile-colored
pixel visited. -/
theorem scanGo_spec {W H : ℕ} {pix : ℕ → ℕ → ℕ × ℕ × ℕ} :
    ∀ (coords : List (ℕ × ℕ)) (visited : Finset (ℤ × ℤ)) (sqs : List ParsedSquare)
      (seeds : Finset (ℤ × ℤ)),
      seeds.card = sqs.length → sqs.length ≤ 10000 → seeds ⊆ visited →
      (∀ v ∈ visited, ∃ s ∈ seeds, Conn W H pix s v) →
      (∀ p ∈ coords, p.1 < W ∧ p.2 < H) →
      (scanGo W H pix coords visited sqs).length = 10000 ∨
      ∃ visited' seeds', visited ⊆ visited' ∧
        seeds'.card = (scanGo W H pix coords visited sqs).length ∧
        (scanGo W H pix coords visited sqs).length ≤ 10000 ∧
        seeds' ⊆ visited' ∧
        (∀ v ∈ visited', ∃ s ∈ seeds', Conn W H pix s v) ∧
        (∀ p ∈ coords, matchColor (pix p.1 p.2) = true →
          ((p.1 : ℤ), (p.2 : ℤ)) ∈ visited') := by
  intro coords
  induction coords with
  | nil =>
    intro visited sqs seeds hcard hlen hsub hconn hbnd
    rw [scanGo]
    exact Or.inr ⟨visited, seeds, Finset.Subset.refl _, hcard, hlen, hsub, hconn,
      fun p hp => absurd hp (by simp)⟩
  | cons p rest ih =>
    obtain ⟨x, y⟩ := p
    intro visited sqs seeds hcard hlen hsub hconn hbnd
    rw [scanGo]
    split
    · rename_i hcond
      split
      · rename_i hcap
        exact Or.inl (by omega)
      · rename_i hnocap
        have hx : x < W := (hbnd (x, y) (List.mem_cons_self _ _)).1
        have hy : y < H := (hbnd (x, y) (List.mem_cons_self _ _)).2
        have hseed : ((x : ℤ), (y : ℤ)) ∈ (floodGo W H pix (5 * (W * H) + 2)
        ⟨visited, (x : ℤ), (x : ℤ), (y : ℤ), (y : ℤ), 0, [((x : ℤ), (y : ℤ))]⟩).visited :=
          floodGo_seed_marked hx hy hcond.1 visited hcond.2 (5 * (W * H) + 1)
        have hmarks := @floodGo_marks W H pix ((x : ℤ), (y : ℤ)) (5 * (W * H) + 2)
          ⟨visited, (x : ℤ), (x : ℤ), (y : ℤ), (y : ℤ), 0, [((x : ℤ), (y : ℤ))]⟩
          (by
            intro q hq hqc
            rcases hq with _ | ⟨_, hq⟩
            · exact Relation.ReflTransGen.refl
            · cases hq)
        have hseednew : ((x : ℤ), (y : ℤ)) ∉ seeds :=
          fun hc => hcond.2 (hsub hc)
        have hcard1 : (insert ((x : ℤ), (y : ℤ)) seeds).card =
            (sqs ++ [(⟨(floodGo W H pix (5 * (W * H) + 2)
        ⟨visited, (x : ℤ), (x : ℤ), (y : ℤ), (y : ℤ), 0, [((x : ℤ), (y : ℤ))]⟩).minX, (floodGo W H pix (5 * (W * H) + 2)
        ⟨visited, (x : ℤ), (x : ℤ), (y : ℤ), (y : ℤ), 0, [((x : ℤ), (y : ℤ))]⟩).maxX, (floodGo W H pix (5 * (W * H) + 2)
        ⟨visited, (x : ℤ), (x : ℤ), (y : ℤ), (y : ℤ), 0, [((x : ℤ), (y : ℤ))]⟩).minY, (floodGo W H pix (5 * (W * H) + 2)
        ⟨visited, (x : ℤ), (x : ℤ), (y : ℤ), (y : ℤ), 0, [((x : ℤ), (y : ℤ))]⟩).maxY,
              sqs.length⟩ : ParsedSquare)]).length := by
          rw [Finset.card_insert_of_not_mem hseednew, List.length_append,
            List.length_singleton, hcard]
        have hlen1 : (sqs ++ [(⟨(floodGo W H pix (5 * (W * H) + 2)
        ⟨visited, (x : ℤ), (x : ℤ), (y : ℤ), (y : ℤ), 0, [((x : ℤ), (y : ℤ))]⟩).minX, (floodGo W H pix (5 * (W * H) + 2)
        ⟨visited, (x : ℤ), (x : ℤ), (y : ℤ), (y : ℤ), 0, [((x : ℤ), (y : ℤ))]⟩).maxX, (floodGo W H pix (5 * (W * H) + 2)
        ⟨visited, (x : ℤ), (x : ℤ), (y : ℤ), (y : ℤ), 0, [((x : ℤ), (y : ℤ))]⟩).minY, (floodGo W H pix (5 * (W * H) + 2)
        ⟨visited, (x : ℤ), (x : ℤ), (y : ℤ), (y : ℤ), 0, [((x : ℤ), (y : ℤ))]⟩).maxY,
            sqs.length⟩ : ParsedSquare)]).length ≤ 10000 := by
          rw [List.length_append, List.length_singleton]
          omega
        have hsub1 : insert ((x : ℤ), (y : ℤ)) seeds ⊆ (floodGo W H pix (5 * (W * H) + 2)
        ⟨visited, (x : ℤ), (x : ℤ), (y : ℤ), (y : ℤ), 0, [((x : ℤ), (y : ℤ))]⟩).visited := by
          intro s hs
          rcases Finset.mem_insert.mp hs with rfl | hs
          · exact hseed
          · exact hmarks.1 (hsub hs)
        have hconn1 : ∀ v ∈ (floodGo W H pix (5 * (W * H) + 2)
        ⟨visited, (x : ℤ), (x : ℤ), (y : ℤ), (y : ℤ), 0, [((x : ℤ), (y : ℤ))]⟩).visited,
            ∃ s ∈ insert ((x : ℤ), (y : ℤ)) seeds, Conn W H pix s v := by
          intro v hv
          rcases hmarks.2 v hv with hv | hc
          · obtain ⟨s, hs, hcv⟩ := hconn v hv
            exact ⟨s, Finset.mem_insert_of_mem hs, hcv⟩
          · exact ⟨((x : ℤ), (y : ℤ)), Finset.mem_insert_self _ _, hc⟩
        rcases ih (floodGo W H pix (5 * (W * H) + 2)
        ⟨visited, (x : ℤ), (x : ℤ), (y : ℤ), (y : ℤ), 0, [((x : ℤ), (y : ℤ))]⟩).visited
          (sqs ++ [(⟨(floodGo W H pix (5 * (W * H) + 2)
        ⟨visited, (x : ℤ), (x : ℤ), (y : ℤ), (y : ℤ), 0, [((x : ℤ), (y : ℤ))]⟩).minX, (floodGo W H pix (5 * (W * H) + 2)
        ⟨visited, (x : ℤ), (x : ℤ), (y : ℤ), (y : ℤ), 0, [((x : ℤ), (y : ℤ))]⟩).maxX, (floodGo W H pix (5 * (W * H) + 2)
        ⟨visited, (x : ℤ), (x : ℤ), (y : ℤ), (y : ℤ), 0, [((x : ℤ), (y : ℤ))]⟩).minY, (floodGo W H pix (5 * (W * H) + 2)
        ⟨visited, (x : ℤ), (x : ℤ), (y : ℤ), (y : ℤ), 0, [((x : ℤ), (y : ℤ))]⟩).maxY,
            sqs.length⟩ : ParsedSquare)])
          (insert ((x : ℤ), (y : ℤ)) seeds) hcard1 hlen1 hsub1 hconn1
          (fun q hq => hbnd q (List.mem_cons_of_mem _ hq)) with hres | hres
        · exact Or.inl hres
        · obtain ⟨visited', seeds', hvsub, h1, h2, h3, h4, h5⟩ := hres
          refine Or.inr ⟨visited', seeds', (hmarks.1).trans hvsub, h1, h2, h3, h4, ?_⟩
          intro q hq hqcol
          rcases List.mem_cons.mp hq with rfl | hq
          · exact hvsub hseed
          · exact h5 q hq hqcol
    · rename_i hcond
      rcases ih visited sqs seeds hcard hlen hsub hconn
        (fun q hq => hbnd q (List.mem_cons_of_mem _ hq)) with hres | hres
      · exact Or.inl hres
      · obtain ⟨visited', seeds', hvsub, h1, h2, h3, h4, h5⟩ := hres
        refine Or.inr ⟨visited', seeds', hvsub, h1, h2, h3, h4, ?_⟩
        intro q hq hqcol
        rcases List.mem_cons.mp hq with rfl | hq
        · have hqin : ((x : ℤ), (y : ℤ)) ∈ visited := by
            by_contra hc
            exact hcond ⟨hqcol, hc⟩
          exact hvsub hqin
        · exact h5 q hq hqcol

theorem mem_scanCoords {W H x y : ℕ} (hx : x < W) (hy : y < H) :
    (x, y) ∈ scanCoords W H := by
  rw [scanCoords, List.mem_flatten]
  exact ⟨(List.range W).map (fun x => (x, y)),
    List.mem_map.mpr ⟨y, List.mem_range.mpr hy, rfl⟩,
    List.mem_map.mpr ⟨x, List.mem_range.mpr hx, rfl⟩⟩

theorem scanCoords_bounds {W H : ℕ} :
    ∀ p ∈ scanCoords W H, p.1 < W ∧ p.2 < H := by
  intro p hp
  rw [scanCoords, List.mem_flatten] at hp
  obtain ⟨l, hl, hpl⟩ := hp
  rw [List.mem_map] at hl
  obtain ⟨y, hy, rfl⟩ := hl
  rw [List.mem_map] at hpl
  obtain ⟨x, hx, rfl⟩ := hpl
  exact ⟨List.mem_range.mp hx, List.mem_range.mp hy⟩

/-- **C8**: the reconstruction never emits more than 10,000 components: on any
pixel buffer holding at least 10,001 pairwise-unconnected tile-colored
pixels, the scan returns exactly 10,000 squares. -/
theorem reconstruction_component_cap (W H : ℕ) (pix : ℕ → ℕ → ℕ × ℕ × ℕ)
    (reps : Finset (ℤ × ℤ)) (hcard : 10001 ≤ reps.card)
    (hcol : ∀ p ∈ reps, ColoredInb W H pix p)
    (hsep : ∀ p ∈ reps, ∀ q ∈ reps, p ≠ q → ¬ Conn W H pix p q) :
    (parseSquares W H pix).length = 10000 := by
  rcases scanGo_spec (scanCoords W H) ∅ [] ∅ (by simp) (by simp) (by simp)
    (fun v hv => absurd hv (by simp)) scanCoords_bounds with hres | hres
  · exact hres
  obtain ⟨visited', seeds', hvsub, h1, h2, h3, h4, h5⟩ := hres
  exfalso
  have hrepvis : ∀ p ∈ reps, ∃ s, s ∈ seeds' ∧ Conn W H pix s p := by
    intro p hp
    obtain ⟨hp0, hpW, hp1, hpH, hpc⟩ := hcol p hp
    have hxy : ((p.1.toNat : ℤ), (p.2.toNat : ℤ)) = p := by
      rw [Int.toNat_of_nonneg hp0, Int.toNat_of_nonneg hp1]
    have hmem : ((p.1.toNat : ℤ), (p.2.toNat : ℤ)) ∈ visited' :=
      h5 (p.1.toNat, p.2.toNat)
        (mem_scanCoords (by omega) (by omega)) hpc
    rw [hxy] at hmem
    exact h4 p hmem
  have hallp : ∀ p : ℤ × ℤ, ∃ s : ℤ × ℤ,
      p ∈ reps → s ∈ seeds' ∧ Conn W H pix s p := by
    intro p
    by_cases hp : p ∈ reps
    · obtain ⟨s, hs⟩ := hrepvis p hp
      exact ⟨s, fun _ => hs⟩
    · exact ⟨(0, 0), fun hc => absurd hc hp⟩
  choose f hf using hallp
  obtain ⟨p, hp, q, hq, hne, heq⟩ :=
    Finset.exists_ne_map_eq_of_card_lt_of_maps_to
      (show seeds'.card < reps.card by omega)
      (fun p hp => (hf p hp).1)
  have hcpq : Conn W H pix p q :=
    Relation.ReflTransGen.trans (conn_symm (hf p hp).2) (heq ▸ (hf q hq).2)
  exact hsep p hp q hq hne hcpq

end HpecDao

namespace HpecDao

theorem isolatedPix_nostep : ∀ a b : ℤ × ℤ, ¬ adjStep 20001 1 isolatedPix a b := by
  rintro a b ⟨⟨ha0, haW, ha1, haH, hac⟩, ⟨hb0, hbW, hb1, hbH, hbc⟩, hadj⟩
  have hae : a.1.toNat % 2 = 0 := by
    by_contra hc
    unfold isolatedPix at hac
    rw [if_neg hc] at hac
    exact absurd hac (by decide)
  have hbe : b.1.toNat % 2 = 0 := by
    by_contra hc
    unfold isolatedPix at hbc
    rw [if_neg hc] at hbc
    exact absurd hbc (by decide)
  omega

theorem isolatedPix_conn_eq : ∀ p q : ℤ × ℤ,
    Conn 20001 1 isolatedPix p q → p = q := by
  intro p q h
  rcases Relation.ReflTransGen.cases_head h with rfl | ⟨c, hstep, _⟩
  · rfl
  · exact absurd hstep (isolatedPix_nostep p c)

/-- Witness: the component cap applied to a 20001x1 buffer with 10,001
isolated tile-colored pixels. -/
theorem reconstruction_component_cap_witness :
    10001 ≤ ((Finset.range 10001).image
      (fun k : ℕ => (((2 * k : ℕ) : ℤ), (0 : ℤ)))).card ∧
    (parseSquares 20001 1 isolatedPix).length = 10000 := by
  have hinj : Function.Injective (fun k : ℕ => (((2 * k : ℕ) : ℤ), (0 : ℤ))) := by
    intro a b h
    have h1 : ((2 * a : ℕ) : ℤ) = ((2 * b : ℕ) : ℤ) := congrArg Prod.fst h
    omega
  have hcard : 10001 ≤ ((Finset.range 10001).image
      (fun k : ℕ => (((2 * k : ℕ) : ℤ), (0 : ℤ)))).card := by
    rw [Finset.card_image_of_injective _ hinj, Finset.card_range]
  refine ⟨hcard, ?_⟩
  refine reconstruction_component_cap 20001 1 isolatedPix
    ((Finset.range 10001).image (fun k : ℕ => (((2 * k : ℕ) : ℤ), (0 : ℤ))))
    hcard ?_ ?_
  · intro p hp
    obtain ⟨k, hk, rfl⟩ := Finset.mem_image.mp hp
    have hk1 : k < 10001 := Finset.mem_range.mp hk
    refine ⟨by show (0 : ℤ) ≤ ((2 * k : ℕ) : ℤ); omega,
      by show ((2 * k : ℕ) : ℤ) < ((20001 : ℕ) : ℤ); omega,
      by show (0 : ℤ) ≤ (0 : ℤ); omega,
      by show (0 : ℤ) < ((1 : ℕ) : ℤ); omega, ?_⟩
    show matchColor (isolatedPix (((2 * k : ℕ) : ℤ)).toNat ((0 : ℤ)).toNat) = true
    rw [Int.toNat_natCast]
    unfold isolatedPix
    rw [if_pos (Nat.mul_mod_right 2 k)]
    decide
  · intro p hp q hq hne hc
    exact hne (isolatedPix_conn_eq p q hc)

end HpecDao
